import Mathlib

/-!
# The chained hash table of `src/hashmap.c`

A shallow embedding of the hash table and a verification of its contract.

Conventions of the embedding.

* A `void *` is an address (`Ptr`, a natural number); `NULL` is address `0`.  The
  functions `hash` and `cmp` of a table receive addresses, as in C.
* The bucket array `ENTRY **entry` is a list of chains; the chain of a bucket is
  the list of its nodes from the head, so that the `next` field of a node is the
  tail of the list behind it.
* The `int` fields are mathematical integers in the functions that carry the
  names of the source; where a C expression would leave the range of `int`
  (signed overflow, or a conversion from `float` that does not fit) the C call
  is undefined, and the `_checked` form of the call has no result (`none`).  A
  failing allocation ends the process and is not represented.  A hash value is
  an `unsigned int`, reduced modulo `2 ^ 32`.
* The `float` load factor is a dyadic rational `num / 2 ^ exp` (every finite
  float is one).  `(int)(max * factor)` is evaluated as a C compiler with
  single-precision evaluation (`FLT_EVAL_METHOD` 0) does: `max` is converted to
  `float`, the product is rounded to `float` (24 significant bits, to nearest,
  ties to even), and the conversion to `int` truncates toward zero.
* `xfree` appends the released block to the log `freed` carried with the table.
  Only key and value blocks have addresses here; the releases of nodes and of
  the bucket array are not recorded.
* `xmemdup` takes a fresh address from an allocator state (`MEMORY`).  The two
  duplications of `hashmap_put` are arguments of one call, so C leaves their
  order open; the embedding takes the order as a parameter (`ARG_ORDER`).
* An address names one block for the whole run.  The functions `hash` and `cmp`
  read the blocks they are given, so a call that hands them a released block,
  or that releases a block twice, is undefined; the `_checked` forms have no
  result for such a call.
* Functions that test their handle (`if (h)`) take an `Option HASHMAP`, where
  `none` is the `NULL` handle.
-/

set_option autoImplicit false

/-- An address: the embedding of `void *`. -/
abbrev Ptr := Nat

/-- The null pointer. -/
def NULL : Ptr := 0

/-- Number of values of an `unsigned int`. -/
def UINT_RANGE : Nat := 4294967296

/-- A finite `float`, held exactly as `num / 2 ^ exp`. -/
structure FLOAT where
  num : Int
  exp : Nat
  deriving DecidableEq, Repr

/-- The number of binary digits of `n`, counted by halving; `fuel` bounds the
number of halvings. -/
def bit_length_loop : Nat → Nat → Nat
  | 0, _ => 0
  | fuel + 1, n => if n = 0 then 0 else bit_length_loop fuel (n / 2) + 1

/-- The number of binary digits of `n` (0 for `n = 0`). -/
def bit_length (n : Nat) : Nat := bit_length_loop n n

/-- The number of binary digits of the significand of a `float`. -/
def FLT_MANT_DIG : Nat := 24

/-- Rounding of a magnitude to `FLT_MANT_DIG` significant binary digits: to the
nearest such number, and to the one with an even significand when two are
equally near. -/
def round_single (a : Nat) : Nat :=
  let shift := bit_length a - FLT_MANT_DIG
  let q := a / 2 ^ shift
  let r := a % 2 ^ shift
  if 2 * r > 2 ^ shift ∨ (2 * r = 2 ^ shift ∧ q % 2 = 1) then (q + 1) * 2 ^ shift
  else q * 2 ^ shift

/-- Rounding of an exact value to a `float`.  The exponent range of the format
is not represented: a magnitude too small for it converts to the `int` 0 with or
without it, and a magnitude too large for it is outside the range of `int`. -/
def float_round (f : FLOAT) : FLOAT :=
  { num := if f.num < 0 then -(round_single f.num.natAbs : Int)
           else (round_single f.num.natAbs : Int)
    exp := f.exp }

/-- The conversion of an `int` to `float`. -/
def float_of_int (n : Int) : FLOAT := float_round { num := n, exp := 0 }

/-- The product of two `float` values, in single precision. -/
def float_mul (a b : FLOAT) : FLOAT :=
  float_round { num := a.num * b.num, exp := a.exp + b.exp }

/-- The conversion `(int)` of a `float`: truncation toward zero. -/
def float_to_int (f : FLOAT) : Int := Int.tdiv f.num (2 ^ f.exp)

/-- The expression `(int)(n * f)` for an `int n` and a `float f`. -/
def float_scale (n : Int) (f : FLOAT) : Int :=
  float_to_int (float_mul (float_of_int n) f)

/-- The constant `0.75` of `hashmap_create`. -/
def FACTOR_DEFAULT : FLOAT := { num := 3, exp := 2 }

/-- `struct ENTRY`: a node of a collision chain.  The `next` field is the rest of
the chain the node stands in. -/
structure ENTRY where
  key : Ptr
  value : Ptr
  hash : Nat
  deriving DecidableEq, Repr

instance : Inhabited ENTRY := ⟨{ key := NULL, value := NULL, hash := 0 }⟩

/-- `struct HASHMAP`, together with the log of the blocks handed to `xfree`. -/
structure HASHMAP where
  hash : Ptr → Nat
  cmp : Ptr → Ptr → Int
  entry : List (List ENTRY)
  max : Int
  cur : Int
  off : Int
  threshold : Int
  factor : FLOAT
  freed : List Ptr

/-- Modelled from the spec: `xfree` of `xalloc.h`, which is not among the
sources.  It releases the block it is given, which the log records; releasing
`NULL` releases nothing. -/
def xfree (log : List Ptr) (p : Ptr) : List Ptr :=
  if p = NULL then log else log ++ [p]

/-- `hashmap_create`: a zeroed bucket array of `max` chains. -/
def hashmap_create (max off : Int) (hash : Ptr → Nat) (cmp : Ptr → Ptr → Int) : HASHMAP :=
  { hash := hash
    cmp := cmp
    entry := List.replicate max.toNat []
    max := max
    cur := 0
    off := off
    threshold := float_scale max FACTOR_DEFAULT
    factor := FACTOR_DEFAULT
    freed := [] }

/-- The test of the chain walks: `hash == e->hash && (key == e->key || !cmp(key, e->key))`. -/
def entry_matches (cmp : Ptr → Ptr → Int) (key : Ptr) (hash : Nat) (e : ENTRY) : Bool :=
  hash == e.hash && (key == e.key || cmp key e.key == 0)

/-- The loop of `hashmap_find_entry` over one chain: the position in the chain of
the first node that passes the test. -/
def find_entry_loop (cmp : Ptr → Ptr → Int) (key : Ptr) (hash : Nat) : List ENTRY → Option Nat
  | [] => none
  | e :: next =>
    if entry_matches cmp key hash e then some 0
    else (find_entry_loop cmp key hash next).map (· + 1)

/-- `hashmap_find_entry`: the node found in bucket `pos`, as its position in that
chain, or `none` for the `NULL` result. -/
def hashmap_find_entry (h : HASHMAP) (key : Ptr) (hash : Nat) (pos : Nat) : Option Nat :=
  find_entry_loop h.cmp key hash (h.entry.getD pos [])

/-- The node at position `i` of bucket `pos`. -/
def entry_at (h : HASHMAP) (pos i : Nat) : ENTRY :=
  (h.entry.getD pos []).getD i default

/-- Writing the node at position `i` of bucket `pos`. -/
def entry_store (h : HASHMAP) (pos i : Nat) (e : ENTRY) : List (List ENTRY) :=
  h.entry.set pos ((h.entry.getD pos []).set i e)

/-- The inner loop of `hashmap_rehash`: every node of one old chain is given its
fresh hash and pushed on the front of its new chain; `cur` counts down. -/
def rehash_chain (hash : Ptr → Nat) (newmax : Int) (chain : List ENTRY)
    (acc : List (List ENTRY) × Int) : List (List ENTRY) × Int :=
  chain.foldl (fun a e =>
    let hv := hash e.key % UINT_RANGE
    let pos := hv % newmax.toNat
    (a.1.set pos ({ e with hash := hv } :: a.1.getD pos []), a.2 - 1)) acc

/-- The outer loop of `hashmap_rehash`: `for (it = 0; it < h->max && cur; it++)`. -/
def rehash_loop (h : HASHMAP) (newmax : Int) : List (List ENTRY) × Int :=
  (List.range h.max.toNat).foldl (fun a it =>
    if a.2 ≠ 0 then rehash_chain h.hash newmax (h.entry.getD it []) a else a)
    (List.replicate newmax.toNat [], h.cur)

/-- `hashmap_rehash`. -/
def hashmap_rehash (h : HASHMAP) (newmax : Int) : HASHMAP :=
  if h.cur ≠ 0 then
    { h with
      entry := (rehash_loop h newmax).1
      max := newmax
      threshold := float_scale newmax h.factor }
  else h

/-- The update branch of `hashmap_put_noalloc`: the node found, after the
replacement of its key and value, and the log after the releases. -/
def put_update (entry : ENTRY) (key value : Ptr) (log : List Ptr) : ENTRY × List Ptr :=
  if entry.key = entry.value then
    if entry.key ≠ key ∨ entry.value ≠ value then
      ({ entry with key := key, value := value }, xfree log entry.key)
    else (entry, log)
  else
    let s1 : ENTRY × List Ptr :=
      if entry.key ≠ key then ({ entry with key := key }, xfree log entry.key)
      else (entry, log)
    if s1.1.value ≠ value then ({ s1.1 with value := value }, xfree s1.2 s1.1.value)
    else s1

/-- The insertion of `hashmap_put_noalloc`: the new node becomes the head of the
chain of bucket `pos`, and `cur` is incremented. -/
def push_node (h : HASHMAP) (pos : Nat) (entry : ENTRY) : HASHMAP :=
  { h with entry := h.entry.set pos (entry :: h.entry.getD pos []), cur := h.cur + 1 }

/-- `hashmap_put_noalloc`: the table after the call and the returned `int`.  The
sum `h->max + h->off` and the product `h->max * -h->off` are those of the
integers; `hashmap_put_noalloc_checked` is the call with the range of `int`. -/
def hashmap_put_noalloc (h : HASHMAP) (key value : Ptr) : HASHMAP × Int :=
  let hash := h.hash key % UINT_RANGE
  let pos := hash % h.max.toNat
  match hashmap_find_entry h key hash pos with
  | some i =>
    let r := put_update (entry_at h pos i) key value h.freed
    ({ h with entry := entry_store h pos i r.1, freed := r.2 }, 1)
  | none =>
    let h1 : HASHMAP := push_node h pos { key := key, value := value, hash := hash }
    if h1.cur ≥ h1.threshold then
      if h1.off > 0 then (hashmap_rehash h1 (h1.max + h1.off), 0)
      else if h1.off < -1 then (hashmap_rehash h1 (h1.max * -h1.off), 0)
      else (h1, 0)
    else (h1, 0)

/-- The memory that the copying variants allocate from: the content of every
block and the address the allocator hands out next. -/
structure MEMORY where
  content : Ptr → List Nat
  brk : Ptr

/-- Modelled from the spec: `xmemdup` of `xalloc.h`, which is not among the
sources.  It returns a fresh block that holds a copy of the first `size` bytes
of the block given. -/
def xmemdup (m : MEMORY) (p : Ptr) (size : Nat) : MEMORY × Ptr :=
  ({ content := fun q => if q = m.brk then (m.content p).take size else m.content q
     brk := m.brk + 1 }, m.brk)

/-- The order in which the two argument expressions `xmemdup(key, keysize)` and
`value ? xmemdup(value, valuesize) : NULL` of the call in `hashmap_put` are
evaluated.  C leaves it to the compiler. -/
inductive ARG_ORDER where
  | key_first
  | value_first
  deriving DecidableEq, Repr

/-- The two duplications of `hashmap_put`, in the given order: the memory after
them, the duplicate of the key, and the duplicate of the value (`NULL` for a
`NULL` value). -/
def put_dups (m : MEMORY) (order : ARG_ORDER) (key : Ptr) (keysize : Nat) (value : Ptr)
    (valuesize : Nat) : MEMORY × Ptr × Ptr :=
  match order with
  | ARG_ORDER.key_first =>
    let k := xmemdup m key keysize
    let v := if value ≠ NULL then xmemdup k.1 value valuesize else (k.1, NULL)
    (v.1, k.2, v.2)
  | ARG_ORDER.value_first =>
    let v := if value ≠ NULL then xmemdup m value valuesize else (m, NULL)
    let k := xmemdup v.1 key keysize
    (k.1, k.2, v.2)

/-- `hashmap_put`: the key and (unless `NULL`) the value are duplicated, and the
duplicates are handed to `hashmap_put_noalloc`. -/
def hashmap_put (m : MEMORY) (order : ARG_ORDER) (h : HASHMAP) (key : Ptr) (keysize : Nat)
    (value : Ptr) (valuesize : Nat) : MEMORY × HASHMAP × Int :=
  let d := put_dups m order key keysize value valuesize
  (d.1, hashmap_put_noalloc h d.2.1 d.2.2)

/-- `hashmap_put_ident`: the duplicate of the key is key and value at once. -/
def hashmap_put_ident (m : MEMORY) (h : HASHMAP) (key : Ptr) (keysize : Nat) :
    MEMORY × HASHMAP × Int :=
  let keydup := xmemdup m key keysize
  (keydup.1, hashmap_put_noalloc h keydup.2 keydup.2)

/-- `hashmap_put_ident_noalloc`. -/
def hashmap_put_ident_noalloc (h : HASHMAP) (key : Ptr) : HASHMAP × Int :=
  hashmap_put_noalloc h key key

/-- `hashmap_get`: the value of the node found, or `NULL`. -/
def hashmap_get (h : HASHMAP) (key : Ptr) : Ptr :=
  let hash := h.hash key % UINT_RANGE
  let pos := hash % h.max.toNat
  match hashmap_find_entry h key hash pos with
  | some i => (entry_at h pos i).value
  | none => NULL

/-- The loop of `hashmap_remove_entry` over one chain: the chain with the first
matching node unlinked, and that node; `none` when the loop runs off the end. -/
def remove_loop (cmp : Ptr → Ptr → Int) (key : Ptr) (hash : Nat) :
    List ENTRY → Option (List ENTRY × ENTRY)
  | [] => none
  | e :: next =>
    if entry_matches cmp key hash e then some (next, e)
    else (remove_loop cmp key hash next).map (fun r => (e :: r.1, r.2))

/-- The releases of `hashmap_remove_entry` for the unlinked node. -/
def remove_free (e : ENTRY) (free_kv : Int) (log : List Ptr) : List Ptr :=
  if free_kv ≠ 0 then
    if e.key = e.value then xfree log e.key
    else xfree (xfree log e.key) e.value
  else log

/-- `hashmap_remove_entry`. -/
def hashmap_remove_entry (h : HASHMAP) (key : Ptr) (free_kv : Int) : HASHMAP :=
  let hash := h.hash key % UINT_RANGE
  let pos := hash % h.max.toNat
  match remove_loop h.cmp key hash (h.entry.getD pos []) with
  | some r =>
    { h with
      entry := h.entry.set pos r.1
      freed := remove_free r.2 free_kv h.freed
      cur := h.cur - 1 }
  | none => h

/-- `hashmap_remove`. -/
def hashmap_remove (h : Option HASHMAP) (key : Ptr) : Option HASHMAP :=
  h.map (fun t => hashmap_remove_entry t key 1)

/-- `hashmap_remove_nofree`. -/
def hashmap_remove_nofree (h : Option HASHMAP) (key : Ptr) : Option HASHMAP :=
  h.map (fun t => hashmap_remove_entry t key 0)

/-- The state of the loops of `hashmap_clear`: bucket array, countdown, log. -/
structure CLEAR_STATE where
  entry : List (List ENTRY)
  cur : Int
  freed : List Ptr

/-- The releases of `hashmap_clear` for one node. -/
def clear_free (log : List Ptr) (e : ENTRY) : List Ptr :=
  if e.value = e.key then xfree log e.value
  else xfree (xfree log e.value) e.key

/-- The inner loop of `hashmap_clear`: the releases for the nodes of one chain. -/
def clear_chain (chain : List ENTRY) (s : CLEAR_STATE) : CLEAR_STATE :=
  chain.foldl (fun a e => { a with freed := clear_free a.freed e, cur := a.cur - 1 }) s

/-- The outer loop of `hashmap_clear`: `for (it = 0; it < h->max && cur; it++)`,
each round ending with `h->entry[it] = NULL`. -/
def clear_loop (h : HASHMAP) : CLEAR_STATE :=
  (List.range h.max.toNat).foldl (fun a it =>
    if a.cur ≠ 0 then
      let b := clear_chain (a.entry.getD it []) a
      { b with entry := b.entry.set it [] }
    else a)
    { entry := h.entry, cur := h.cur, freed := h.freed }

/-- `hashmap_clear`. -/
def hashmap_clear (h : Option HASHMAP) : Option HASHMAP :=
  h.map (fun t =>
    let s := clear_loop t
    { t with entry := s.entry, freed := s.freed, cur := 0 })

/-- `hashmap_size`. -/
def hashmap_size (h : Option HASHMAP) : Int :=
  match h with
  | some t => t.cur
  | none => 0

/-- The state of the loops of `hashmap_browse`: the value to return (`0` while
the traversal runs), the countdown, and the visitor calls made so far. -/
structure BROWSE_STATE where
  ret : Int
  cur : Int
  calls : List ENTRY

/-- The inner loop of `hashmap_browse` over one chain. -/
def browse_chain (browse : Ptr → Ptr → Int) : List ENTRY → BROWSE_STATE → BROWSE_STATE
  | [], s => s
  | e :: next, s =>
    if browse e.key e.value ≠ 0 then
      { s with ret := browse e.key e.value, calls := s.calls ++ [e] }
    else browse_chain browse next { s with cur := s.cur - 1, calls := s.calls ++ [e] }

/-- The outer loop of `hashmap_browse`; a round is entered only while nothing
has been returned. -/
def browse_loop (h : HASHMAP) (browse : Ptr → Ptr → Int) : BROWSE_STATE :=
  (List.range h.max.toNat).foldl (fun a it =>
    if a.ret = 0 ∧ a.cur ≠ 0 then browse_chain browse (h.entry.getD it []) a else a)
    { ret := 0, cur := h.cur, calls := [] }

/-- `hashmap_browse`, with the sequence of nodes the visitor was called on. -/
def hashmap_browse_run (h : Option HASHMAP) (browse : Ptr → Ptr → Int) : Int × List ENTRY :=
  match h with
  | some t => ((browse_loop t browse).ret, (browse_loop t browse).calls)
  | none => (0, [])

/-- `hashmap_browse`: the returned `int`. -/
def hashmap_browse (h : Option HASHMAP) (browse : Ptr → Ptr → Int) : Int :=
  (hashmap_browse_run h browse).1

/-- `hashmap_setcmpfunc`. -/
def hashmap_setcmpfunc (h : Option HASHMAP) (cmp : Ptr → Ptr → Int) : Option HASHMAP :=
  h.map (fun t => { t with cmp := cmp })

/-- `hashmap_sethashfunc`. -/
def hashmap_sethashfunc (h : Option HASHMAP) (hash : Ptr → Nat) : Option HASHMAP :=
  h.map (fun t => hashmap_rehash { t with hash := hash } t.max)

/-- `hashmap_setloadfactor`. -/
def hashmap_setloadfactor (h : Option HASHMAP) (factor : FLOAT) : Option HASHMAP :=
  h.map (fun t => { t with factor := factor, threshold := float_scale t.max factor })

/-! ## Well-formedness -/

/-- The contract of the two functions of a table: `cmp` returns `0` on an
equivalence relation, and keys that compare equal have the same hash value. -/
structure KeyLaws (hash : Ptr → Nat) (cmp : Ptr → Ptr → Int) : Prop where
  refl : ∀ a, cmp a a = 0
  symm : ∀ a b, cmp a b = 0 → cmp b a = 0
  trans : ∀ a b c, cmp a b = 0 → cmp b c = 0 → cmp a c = 0
  hash_eq : ∀ a b, cmp a b = 0 → hash a % UINT_RANGE = hash b % UINT_RANGE

/-- The live entries: the nodes of all chains, bucket after bucket. -/
def live (h : HASHMAP) : List ENTRY := h.entry.flatten

/-- Capacity is positive, the bucket array has `max` chains, and `cur` counts the
nodes of all chains. -/
def wf_shape (h : HASHMAP) : Prop :=
  0 < h.max ∧ h.entry.length = h.max.toNat ∧ h.cur = (live h).length

/-- In the bucket array `B` of capacity `m`, every node caches the hash of its key
and stands in the bucket of that hash. -/
def placed_in (hash : Ptr → Nat) (m : Nat) (B : List (List ENTRY)) : Prop :=
  ∀ i, i < B.length → ∀ e ∈ B.getD i [],
    e.hash = hash e.key % UINT_RANGE ∧ e.hash % m = i

/-- Every node caches the hash of its key and stands in the bucket of that hash. -/
def wf_placed (h : HASHMAP) : Prop :=
  placed_in h.hash h.max.toNat h.entry

/-- The keys of two entries do not compare equal. -/
def keys_differ (cmp : Ptr → Ptr → Int) (a b : ENTRY) : Prop :=
  cmp a.key b.key ≠ 0

/-- No two live entries have keys that compare equal. -/
def wf_unique (h : HASHMAP) : Prop :=
  (live h).Pairwise (keys_differ h.cmp)

/-- A well-formed table. -/
def WellFormed (h : HASHMAP) : Prop :=
  wf_shape h ∧ wf_placed h ∧ wf_unique h

instance (h : HASHMAP) : Decidable (WellFormed h) := by
  unfold WellFormed wf_shape wf_placed wf_unique placed_in keys_differ
  infer_instance

/-- An entry with its cached hash computed afresh, as `hashmap_rehash` stores it. -/
def recache (hash : Ptr → Nat) (e : ENTRY) : ENTRY :=
  { e with hash := hash e.key % UINT_RANGE }

/-- Some live entry has a key that compares equal to `k`. -/
def present (h : HASHMAP) (k : Ptr) : Prop :=
  ∃ e ∈ live h, h.cmp k e.key = 0

instance (h : HASHMAP) (k : Ptr) : Decidable (present h k) := by
  unfold present
  infer_instance

/-- The tables that the public operations produce, in any number of calls with
any arguments, from a table created with positive capacity. -/
inductive Reachable : HASHMAP → Prop
  | create (max off : Int) (hash : Ptr → Nat) (cmp : Ptr → Ptr → Int) :
      0 < max → Reachable (hashmap_create max off hash cmp)
  | put_noalloc (h : HASHMAP) (key value : Ptr) :
      Reachable h → Reachable (hashmap_put_noalloc h key value).1
  | put (m : MEMORY) (order : ARG_ORDER) (h : HASHMAP) (key : Ptr) (keysize : Nat) (value : Ptr)
      (valuesize : Nat) :
      Reachable h → Reachable (hashmap_put m order h key keysize value valuesize).2.1
  | put_ident (m : MEMORY) (h : HASHMAP) (key : Ptr) (keysize : Nat) :
      Reachable h → Reachable (hashmap_put_ident m h key keysize).2.1
  | put_ident_noalloc (h : HASHMAP) (key : Ptr) :
      Reachable h → Reachable (hashmap_put_ident_noalloc h key).1
  | remove (h t : HASHMAP) (key : Ptr) :
      Reachable h → hashmap_remove (some h) key = some t → Reachable t
  | remove_nofree (h t : HASHMAP) (key : Ptr) :
      Reachable h → hashmap_remove_nofree (some h) key = some t → Reachable t
  | clear (h t : HASHMAP) :
      Reachable h → hashmap_clear (some h) = some t → Reachable t
  | sethashfunc (h t : HASHMAP) (hash : Ptr → Nat) :
      Reachable h → hashmap_sethashfunc (some h) hash = some t → Reachable t
  | setcmpfunc (h t : HASHMAP) (cmp : Ptr → Ptr → Int) :
      Reachable h → hashmap_setcmpfunc (some h) cmp = some t → Reachable t
  | setloadfactor (h t : HASHMAP) (factor : FLOAT) :
      Reachable h → hashmap_setloadfactor (some h) factor = some t → Reachable t

/-- The tables that the public operations produce from a table created with
positive capacity, while the comparison function stays `cmp` and every hash
function in use respects it. -/
inductive LawfulReachable (cmp : Ptr → Ptr → Int) : HASHMAP → Prop
  | create (max off : Int) (hash : Ptr → Nat) :
      0 < max → KeyLaws hash cmp → LawfulReachable cmp (hashmap_create max off hash cmp)
  | put_noalloc (h : HASHMAP) (key value : Ptr) :
      LawfulReachable cmp h → LawfulReachable cmp (hashmap_put_noalloc h key value).1
  | put (m : MEMORY) (order : ARG_ORDER) (h : HASHMAP) (key : Ptr) (keysize : Nat) (value : Ptr)
      (valuesize : Nat) :
      LawfulReachable cmp h →
      LawfulReachable cmp (hashmap_put m order h key keysize value valuesize).2.1
  | put_ident (m : MEMORY) (h : HASHMAP) (key : Ptr) (keysize : Nat) :
      LawfulReachable cmp h → LawfulReachable cmp (hashmap_put_ident m h key keysize).2.1
  | put_ident_noalloc (h : HASHMAP) (key : Ptr) :
      LawfulReachable cmp h → LawfulReachable cmp (hashmap_put_ident_noalloc h key).1
  | remove (h t : HASHMAP) (key : Ptr) :
      LawfulReachable cmp h → hashmap_remove (some h) key = some t → LawfulReachable cmp t
  | remove_nofree (h t : HASHMAP) (key : Ptr) :
      LawfulReachable cmp h → hashmap_remove_nofree (some h) key = some t →
      LawfulReachable cmp t
  | clear (h t : HASHMAP) :
      LawfulReachable cmp h → hashmap_clear (some h) = some t → LawfulReachable cmp t
  | sethashfunc (h t : HASHMAP) (hash : Ptr → Nat) :
      LawfulReachable cmp h → KeyLaws hash cmp → hashmap_sethashfunc (some h) hash = some t →
      LawfulReachable cmp t
  | setloadfactor (h t : HASHMAP) (factor : FLOAT) :
      LawfulReachable cmp h → hashmap_setloadfactor (some h) factor = some t →
      LawfulReachable cmp t

/-- A sequence of `hashmap_put_noalloc` calls, given as (key, value) pairs. -/
def run_puts (h : HASHMAP) (puts : List (Ptr × Ptr)) : HASHMAP :=
  puts.foldl (fun t p => (hashmap_put_noalloc t p.1 p.2).1) h

/-- The number of pairwise `cmp`-distinct keys of a sequence: a key counts unless
a later key of the sequence compares equal to it. -/
def distinct_count (cmp : Ptr → Ptr → Int) : List Ptr → Nat
  | [] => 0
  | k :: ks =>
    if ks.any (fun k2 => cmp k k2 == 0) then distinct_count cmp ks
    else distinct_count cmp ks + 1

/-- The value of the last pair of the sequence whose key compares equal to `k`. -/
def last_value (cmp : Ptr → Ptr → Int) (k : Ptr) : List (Ptr × Ptr) → Option Ptr
  | [] => none
  | p :: ps =>
    match last_value cmp k ps with
    | some v => some v
    | none => if cmp k p.1 = 0 then some p.2 else none

/-- The position, in a sequence of puts, of the first put whose key compares equal
to `k`: the put that inserted the entry of `k`. -/
def first_put (cmp : Ptr → Ptr → Int) (k : Ptr) (puts : List (Ptr × Ptr)) : Nat :=
  puts.findIdx (fun p => cmp k p.1 == 0)

/-- Within every chain of the bucket array `B`, a node inserted later stands
before a node inserted earlier. -/
def mru_first (cmp : Ptr → Ptr → Int) (puts : List (Ptr × Ptr)) (B : List (List ENTRY)) : Prop :=
  ∀ c ∈ B, c.Pairwise (fun a b => first_put cmp b.key puts < first_put cmp a.key puts)

instance (cmp : Ptr → Ptr → Int) (puts : List (Ptr × Ptr)) (B : List (List ENTRY)) :
    Decidable (mru_first cmp puts B) := by
  unfold mru_first
  infer_instance

/-- Follows the words of the specification: the threshold `floor(capacity * f)`. -/
def threshold_floor (n : Int) (f : FLOAT) : Int :=
  Int.fdiv (n * f.num) (2 ^ f.exp)

/-- The blocks that an entry owns: the one shared block of an identity entry,
else the key block and the value block; `NULL` is no block. -/
def owned_blocks (e : ENTRY) : List Ptr :=
  (if e.key = e.value then [e.key] else [e.key, e.value]).filter (fun p => decide (p ≠ NULL))

/-- The blocks released between two states of a table: what the log has gained. -/
def released_between (before after : HASHMAP) : List Ptr :=
  after.freed.drop before.freed.length

/-- Some live entry of the table refers to the block `p` as its key or its value. -/
def referenced (h : HASHMAP) (p : Ptr) : Prop :=
  ∃ e ∈ live h, e.key = p ∨ e.value = p

instance (h : HASHMAP) (p : Ptr) : Decidable (referenced h p) := by
  unfold referenced
  infer_instance

/-! ## Calls that C leaves undefined -/

/-- The largest value of an `int`. -/
def INT_MAX : Int := 2147483647

/-- The smallest value of an `int`. -/
def INT_MIN : Int := -2147483648

/-- The value is one of an `int`. -/
def int_range (x : Int) : Prop := INT_MIN ≤ x ∧ x ≤ INT_MAX

instance (x : Int) : Decidable (int_range x) := by
  unfold int_range
  infer_instance

/-- The `int` values of a call `hashmap_rehash(h, newmax)` on a table with count
`cur` and load factor `factor`, which are computed when `cur` is not 0: `newmax`
is the size of the new bucket array and the divisor of `entry->hash % newmax`,
so it is positive, and `(int)(newmax * h->factor)` is in the range of `int`. -/
def rehash_in_range (cur : Int) (factor : FLOAT) (newmax : Int) : Prop :=
  cur ≠ 0 → 0 < newmax ∧ int_range (float_scale newmax factor)

instance (cur : Int) (factor : FLOAT) (newmax : Int) :
    Decidable (rehash_in_range cur factor newmax) := by
  unfold rehash_in_range
  infer_instance

/-- Every `int` that the call `hashmap_put_noalloc(h, key, ...)` computes is in
the range of `int`, and the divisor `h->max` of `hash % h->max` is positive.  An
update computes no other `int`.  An insertion computes `++h->cur` and, when the
threshold is reached, `h->max + h->off` or `-h->off` and `h->max * -h->off`, and
the values of the rehash. -/
def put_in_range (h : HASHMAP) (key : Ptr) : Prop :=
  0 < h.max ∧
  (hashmap_find_entry h key (h.hash key % UINT_RANGE)
      (h.hash key % UINT_RANGE % h.max.toNat) = none →
    int_range (h.cur + 1) ∧
    (h.cur + 1 ≥ h.threshold →
      (h.off > 0 →
        int_range (h.max + h.off) ∧ rehash_in_range (h.cur + 1) h.factor (h.max + h.off)) ∧
      (h.off < -1 →
        int_range (-h.off) ∧ int_range (h.max * -h.off) ∧
        rehash_in_range (h.cur + 1) h.factor (h.max * -h.off))))

instance (h : HASHMAP) (key : Ptr) : Decidable (put_in_range h key) := by
  unfold put_in_range
  infer_instance

/-- The keys of nodes that the walk of `hashmap_find_entry` hands to `cmp`.  The
test `hash == e->hash && (key == e->key || !h->cmp(key, e->key))` calls `cmp` on
a node exactly when the hashes are equal and the addresses differ; the walk ends
at the first node that passes the test. -/
def find_entry_reads (cmp : Ptr → Ptr → Int) (key : Ptr) (hash : Nat) : List ENTRY → List Ptr
  | [] => []
  | e :: next =>
    (if hash == e.hash && !(key == e.key) then [e.key] else []) ++
    (if entry_matches cmp key hash e then [] else find_entry_reads cmp key hash next)

/-- The blocks that a lookup of `key` reads: `h->hash(key)` reads the block of
`key`, and `cmp` reads it together with the keys the walk compares it with. -/
def lookup_reads (h : HASHMAP) (key : Ptr) : List Ptr :=
  key :: find_entry_reads h.cmp key (h.hash key % UINT_RANGE)
    (h.entry.getD (h.hash key % UINT_RANGE % h.max.toNat) [])

/-- None of the blocks `ps` is in the log of released blocks. -/
def all_live (log ps : List Ptr) : Prop := ∀ p ∈ ps, p ∉ log

instance (log ps : List Ptr) : Decidable (all_live log ps) := by
  unfold all_live
  infer_instance

/-- `hashmap_get` as a run of the C function: it has no result when the divisor
`h->max` of `hash % h->max` is not positive or when the lookup reads a released
block. -/
def hashmap_get_checked (h : HASHMAP) (key : Ptr) : Option Ptr :=
  if 0 < h.max ∧ all_live h.freed (lookup_reads h key) then some (hashmap_get h key)
  else none

/-- The call `hashmap_put_noalloc(h, key, ...)` runs the loops of
`hashmap_rehash`. -/
def put_rehashes (h : HASHMAP) (key : Ptr) : Prop :=
  hashmap_find_entry h key (h.hash key % UINT_RANGE)
      (h.hash key % UINT_RANGE % h.max.toNat) = none ∧
    h.cur + 1 ≥ h.threshold ∧ (h.off > 0 ∨ h.off < -1) ∧ h.cur + 1 ≠ 0

instance (h : HASHMAP) (key : Ptr) : Decidable (put_rehashes h key) := by
  unfold put_rehashes
  infer_instance

/-- The blocks that `hashmap_put_noalloc(h, key, ...)` reads: those of the lookup
and, when the table is rehashed, the key of every node
(`h->hash(entry->key)`). -/
def put_reads (h : HASHMAP) (key : Ptr) : List Ptr :=
  lookup_reads h key ++ (if put_rehashes h key then (live h).map ENTRY.key else [])

/-- `hashmap_put_noalloc` as a run of the C function: it has no result when an
`int` leaves its range, when a released block is read, or when a released block
is released again. -/
def hashmap_put_noalloc_checked (h : HASHMAP) (key value : Ptr) : Option (HASHMAP × Int) :=
  if put_in_range h key ∧ all_live h.freed (put_reads h key) ∧
      all_live h.freed (released_between h (hashmap_put_noalloc h key value).1) then
    some (hashmap_put_noalloc h key value)
  else none

/-- `hashmap_put` as a run of the C function: the duplications read the block of
the key and, unless it is `NULL`, the block of the value. -/
def hashmap_put_checked (m : MEMORY) (order : ARG_ORDER) (h : HASHMAP) (key : Ptr)
    (keysize : Nat) (value : Ptr) (valuesize : Nat) : Option (MEMORY × HASHMAP × Int) :=
  let d := put_dups m order key keysize value valuesize
  if all_live h.freed (key :: (if value ≠ NULL then [value] else [])) then
    (hashmap_put_noalloc_checked h d.2.1 d.2.2).map (fun r => (d.1, r))
  else none

/-- `hashmap_put_ident` as a run of the C function: the duplication reads the
block of the key. -/
def hashmap_put_ident_checked (m : MEMORY) (h : HASHMAP) (key : Ptr) (keysize : Nat) :
    Option (MEMORY × HASHMAP × Int) :=
  let keydup := xmemdup m key keysize
  if all_live h.freed [key] then
    (hashmap_put_noalloc_checked h keydup.2 keydup.2).map (fun r => (keydup.1, r))
  else none

/-- `hashmap_put_ident_noalloc` as a run of the C function. -/
def hashmap_put_ident_noalloc_checked (h : HASHMAP) (key : Ptr) : Option (HASHMAP × Int) :=
  hashmap_put_noalloc_checked h key key

/-- A sequence of `hashmap_put_noalloc` calls as a run of the C program: it has
no result when one of the calls has none. -/
def run_puts_checked (h : HASHMAP) (puts : List (Ptr × Ptr)) : Option HASHMAP :=
  puts.foldl (fun t p =>
    t.bind (fun s => (hashmap_put_noalloc_checked s p.1 p.2).map Prod.fst)) (some h)

/-- The table refers to no released block. -/
def no_dangling (h : HASHMAP) : Prop := ∀ p ∈ h.freed, ¬ referenced h p

instance (h : HASHMAP) : Decidable (no_dangling h) := by
  unfold no_dangling
  infer_instance

/-- The contract of a put of `key` into the table `h`: the `int` values of the
call are in range, the table refers to no released block, and `key` is no
released block. -/
def put_contract (h : HASHMAP) (key : Ptr) : Prop :=
  put_in_range h key ∧ no_dangling h ∧ key ∉ h.freed

instance (h : HASHMAP) (key : Ptr) : Decidable (put_contract h key) := by
  unfold put_contract
  infer_instance

/-- The blocks that one `hashmap_put_noalloc` call hands over: the key and the
value, which may be one block; `NULL` is no block. -/
def pair_blocks (p : Ptr × Ptr) : List Ptr :=
  (if p.1 = p.2 then [p.1] else [p.1, p.2]).filter (fun q => decide (q ≠ NULL))

/-- No block is handed over twice in the sequence of puts. -/
def fresh_blocks (puts : List (Ptr × Ptr)) : Prop :=
  (puts.map pair_blocks).flatten.Nodup

instance (puts : List (Ptr × Ptr)) : Decidable (fresh_blocks puts) := by
  unfold fresh_blocks
  infer_instance

/-- The outcome of a put as the specification words it, for a put of the key
`k` that stores the value `v` and takes the table `h` to the table and returned
`int` of `r`: 1 is returned exactly when a key that compares equal to `k` was
present, and then the size is unchanged and the entry of `k` holds `v`;
otherwise 0 is returned and the size has grown by 1. -/
def put_outcome (h : HASHMAP) (k v : Ptr) (r : HASHMAP × Int) : Prop :=
  (r.2 = 1 ↔ present h k) ∧
  (present h k →
    hashmap_size (some r.1) = hashmap_size (some h) ∧
    (∃ e ∈ live r.1, r.1.cmp k e.key = 0 ∧ e.value = v) ∧
    hashmap_get r.1 k = v) ∧
  (¬ present h k → r.2 = 0 ∧ hashmap_size (some r.1) = hashmap_size (some h) + 1)

/-- The blocks of the table come from the list `handed` of blocks handed over,
and each is held once: every block that an entry refers to and every released
block is in `handed`, no released block is referred to, and two entries refer to
no common block. -/
def owns_within (h : HASHMAP) (handed : List Ptr) : Prop :=
  (∀ e ∈ live h, ∀ p, (e.key = p ∨ e.value = p) → p ≠ NULL → p ∈ handed) ∧
  (∀ p ∈ h.freed, p ≠ NULL ∧ p ∈ handed) ∧
  no_dangling h ∧
  (∀ a ∈ live h, ∀ b ∈ live h, a ≠ b → ∀ p, p ≠ NULL →
    (a.key = p ∨ a.value = p) → ¬ (b.key = p ∨ b.value = p))

/-! ## Test fixtures -/

/-- The identity hash of the scenario of the specification. -/
def hash_id : Ptr → Nat := fun k => k

/-- A comparison by address: `0` exactly for equal addresses. -/
def cmp_id : Ptr → Ptr → Int := fun a b => if a = b then 0 else 1

/-- Another hash function on addresses. -/
def hash_alt : Ptr → Nat := fun k => 3 * k + 1

/-- A hash of the content of a block, for blocks that hold their address modulo 16. -/
def hash_low : Ptr → Nat := fun k => k % 16

/-- A comparison by content, for blocks that hold their address modulo 16. -/
def cmp_low : Ptr → Ptr → Int := fun a b => if a % 16 = b % 16 then 0 else 1

/-- The table of the scenario of the specification after its first two insertions. -/
def table_two : HASHMAP :=
  (hashmap_put_noalloc (hashmap_put_noalloc (hashmap_create 4 (-2) hash_id cmp_id) 1 11).1 5 12).1

/-- The table of the scenario of the specification after its three insertions. -/
def table_three : HASHMAP := (hashmap_put_noalloc table_two 9 13).1

/-- A table with content-compared keys, holding one entry. -/
def table_low : HASHMAP :=
  (hashmap_put_noalloc (hashmap_create 4 2 hash_low cmp_low) 5 50).1

/-- The visitor that returns 0 on every entry. -/
def visit_all : Ptr → Ptr → Int := fun _ _ => 0

/-- A visitor that stops at key 9, returning the value. -/
def visit_nine : Ptr → Ptr → Int := fun k v => if k = 9 then (v : Int) else 0

/-- The insertions of the scenario of the specification. -/
def puts_three : List (Ptr × Ptr) := [(1, 11), (5, 12), (9, 13)]

/-- The load factor `-0.5`. -/
def factor_neg_half : FLOAT := { num := -1, exp := 1 }

/-- The load factor `0.5`. -/
def factor_half : FLOAT := { num := 1, exp := 1 }

/-- A table of capacity 3 that never grows, holding one entry. -/
def table_fixed : HASHMAP :=
  (hashmap_put_noalloc (hashmap_create 3 0 hash_id cmp_id) 1 11).1

/-- The load factor `0.7f`: the `float` nearest to 0.7. -/
def factor_point_seven : FLOAT := { num := 11744051, exp := 24 }

/-- A table of capacity 10 that never grows, holding one entry. -/
def table_ten : HASHMAP :=
  (hashmap_put_noalloc (hashmap_create 10 0 hash_id cmp_id) 1 11).1

/-- A table holding one identity entry, whose key and value are block 5. -/
def table_ident : HASHMAP :=
  (hashmap_put_ident_noalloc (hashmap_create 4 0 hash_id cmp_id) 5).1

/-- A table with content-compared keys holding one identity entry (block 5). -/
def table_low_ident : HASHMAP :=
  (hashmap_put_ident_noalloc (hashmap_create 4 0 hash_low cmp_low) 5).1

/-- A table holding the identity entry of block 6 and the entry of key 1 with
value 11. -/
def table_mixed : HASHMAP :=
  (hashmap_put_noalloc (hashmap_put_ident_noalloc (hashmap_create 4 0 hash_id cmp_id) 6).1
    1 11).1

/-- A memory whose block 7 holds three bytes; the allocator stands at 21. -/
def memory_a : MEMORY :=
  { content := fun p => if p = 7 then [1, 2, 3] else [], brk := 21 }

/-! ## Chains and buckets -/

theorem flatten_split (B : List (List ENTRY)) (pos : Nat) :
    B.flatten = (B.take pos).flatten ++ B.getD pos [] ++ (B.drop (pos + 1)).flatten := by
  by_cases hp : pos < B.length
  · have hB : B = B.take pos ++ B[pos] :: B.drop (pos + 1) := by
      rw [List.getElem_cons_drop, List.take_append_drop]
    rw [List.getD_eq_getElem _ _ hp]
    conv_lhs => rw [hB]
    rw [List.flatten_append, List.flatten_cons, List.append_assoc]
  · have hp2 : B.length ≤ pos := Nat.le_of_not_lt hp
    rw [List.getD_eq_default _ _ hp2, List.take_of_length_le hp2,
      List.drop_of_length_le (Nat.le_succ_of_le hp2)]
    simp

theorem flatten_set (B : List (List ENTRY)) (pos : Nat) (hp : pos < B.length)
    (c : List ENTRY) :
    (B.set pos c).flatten = (B.take pos).flatten ++ c ++ (B.drop (pos + 1)).flatten := by
  rw [List.set_eq_take_cons_drop c hp]
  simp

theorem mem_flatten_of_bucket (B : List (List ENTRY)) (i : Nat) (e : ENTRY)
    (he : e ∈ B.getD i []) : e ∈ B.flatten := by
  rw [flatten_split B i]
  exact List.mem_append_left _ (List.mem_append_right _ he)

theorem bucket_of_mem_flatten (B : List (List ENTRY)) (e : ENTRY) (he : e ∈ B.flatten) :
    ∃ i, i < B.length ∧ e ∈ B.getD i [] := by
  obtain ⟨c, hc, hec⟩ := List.mem_flatten.mp he
  obtain ⟨i, hi, rfl⟩ := List.mem_iff_getElem.mp hc
  exact ⟨i, hi, by rw [List.getD_eq_getElem _ _ hi]; exact hec⟩

theorem find_entry_loop_some (cmp : Ptr → Ptr → Int) (key : Ptr) (hv : Nat) :
    ∀ (c : List ENTRY) (i : Nat), find_entry_loop cmp key hv c = some i →
      ∃ pre e post, c = pre ++ e :: post ∧ pre.length = i ∧
        entry_matches cmp key hv e = true ∧ ∀ x ∈ pre, entry_matches cmp key hv x = false := by
  intro c
  induction c with
  | nil => intro i hi; simp [find_entry_loop] at hi
  | cons a next ih =>
    intro i hi
    unfold find_entry_loop at hi
    by_cases hm : entry_matches cmp key hv a = true
    · simp only [hm, if_true, Option.some.injEq] at hi
      exact ⟨[], a, next, rfl, by simpa using hi, hm, by simp⟩
    · cases hj : find_entry_loop cmp key hv next with
      | none => simp [hm, hj] at hi
      | some j =>
      simp only [hm, hj, Option.map_some'] at hi
      have hi2 : j + 1 = i := by simpa using hi
      subst hi2
      obtain ⟨pre, e, post, hc, hl, he, hpre⟩ := ih j hj
      refine ⟨a :: pre, e, post, by simp [hc], by simp [hl], he, ?_⟩
      intro x hx
      rcases List.mem_cons.mp hx with rfl | hx
      · simpa using hm
      · exact hpre x hx

theorem find_entry_loop_none (cmp : Ptr → Ptr → Int) (key : Ptr) (hv : Nat) :
    ∀ (c : List ENTRY), find_entry_loop cmp key hv c = none ↔
      ∀ x ∈ c, entry_matches cmp key hv x = false := by
  intro c
  induction c with
  | nil => simp [find_entry_loop]
  | cons a next ih =>
    unfold find_entry_loop
    by_cases hm : entry_matches cmp key hv a = true
    · simp [hm]
    · have hm2 : entry_matches cmp key hv a = false := by simpa using hm
      cases hj : find_entry_loop cmp key hv next with
      | none => simpa [hm2, hj] using ih.mp hj
      | some j =>
        simp only [hm2, hj]
        constructor
        · intro hc; simp at hc
        · intro hall
          have := ih.mpr (fun x hx => hall x (List.mem_cons_of_mem _ hx))
          rw [hj] at this; simp at this

/-! ## Lookup in a well-formed table -/

theorem matches_imp_cmp (hash : Ptr → Nat) (cmp : Ptr → Ptr → Int) (L : KeyLaws hash cmp)
    (k : Ptr) (hv : Nat) (e : ENTRY) (hm : entry_matches cmp k hv e = true) :
    cmp k e.key = 0 ∧ hv = e.hash := by
  unfold entry_matches at hm
  simp only [Bool.and_eq_true, beq_iff_eq, Bool.or_eq_true] at hm
  refine ⟨?_, hm.1⟩
  rcases hm.2 with h1 | h1
  · rw [h1]; exact L.refl _
  · exact h1

theorem cmp_imp_matches (hash : Ptr → Nat) (cmp : Ptr → Ptr → Int) (L : KeyLaws hash cmp)
    (k : Ptr) (e : ENTRY) (he : e.hash = hash e.key % UINT_RANGE) (hc : cmp k e.key = 0) :
    entry_matches cmp k (hash k % UINT_RANGE) e = true := by
  unfold entry_matches
  simp only [Bool.and_eq_true, beq_iff_eq, Bool.or_eq_true]
  exact ⟨by rw [he]; exact L.hash_eq _ _ hc, Or.inr hc⟩

theorem unique_of_cmp (h : HASHMAP) (L : KeyLaws h.hash h.cmp) (hu : wf_unique h)
    (k : Ptr) (a b : ENTRY) (ha : a ∈ live h) (hb : b ∈ live h)
    (hka : h.cmp k a.key = 0) (hkb : h.cmp k b.key = 0) : a = b := by
  by_contra hne
  have hsym : Symmetric (keys_differ h.cmp) := by
    intro x y hxy hyx
    exact hxy (L.symm _ _ hyx)
  exact List.Pairwise.forall hsym hu ha hb hne (L.trans _ _ _ (L.symm _ _ hka) hkb)

theorem bucket_of_key (h : HASHMAP) (L : KeyLaws h.hash h.cmp) (hp : wf_placed h)
    (k : Ptr) (e : ENTRY) (he : e ∈ live h) (hc : h.cmp k e.key = 0) :
    e ∈ h.entry.getD (h.hash k % UINT_RANGE % h.max.toNat) [] := by
  obtain ⟨i, hi, hei⟩ := bucket_of_mem_flatten h.entry e he
  obtain ⟨h1, h2⟩ := hp i hi e hei
  rw [L.hash_eq _ _ hc, ← h1, h2]
  exact hei

theorem find_none_absent (h : HASHMAP) (L : KeyLaws h.hash h.cmp) (hp : wf_placed h)
    (k : Ptr)
    (hf : hashmap_find_entry h k (h.hash k % UINT_RANGE)
      (h.hash k % UINT_RANGE % h.max.toNat) = none) : ¬ present h k := by
  rintro ⟨e, he, hc⟩
  have hb := bucket_of_key h L hp k e he hc
  obtain ⟨i, hi, hei⟩ := bucket_of_mem_flatten h.entry e he
  have hm := cmp_imp_matches h.hash h.cmp L k e (hp i hi e hei).1 hc
  have := (find_entry_loop_none h.cmp k _ _).mp hf e hb
  rw [hm] at this
  exact Bool.noConfusion this

theorem getD_append_length {α : Type} (pre : List α) (e : α) (post : List α) (d : α) :
    (pre ++ e :: post).getD pre.length d = e := by
  induction pre with
  | nil => rfl
  | cons a pre ih => simpa using ih

theorem hashmap_get_eq (h : HASHMAP) (k : Ptr) :
    hashmap_get h k =
      match hashmap_find_entry h k (h.hash k % UINT_RANGE)
        (h.hash k % UINT_RANGE % h.max.toNat) with
      | some i => (entry_at h (h.hash k % UINT_RANGE % h.max.toNat) i).value
      | none => NULL := rfl

theorem find_some_spec (h : HASHMAP) (L : KeyLaws h.hash h.cmp) (k : Ptr) (hv pos i : Nat)
    (hf : hashmap_find_entry h k hv pos = some i) :
    ∃ pre e post, h.entry.getD pos [] = pre ++ e :: post ∧ pre.length = i ∧
      entry_at h pos i = e ∧ h.cmp k e.key = 0 ∧ hv = e.hash ∧ e ∈ live h ∧
      pos < h.entry.length := by
  obtain ⟨pre, e, post, hc, hl, hm, _⟩ := find_entry_loop_some h.cmp k hv _ i hf
  obtain ⟨h1, h2⟩ := matches_imp_cmp h.hash h.cmp L k hv e hm
  have hmem : e ∈ h.entry.getD pos [] := by rw [hc]; simp
  refine ⟨pre, e, post, hc, hl, ?_, h1, h2, mem_flatten_of_bucket _ pos e hmem, ?_⟩
  · unfold entry_at
    rw [hc, ← hl]
    exact getD_append_length pre e post default
  · by_contra hge
    rw [List.getD_eq_default _ _ (Nat.le_of_not_lt hge)] at hmem
    simp at hmem

theorem get_of_mem (h : HASHMAP) (L : KeyLaws h.hash h.cmp) (hw : WellFormed h)
    (k : Ptr) (e : ENTRY) (he : e ∈ live h) (hc : h.cmp k e.key = 0) :
    hashmap_get h k = e.value := by
  rw [hashmap_get_eq]
  cases hf : hashmap_find_entry h k (h.hash k % UINT_RANGE)
      (h.hash k % UINT_RANGE % h.max.toNat) with
  | none => exact absurd ⟨e, he, hc⟩ (find_none_absent h L hw.2.1 k hf)
  | some i =>
    obtain ⟨pre, e2, post, _, _, hat, hc2, _, hm2, _⟩ := find_some_spec h L k _ _ i hf
    have := unique_of_cmp h L hw.2.2 k e2 e hm2 he hc2 hc
    simp only [hat, this]

theorem get_of_absent (h : HASHMAP) (L : KeyLaws h.hash h.cmp) (k : Ptr)
    (ha : ¬ present h k) : hashmap_get h k = NULL := by
  rw [hashmap_get_eq]
  cases hf : hashmap_find_entry h k (h.hash k % UINT_RANGE)
      (h.hash k % UINT_RANGE % h.max.toNat) with
  | none => rfl
  | some i =>
    obtain ⟨pre, e2, post, _, _, _, hc2, _, hm2, _⟩ := find_some_spec h L k _ _ i hf
    exact absurd ⟨e2, hm2, hc2⟩ ha

/-! ## Writing one bucket -/

theorem getD_set_eq (B : List (List ENTRY)) (pos : Nat) (hp : pos < B.length)
    (c : List ENTRY) : (B.set pos c).getD pos [] = c := by
  simp [List.getD_eq_getElem?_getD, List.getElem?_set, hp]

theorem getD_set_ne (B : List (List ENTRY)) (pos i : Nat) (hne : pos ≠ i)
    (c : List ENTRY) : (B.set pos c).getD i [] = B.getD i [] := by
  simp [List.getD_eq_getElem?_getD, List.getElem?_set, hne]

theorem set_append_length {α : Type} (pre : List α) (e : α) (post : List α) (x : α) :
    (pre ++ e :: post).set pre.length x = pre ++ x :: post := by
  induction pre with
  | nil => rfl
  | cons a pre ih => simp [ih]

theorem live_push_perm (B : List (List ENTRY)) (pos : Nat) (hp : pos < B.length)
    (x : ENTRY) : (B.set pos (x :: B.getD pos [])).flatten.Perm (x :: B.flatten) := by
  rw [flatten_set B pos hp, flatten_split B pos]
  simp only [List.append_assoc, List.cons_append]
  exact List.perm_middle

theorem live_set_perm (B : List (List ENTRY)) (pos : Nat) (hp : pos < B.length)
    (pre : List ENTRY) (e : ENTRY) (post : List ENTRY)
    (hc : B.getD pos [] = pre ++ e :: post) :
    ∃ rest, B.flatten.Perm (e :: rest) ∧
      ∀ x, (B.set pos (pre ++ x :: post)).flatten.Perm (x :: rest) := by
  refine ⟨(B.take pos).flatten ++ pre ++ (post ++ (B.drop (pos + 1)).flatten), ?_, ?_⟩
  · rw [flatten_split B pos, hc]
    simp only [List.append_assoc, List.cons_append]
    rw [← List.append_assoc]
    exact List.perm_middle.trans (by simp)
  · intro x
    rw [flatten_set B pos hp]
    simp only [List.append_assoc, List.cons_append]
    rw [← List.append_assoc]
    exact List.perm_middle.trans (by simp)

theorem live_erase_perm (B : List (List ENTRY)) (pos : Nat) (hp : pos < B.length)
    (pre : List ENTRY) (e : ENTRY) (post : List ENTRY)
    (hc : B.getD pos [] = pre ++ e :: post) :
    B.flatten.Perm (e :: (B.set pos (pre ++ post)).flatten) := by
  rw [flatten_set B pos hp, flatten_split B pos, hc]
  simp only [List.append_assoc, List.cons_append]
  rw [← List.append_assoc]
  exact List.perm_middle.trans (by simp)

theorem placed_set (hash : Ptr → Nat) (m : Nat) (B : List (List ENTRY)) (pos : Nat)
    (hp : pos < B.length) (c : List ENTRY) (hB : placed_in hash m B)
    (hc : ∀ e ∈ c, e.hash = hash e.key % UINT_RANGE ∧ e.hash % m = pos) :
    placed_in hash m (B.set pos c) := by
  intro i hi e he
  by_cases hip : pos = i
  · subst hip
    rw [getD_set_eq B pos hp] at he
    exact hc e he
  · rw [getD_set_ne B pos i hip] at he
    rw [List.length_set] at hi
    exact hB i hi e he

/-! ## The bucket loops -/

theorem take_succ_flatten (B : List (List ENTRY)) (j : Nat) (hj : j < B.length) :
    (B.take (j + 1)).flatten = (B.take j).flatten ++ B.getD j [] := by
  rw [List.take_succ, List.flatten_append, List.getD_eq_getElem _ _ hj,
    List.getElem?_eq_getElem hj]
  simp

theorem bucket_empty_of_count (B : List (List ENTRY)) (j : Nat)
    (hc : (B.take j).flatten.length = B.flatten.length) : B.getD j [] = [] := by
  have h1 := congrArg List.length (flatten_split B j)
  simp only [List.length_append] at h1
  exact List.eq_nil_of_length_eq_zero (by omega)

theorem range_fold_guard {σ : Type} (B : List (List ENTRY)) (step : σ → List ENTRY → σ)
    (run : List ENTRY → σ) (guard : σ → Prop) [DecidablePred guard]
    (hstep : ∀ l c, guard (run l) → step (run l) c = run (l ++ c))
    (hskip : ∀ j, j < B.length → ¬ guard (run (B.take j).flatten) →
      run ((B.take j).flatten ++ B.getD j []) = run (B.take j).flatten) :
    ∀ j, j ≤ B.length →
      (List.range j).foldl (fun a it => if guard a then step a (B.getD it []) else a) (run [])
        = run (B.take j).flatten := by
  intro j
  induction j with
  | zero => intro _; simp
  | succ j ih =>
    intro hj
    have hj2 : j < B.length := hj
    rw [List.range_succ, List.foldl_append, ih (Nat.le_of_lt hj2), take_succ_flatten B j hj2]
    simp only [List.foldl_cons, List.foldl_nil]
    by_cases hg : guard (run (B.take j).flatten)
    · rw [if_pos hg, hstep _ _ hg]
    · rw [if_neg hg, hskip j hj2 hg]

theorem rehash_chain_append (hash : Ptr → Nat) (nm : Int) (l c : List ENTRY)
    (acc : List (List ENTRY) × Int) :
    rehash_chain hash nm c (rehash_chain hash nm l acc) = rehash_chain hash nm (l ++ c) acc := by
  unfold rehash_chain
  rw [List.foldl_append]

theorem rehash_chain_cons (hash : Ptr → Nat) (nm : Int) (e : ENTRY) (l : List ENTRY)
    (T : List (List ENTRY)) (c : Int) :
    rehash_chain hash nm (e :: l) (T, c) =
      rehash_chain hash nm l
        (T.set (hash e.key % UINT_RANGE % nm.toNat)
          (recache hash e :: T.getD (hash e.key % UINT_RANGE % nm.toNat) []), c - 1) := rfl

theorem rehash_chain_spec (hash : Ptr → Nat) (nm : Int) (hnm : 0 < nm.toNat) :
    ∀ (l : List ENTRY) (T : List (List ENTRY)) (c : Int),
      T.length = nm.toNat → placed_in hash nm.toNat T →
      (rehash_chain hash nm l (T, c)).1.length = nm.toNat ∧
      placed_in hash nm.toNat (rehash_chain hash nm l (T, c)).1 ∧
      (rehash_chain hash nm l (T, c)).1.flatten.Perm (l.map (recache hash) ++ T.flatten) ∧
      (rehash_chain hash nm l (T, c)).2 = c - l.length := by
  intro l
  induction l with
  | nil => intro T c hT hP; exact ⟨hT, hP, by simp [rehash_chain], by simp [rehash_chain]⟩
  | cons e l ih =>
    intro T c hT hP
    rw [rehash_chain_cons]
    have hpos : hash e.key % UINT_RANGE % nm.toNat < T.length := by
      rw [hT]; exact Nat.mod_lt _ hnm
    have hP2 := placed_set hash nm.toNat T _ hpos
      (recache hash e :: T.getD (hash e.key % UINT_RANGE % nm.toNat) []) hP (by
        intro x hx
        rcases List.mem_cons.mp hx with rfl | hx
        · exact ⟨rfl, rfl⟩
        · exact hP _ hpos x hx)
    obtain ⟨h1, h2, h3, h4⟩ := ih _ (c - 1) (by rw [List.length_set]; exact hT) hP2
    refine ⟨h1, h2, ?_, ?_⟩
    · refine h3.trans ?_
      refine (List.Perm.append_left _ (live_push_perm T _ hpos (recache hash e))).trans ?_
      simp only [List.map_cons, List.cons_append]
      exact List.perm_middle
    · rw [h4]; simp only [List.length_cons]; push_cast; ring

theorem rehash_loop_eq (h : HASHMAP) (nm : Int) (hl : h.entry.length = h.max.toNat)
    (hc : h.cur = (live h).length) :
    rehash_loop h nm =
      rehash_chain h.hash nm (live h) (List.replicate nm.toNat [], h.cur) := by
  have key := range_fold_guard h.entry (fun a c => rehash_chain h.hash nm c a)
    (fun l => rehash_chain h.hash nm l (List.replicate nm.toNat [], h.cur))
    (fun a => a.2 ≠ 0)
    (fun l c _ => rehash_chain_append h.hash nm l c _)
    (by
      intro j _ hg
      have h0 : (rehash_chain h.hash nm (h.entry.take j).flatten
          (List.replicate nm.toNat [], h.cur)).2 = 0 := by
        by_contra hne; exact hg hne
      have hlen : ∀ (l : List ENTRY) (acc : List (List ENTRY) × Int),
          (rehash_chain h.hash nm l acc).2 = acc.2 - l.length := by
        intro l
        induction l with
        | nil => intro acc; simp [rehash_chain]
        | cons e l ih =>
          intro acc
          obtain ⟨T, c⟩ := acc
          rw [rehash_chain_cons, ih]
          simp only [List.length_cons]; push_cast; ring
      rw [hlen, hc] at h0
      have h1 : (h.entry.take j).flatten.length = h.entry.flatten.length := by
        unfold live at h0
        omega
      rw [bucket_empty_of_count h.entry j h1, List.append_nil])
    h.entry.length (Nat.le_refl _)
  unfold rehash_loop
  rw [← hl]
  rw [List.take_length] at key
  exact key

/-! ## Rehashing -/

theorem not_mem_replicate_bucket (n i : Nat) (e : ENTRY) :
    e ∉ (List.replicate n ([] : List ENTRY)).getD i [] := by
  intro he
  have := mem_flatten_of_bucket _ i e he
  simp at this

theorem live_nil_of_cur (h : HASHMAP) (hs : wf_shape h) (h0 : h.cur = 0) : live h = [] := by
  have := hs.2.2
  rw [h0] at this
  exact List.eq_nil_of_length_eq_zero (by omega)

theorem keys_differ_symm (hash : Ptr → Nat) (cmp : Ptr → Ptr → Int) (L : KeyLaws hash cmp) :
    Symmetric (keys_differ cmp) := by
  intro x y hxy hyx
  exact hxy (L.symm _ _ hyx)

theorem map_recache_of_placed (hash : Ptr → Nat) (m : Nat) (B : List (List ENTRY))
    (hP : placed_in hash m B) : B.flatten.map (recache hash) = B.flatten := by
  have : ∀ e ∈ B.flatten, recache hash e = e := by
    intro e he
    obtain ⟨i, hi, hei⟩ := bucket_of_mem_flatten B e he
    have := (hP i hi e hei).1
    cases e
    simp only [recache, ENTRY.mk.injEq, true_and]
    exact this.symm
  conv_rhs => rw [← List.map_id B.flatten]
  exact List.map_congr_left this

theorem rehash_placed (h : HASHMAP) (nm : Int) (hnm : 0 < nm) (hs : wf_shape h) :
    wf_shape (hashmap_rehash h nm) ∧ wf_placed (hashmap_rehash h nm) ∧
    (live (hashmap_rehash h nm)).Perm ((live h).map (recache h.hash)) ∧
    (hashmap_rehash h nm).hash = h.hash ∧ (hashmap_rehash h nm).cmp = h.cmp ∧
    (hashmap_rehash h nm).cur = h.cur ∧ (hashmap_rehash h nm).off = h.off ∧
    (hashmap_rehash h nm).freed = h.freed ∧ (hashmap_rehash h nm).factor = h.factor ∧
    (hashmap_rehash h nm).max = (if h.cur ≠ 0 then nm else h.max) := by
  unfold hashmap_rehash
  by_cases hc : h.cur ≠ 0
  · rw [if_pos hc, if_pos hc]
    have hnm2 : 0 < nm.toNat := by omega
    obtain ⟨h1, h2, h3, _⟩ := rehash_chain_spec h.hash nm hnm2 (live h)
      (List.replicate nm.toNat []) h.cur (List.length_replicate _ _)
      (fun i _ e he => absurd he (not_mem_replicate_bucket _ i e))
    rw [← rehash_loop_eq h nm hs.2.1 hs.2.2] at h1 h2 h3
    simp only [List.flatten_replicate_nil, List.append_nil] at h3
    refine ⟨⟨hnm, h1, ?_⟩, h2, h3, rfl, rfl, rfl, rfl, rfl, rfl, rfl⟩
    show h.cur = ((rehash_loop h nm).1.flatten).length
    rw [h3.length_eq, List.length_map]
    exact hs.2.2
  · have hc0 : h.cur = 0 := by
      by_contra hne; exact hc hne
    rw [if_neg hc, if_neg hc]
    have hl := live_nil_of_cur h hs hc0
    refine ⟨hs, ?_, by rw [hl]; simp, rfl, rfl, rfl, rfl, rfl, rfl, rfl⟩
    intro i _ e he
    have := mem_flatten_of_bucket _ i e he
    unfold live at hl
    rw [hl] at this
    simp at this

theorem rehash_spec (h : HASHMAP) (nm : Int) (hnm : 0 < nm) (L : KeyLaws h.hash h.cmp)
    (hs : wf_shape h) (hu : wf_unique h) :
    WellFormed (hashmap_rehash h nm) ∧
    (live (hashmap_rehash h nm)).Perm ((live h).map (recache h.hash)) ∧
    (hashmap_rehash h nm).hash = h.hash ∧ (hashmap_rehash h nm).cmp = h.cmp ∧
    (hashmap_rehash h nm).cur = h.cur ∧ (hashmap_rehash h nm).off = h.off ∧
    (hashmap_rehash h nm).freed = h.freed ∧ (hashmap_rehash h nm).factor = h.factor ∧
    (hashmap_rehash h nm).max = (if h.cur ≠ 0 then nm else h.max) := by
  obtain ⟨r1, r2, r3, r4, r5, r6, r7, r8, r9, r10⟩ := rehash_placed h nm hnm hs
  refine ⟨⟨r1, r2, ?_⟩, r3, r4, r5, r6, r7, r8, r9, r10⟩
  unfold wf_unique
  rw [r5, List.Perm.pairwise_iff (fun {x y} hxy => keys_differ_symm h.hash h.cmp L hxy) r3,
    List.pairwise_map]
  exact hu

/-! ## Insertion and update -/

theorem put_update_spec (e : ENTRY) (k v : Ptr) (log : List Ptr) :
    (put_update e k v log).1.value = v ∧ (put_update e k v log).1.hash = e.hash ∧
    (put_update e k v log).1.key = k := by
  unfold put_update
  by_cases h1 : e.key = e.value
  · by_cases h2 : e.key ≠ k ∨ e.value ≠ v
    · rw [if_pos h1, if_pos h2]
      exact ⟨rfl, rfl, rfl⟩
    · have h3 : e.value = v := by
        by_contra hne; exact h2 (Or.inr hne)
      have h4 : e.key = k := by
        by_contra hne; exact h2 (Or.inl hne)
      rw [if_pos h1, if_neg h2]
      exact ⟨h3, rfl, h4⟩
  · rw [if_neg h1]
    by_cases h2 : e.key ≠ k
    · by_cases h3 : e.value ≠ v
      · simp [h2, h3]
      · have h4 : e.value = v := by
          by_contra hne; exact h3 hne
        simp [h2, h4]
    · have h5 : e.key = k := by
        by_contra hne; exact h2 hne
      by_cases h3 : e.value ≠ v
      · simp [h5, h3]
      · have h4 : e.value = v := by
          by_contra hne; exact h3 hne
        simp [h5, h4]

theorem put_eq_found (h : HASHMAP) (k v : Ptr) (i : Nat)
    (hf : hashmap_find_entry h k (h.hash k % UINT_RANGE)
      (h.hash k % UINT_RANGE % h.max.toNat) = some i) :
    hashmap_put_noalloc h k v =
      ({ h with
         entry := entry_store h (h.hash k % UINT_RANGE % h.max.toNat) i
           (put_update (entry_at h (h.hash k % UINT_RANGE % h.max.toNat) i) k v h.freed).1
         freed := (put_update (entry_at h (h.hash k % UINT_RANGE % h.max.toNat) i)
           k v h.freed).2 }, 1) := by
  unfold hashmap_put_noalloc
  simp only [hf]

theorem put_eq_new (h : HASHMAP) (k v : Ptr)
    (hf : hashmap_find_entry h k (h.hash k % UINT_RANGE)
      (h.hash k % UINT_RANGE % h.max.toNat) = none) :
    hashmap_put_noalloc h k v =
      if h.cur + 1 ≥ h.threshold then
        if h.off > 0 then
          (hashmap_rehash (push_node h (h.hash k % UINT_RANGE % h.max.toNat)
            { key := k, value := v, hash := h.hash k % UINT_RANGE }) (h.max + h.off), 0)
        else if h.off < -1 then
          (hashmap_rehash (push_node h (h.hash k % UINT_RANGE % h.max.toNat)
            { key := k, value := v, hash := h.hash k % UINT_RANGE }) (h.max * -h.off), 0)
        else (push_node h (h.hash k % UINT_RANGE % h.max.toNat)
            { key := k, value := v, hash := h.hash k % UINT_RANGE }, 0)
      else (push_node h (h.hash k % UINT_RANGE % h.max.toNat)
            { key := k, value := v, hash := h.hash k % UINT_RANGE }, 0) := by
  unfold hashmap_put_noalloc
  simp only [hf]
  rfl

theorem pos_lt_length (h : HASHMAP) (hs : wf_shape h) (hv : Nat) :
    hv % h.max.toNat < h.entry.length := by
  rw [hs.2.1]
  exact Nat.mod_lt _ (by have := hs.1; omega)

theorem push_node_placed (h : HASHMAP) (hs : wf_shape h) (hp : wf_placed h) (k v : Ptr) :
    wf_shape (push_node h (h.hash k % UINT_RANGE % h.max.toNat)
      { key := k, value := v, hash := h.hash k % UINT_RANGE }) ∧
    wf_placed (push_node h (h.hash k % UINT_RANGE % h.max.toNat)
      { key := k, value := v, hash := h.hash k % UINT_RANGE }) ∧
    (live (push_node h (h.hash k % UINT_RANGE % h.max.toNat)
      { key := k, value := v, hash := h.hash k % UINT_RANGE })).Perm
      ({ key := k, value := v, hash := h.hash k % UINT_RANGE } :: live h) := by
  have hpos := pos_lt_length h hs (h.hash k % UINT_RANGE)
  have hperm := live_push_perm h.entry _ hpos
    { key := k, value := v, hash := h.hash k % UINT_RANGE }
  refine ⟨⟨hs.1, ?_, ?_⟩, ?_, hperm⟩
  · show (h.entry.set _ _).length = h.max.toNat
    rw [List.length_set]; exact hs.2.1
  · show h.cur + 1 = ((h.entry.set _ _).flatten).length
    rw [hperm.length_eq, List.length_cons, hs.2.2]; rfl
  · refine placed_set h.hash h.max.toNat h.entry _ hpos _ hp ?_
    intro x hx
    rcases List.mem_cons.mp hx with rfl | hx
    · exact ⟨rfl, rfl⟩
    · exact hp _ hpos x hx

theorem push_node_spec (h : HASHMAP) (L : KeyLaws h.hash h.cmp) (hw : WellFormed h)
    (k v : Ptr) (ha : ¬ present h k) :
    WellFormed (push_node h (h.hash k % UINT_RANGE % h.max.toNat)
      { key := k, value := v, hash := h.hash k % UINT_RANGE }) ∧
    (live (push_node h (h.hash k % UINT_RANGE % h.max.toNat)
      { key := k, value := v, hash := h.hash k % UINT_RANGE })).Perm
      ({ key := k, value := v, hash := h.hash k % UINT_RANGE } :: live h) := by
  obtain ⟨n1, n2, hperm⟩ := push_node_placed h hw.1 hw.2.1 k v
  refine ⟨⟨n1, n2, ?_⟩, hperm⟩
  show (live (push_node h _ _)).Pairwise (keys_differ h.cmp)
  rw [List.Perm.pairwise_iff (fun {x y} hxy => keys_differ_symm h.hash h.cmp L hxy) hperm,
    List.pairwise_cons]
  exact ⟨fun x hx hc => ha ⟨x, hx, hc⟩, hw.2.2⟩

theorem put_new_result (h : HASHMAP) (L : KeyLaws h.hash h.cmp) (hw : WellFormed h)
    (k v : Ptr) (ha : ¬ present h k) (t : HASHMAP)
    (ht : t = push_node h (h.hash k % UINT_RANGE % h.max.toNat)
        { key := k, value := v, hash := h.hash k % UINT_RANGE } ∨
      ∃ nm, h.max ≤ nm ∧ t = hashmap_rehash (push_node h (h.hash k % UINT_RANGE % h.max.toNat)
        { key := k, value := v, hash := h.hash k % UINT_RANGE }) nm) :
    WellFormed t ∧
    (live t).Perm ({ key := k, value := v, hash := h.hash k % UINT_RANGE } :: live h) ∧
    t.hash = h.hash ∧ t.cmp = h.cmp ∧ t.cur = h.cur + 1 ∧ h.max ≤ t.max ∧ t.off = h.off ∧
    t.freed = h.freed ∧ t.factor = h.factor := by
  obtain ⟨hw1, hperm⟩ := push_node_spec h L hw k v ha
  rcases ht with rfl | ⟨nm, hnm, rfl⟩
  · exact ⟨hw1, hperm, rfl, rfl, rfl, le_refl _, rfl, rfl, rfl⟩
  · have hpos : 0 < nm := lt_of_lt_of_le hw.1.1 hnm
    obtain ⟨r1, r2, r3, r4, r5, r6, r7, r8, r9⟩ :=
      rehash_spec (push_node h _ _) nm hpos L hw1.1 hw1.2.2
    have hrc := map_recache_of_placed _ _ _ hw1.2.1
    unfold live at r2 hrc
    rw [hrc] at r2
    refine ⟨r1, r2.trans hperm, r3, r4, r5, ?_, r6, r7, r8⟩
    rw [r9]
    split
    · exact hnm
    · exact le_refl _

theorem find_some_decomp (h : HASHMAP) (k : Ptr) (hv pos i : Nat)
    (hf : hashmap_find_entry h k hv pos = some i) :
    ∃ pre e post, h.entry.getD pos [] = pre ++ e :: post ∧ pre.length = i ∧
      entry_at h pos i = e ∧ entry_matches h.cmp k hv e = true ∧
      (∀ x ∈ pre, entry_matches h.cmp k hv x = false) ∧ e ∈ live h ∧
      pos < h.entry.length := by
  obtain ⟨pre, e, post, hc, hl, hm, hpre⟩ := find_entry_loop_some h.cmp k hv _ i hf
  have hmem : e ∈ h.entry.getD pos [] := by rw [hc]; simp
  refine ⟨pre, e, post, hc, hl, ?_, hm, hpre, mem_flatten_of_bucket _ pos e hmem, ?_⟩
  · unfold entry_at
    rw [hc, ← hl]
    exact getD_append_length pre e post default
  · by_contra hge
    rw [List.getD_eq_default _ _ (Nat.le_of_not_lt hge)] at hmem
    simp at hmem

theorem put_found_placed (h : HASHMAP) (hs : wf_shape h) (hp : wf_placed h)
    (k v : Ptr) (i : Nat)
    (hf : hashmap_find_entry h k (h.hash k % UINT_RANGE)
      (h.hash k % UINT_RANGE % h.max.toNat) = some i) :
    ∃ pre e post,
      h.entry.getD (h.hash k % UINT_RANGE % h.max.toNat) [] = pre ++ e :: post ∧
      h.hash k % UINT_RANGE % h.max.toNat < h.entry.length ∧
      (∀ x ∈ pre, entry_matches h.cmp k (h.hash k % UINT_RANGE) x = false) ∧
      entry_matches h.cmp k (h.hash k % UINT_RANGE) e = true ∧
      hashmap_put_noalloc h k v =
        ({ h with
           entry := h.entry.set (h.hash k % UINT_RANGE % h.max.toNat)
             (pre ++ (put_update e k v h.freed).1 :: post)
           freed := (put_update e k v h.freed).2 }, 1) ∧
      wf_shape (hashmap_put_noalloc h k v).1 ∧ wf_placed (hashmap_put_noalloc h k v).1 := by
  obtain ⟨pre, e, post, hc, hl, hat, hm, hpre, _, hpos⟩ := find_some_decomp h k _ _ i hf
  have heq : hashmap_put_noalloc h k v =
      ({ h with
         entry := h.entry.set (h.hash k % UINT_RANGE % h.max.toNat)
           (pre ++ (put_update e k v h.freed).1 :: post)
         freed := (put_update e k v h.freed).2 }, 1) := by
    rw [put_eq_found h k v i hf, hat]
    unfold entry_store
    rw [hc, ← hl, set_append_length]
  refine ⟨pre, e, post, hc, hpos, hpre, hm, heq, ?_⟩
  rw [heq]
  obtain ⟨_, hhash, hkey⟩ := put_update_spec e k v h.freed
  generalize (put_update e k v h.freed).1 = e2 at hhash hkey
  generalize (put_update e k v h.freed).2 = log2
  obtain ⟨rest, hr1, hr2⟩ := live_set_perm h.entry _ hpos pre e post hc
  have hhv : h.hash k % UINT_RANGE = e.hash := by
    unfold entry_matches at hm
    simp only [Bool.and_eq_true, beq_iff_eq] at hm
    exact hm.1
  have hplaced_e := hp _ hpos e (by rw [hc]; simp)
  refine ⟨⟨hs.1, ?_, ?_⟩, ?_⟩
  · show (h.entry.set _ _).length = h.max.toNat
    rw [List.length_set]; exact hs.2.1
  · show h.cur = ((h.entry.set _ (pre ++ e2 :: post)).flatten).length
    rw [(hr2 e2).length_eq, hs.2.2]
    unfold live
    rw [hr1.length_eq]; rfl
  · show placed_in h.hash h.max.toNat (h.entry.set _ (pre ++ e2 :: post))
    refine placed_set h.hash h.max.toNat h.entry _ hpos _ hp ?_
    intro x hx
    have hx2 : x = e2 ∨ x ∈ pre ++ e :: post := by
      simp only [List.mem_append, List.mem_cons] at hx ⊢
      tauto
    rcases hx2 with rfl | hx2
    · exact ⟨by rw [hhash, hkey, ← hhv], by rw [hhash]; exact hplaced_e.2⟩
    · exact hp _ hpos x (by rw [hc]; exact hx2)

theorem put_found_spec (h : HASHMAP) (L : KeyLaws h.hash h.cmp) (hw : WellFormed h)
    (k v : Ptr) (i : Nat)
    (hf : hashmap_find_entry h k (h.hash k % UINT_RANGE)
      (h.hash k % UINT_RANGE % h.max.toNat) = some i) :
    (hashmap_put_noalloc h k v).2 = 1 ∧ WellFormed (hashmap_put_noalloc h k v).1 ∧
    (hashmap_put_noalloc h k v).1.hash = h.hash ∧ (hashmap_put_noalloc h k v).1.cmp = h.cmp ∧
    (hashmap_put_noalloc h k v).1.cur = h.cur ∧ (hashmap_put_noalloc h k v).1.max = h.max ∧
    (hashmap_put_noalloc h k v).1.off = h.off ∧
    ∃ e e2 rest, h.cmp k e.key = 0 ∧ h.cmp k e2.key = 0 ∧ e2.value = v ∧
      (live h).Perm (e :: rest) ∧ (live (hashmap_put_noalloc h k v).1).Perm (e2 :: rest) := by
  obtain ⟨pre, e, post, hc, hpos, _, hm, heq, n1, n2⟩ :=
    put_found_placed h hw.1 hw.2.1 k v i hf
  obtain ⟨hke, _⟩ := matches_imp_cmp h.hash h.cmp L k _ e hm
  obtain ⟨hval, _, hkey⟩ := put_update_spec e k v h.freed
  have hke2 : h.cmp k (put_update e k v h.freed).1.key = 0 := by
    rw [hkey]; exact L.refl k
  obtain ⟨rest, hr1, hr2⟩ := live_set_perm h.entry _ hpos pre e post hc
  have hr3 := hr2 (put_update e k v h.freed).1
  have hsym := keys_differ_symm h.hash h.cmp L
  have hu2 : (e :: rest).Pairwise (keys_differ h.cmp) :=
    (List.Perm.pairwise_iff (fun {x y} hxy => hsym hxy) hr1).mp hw.2.2
  rw [heq] at n1 n2 ⊢
  refine ⟨rfl, ⟨n1, n2, ?_⟩, rfl, rfl, rfl, rfl, rfl,
    e, (put_update e k v h.freed).1, rest, hke, hke2, hval, hr1, hr3⟩
  show ((h.entry.set _ _).flatten).Pairwise (keys_differ h.cmp)
  rw [List.Perm.pairwise_iff (fun {x y} hxy => hsym hxy) hr3, List.pairwise_cons]
  rw [List.pairwise_cons] at hu2
  refine ⟨?_, hu2.2⟩
  intro x hx hcx
  exact hu2.1 x hx (L.trans _ _ _ (L.symm _ _ hke) (L.trans _ _ _ hke2 hcx))

theorem put_spec (h : HASHMAP) (L : KeyLaws h.hash h.cmp) (hw : WellFormed h) (k v : Ptr) :
    WellFormed (hashmap_put_noalloc h k v).1 ∧
    (hashmap_put_noalloc h k v).1.hash = h.hash ∧ (hashmap_put_noalloc h k v).1.cmp = h.cmp ∧
    (hashmap_put_noalloc h k v).1.off = h.off ∧ h.max ≤ (hashmap_put_noalloc h k v).1.max ∧
    (∃ e, h.cmp k e.key = 0 ∧ e.value = v ∧
      ∀ x, x ∈ live (hashmap_put_noalloc h k v).1 ↔
        (x = e ∨ (x ∈ live h ∧ h.cmp k x.key ≠ 0))) ∧
    (present h k → (hashmap_put_noalloc h k v).2 = 1 ∧
      (hashmap_put_noalloc h k v).1.cur = h.cur ∧ (hashmap_put_noalloc h k v).1.max = h.max) ∧
    (¬ present h k → (hashmap_put_noalloc h k v).2 = 0 ∧
      (hashmap_put_noalloc h k v).1.cur = h.cur + 1) := by
  cases hf : hashmap_find_entry h k (h.hash k % UINT_RANGE)
      (h.hash k % UINT_RANGE % h.max.toNat) with
  | some i =>
    obtain ⟨p1, p2, p3, p4, p5, p6, p7, e, e2, rest, hke, hke2, hval, hr1, hr2⟩ :=
      put_found_spec h L hw k v i hf
    have hsym := keys_differ_symm h.hash h.cmp L
    have hu2 : (e :: rest).Pairwise (keys_differ h.cmp) :=
      (List.Perm.pairwise_iff (fun {x y} hxy => hsym hxy) hr1).mp hw.2.2
    rw [List.pairwise_cons] at hu2
    have hpres : present h k := ⟨e, hr1.mem_iff.mpr (List.mem_cons_self _ _), hke⟩
    refine ⟨p2, p3, p4, p7, le_of_eq p6.symm, ⟨e2, hke2, hval, ?_⟩,
      fun _ => ⟨p1, p5, p6⟩, fun hn => absurd hpres hn⟩
    intro x
    rw [hr2.mem_iff, hr1.mem_iff, List.mem_cons, List.mem_cons]
    constructor
    · rintro (hx | hx)
      · exact Or.inl hx
      · exact Or.inr ⟨Or.inr hx, fun hc =>
          hu2.1 x hx (L.trans _ _ _ (L.symm _ _ hke) hc)⟩
    · rintro (hx | ⟨hx | hx, hne⟩)
      · exact Or.inl hx
      · exact absurd (hx ▸ hke) hne
      · exact Or.inr hx
  | none =>
    have ha := find_none_absent h L hw.2.1 k hf
    have hres := put_new_result h L hw k v ha (hashmap_put_noalloc h k v).1 (by
      rw [put_eq_new h k v hf]
      have hmax := hw.1.1
      split_ifs with h1 h2 h3
      · exact Or.inr ⟨_, by omega, rfl⟩
      · exact Or.inr ⟨_, by nlinarith, rfl⟩
      · exact Or.inl rfl
      · exact Or.inl rfl)
    obtain ⟨r1, r2, r3, r4, r5, r6, r7, _, _⟩ := hres
    refine ⟨r1, r3, r4, r7, r6,
      ⟨{ key := k, value := v, hash := h.hash k % UINT_RANGE }, L.refl k, rfl, ?_⟩,
      fun hp => absurd hp ha, fun _ => ⟨?_, r5⟩⟩
    · intro x
      rw [r2.mem_iff, List.mem_cons]
      constructor
      · rintro (hx | hx)
        · exact Or.inl hx
        · exact Or.inr ⟨hx, fun hc => ha ⟨x, hx, hc⟩⟩
      · rintro (hx | ⟨hx, _⟩)
        · exact Or.inl hx
        · exact Or.inr hx
    · rw [put_eq_new h k v hf]
      split_ifs <;> rfl

theorem put_laws (h : HASHMAP) (L : KeyLaws h.hash h.cmp) (hw : WellFormed h) (k v : Ptr) :
    KeyLaws (hashmap_put_noalloc h k v).1.hash (hashmap_put_noalloc h k v).1.cmp := by
  obtain ⟨_, p2, p3, _⟩ := put_spec h L hw k v
  rw [p2, p3]; exact L

theorem put_present_iff (h : HASHMAP) (L : KeyLaws h.hash h.cmp) (hw : WellFormed h)
    (k v k2 : Ptr) :
    present (hashmap_put_noalloc h k v).1 k2 ↔ (present h k2 ∨ h.cmp k2 k = 0) := by
  obtain ⟨_, _, p3, _, _, ⟨e, hke, _, hmem⟩, _, _⟩ := put_spec h L hw k v
  unfold present
  rw [p3]
  constructor
  · rintro ⟨x, hx, hc⟩
    rcases (hmem x).mp hx with rfl | ⟨hx2, _⟩
    · exact Or.inr (L.trans _ _ _ hc (L.symm _ _ hke))
    · exact Or.inl ⟨x, hx2, hc⟩
  · rintro (⟨x, hx, hc⟩ | hc)
    · by_cases hkx : h.cmp k x.key = 0
      · exact ⟨e, (hmem e).mpr (Or.inl rfl),
          L.trans _ _ _ hc (L.trans _ _ _ (L.symm _ _ hkx) hke)⟩
      · exact ⟨x, (hmem x).mpr (Or.inr ⟨hx, hkx⟩), hc⟩
    · exact ⟨e, (hmem e).mpr (Or.inl rfl), L.trans _ _ _ hc hke⟩

theorem put_get_same (h : HASHMAP) (L : KeyLaws h.hash h.cmp) (hw : WellFormed h)
    (k v k2 : Ptr) (hc : h.cmp k2 k = 0) :
    hashmap_get (hashmap_put_noalloc h k v).1 k2 = v := by
  have L2 := put_laws h L hw k v
  obtain ⟨p1, _, p3, _, _, ⟨e, hke, hval, hmem⟩, _, _⟩ := put_spec h L hw k v
  have hg := get_of_mem _ L2 p1 k2 e ((hmem e).mpr (Or.inl rfl))
    (by rw [p3]; exact L.trans _ _ _ hc hke)
  rw [hg, hval]

theorem put_get_other (h : HASHMAP) (L : KeyLaws h.hash h.cmp) (hw : WellFormed h)
    (k v k2 : Ptr) (hc : h.cmp k2 k ≠ 0) :
    hashmap_get (hashmap_put_noalloc h k v).1 k2 = hashmap_get h k2 := by
  have L2 := put_laws h L hw k v
  have hpi := put_present_iff h L hw k v k2
  obtain ⟨p1, _, p3, _, _, ⟨e, hke, hval, hmem⟩, _, _⟩ := put_spec h L hw k v
  by_cases hp : present h k2
  · obtain ⟨x, hx, hcx⟩ := hp
    have hkx : h.cmp k x.key ≠ 0 := fun h0 =>
      hc (L.trans _ _ _ hcx (L.symm _ _ h0))
    rw [get_of_mem h L hw k2 x hx hcx]
    exact get_of_mem _ L2 p1 k2 x ((hmem x).mpr (Or.inr ⟨hx, hkx⟩)) (by rw [p3]; exact hcx)
  · rw [get_of_absent h L k2 hp]
    refine get_of_absent _ L2 k2 ?_
    rw [hpi]
    rintro (h1 | h1)
    · exact hp h1
    · exact hc h1

/-! ## Removal -/

theorem remove_loop_some (cmp : Ptr → Ptr → Int) (key : Ptr) (hv : Nat) :
    ∀ (c : List ENTRY) (r : List ENTRY × ENTRY), remove_loop cmp key hv c = some r →
      ∃ pre post, c = pre ++ r.2 :: post ∧ r.1 = pre ++ post ∧
        entry_matches cmp key hv r.2 = true ∧ ∀ x ∈ pre, entry_matches cmp key hv x = false := by
  intro c
  induction c with
  | nil => intro r hr; simp [remove_loop] at hr
  | cons a next ih =>
    intro r hr
    unfold remove_loop at hr
    by_cases hm : entry_matches cmp key hv a = true
    · simp only [hm, if_true, Option.some.injEq] at hr
      subst hr
      exact ⟨[], next, rfl, rfl, hm, by simp⟩
    · cases hj : remove_loop cmp key hv next with
      | none => simp [hm, hj] at hr
      | some r2 =>
        simp only [hm, hj, Option.map_some'] at hr
        have hr2 : (a :: r2.1, r2.2) = r := by simpa using hr
        subst hr2
        obtain ⟨pre, post, hc, hl, he, hpre⟩ := ih r2 hj
        refine ⟨a :: pre, post, by simp [hc], by simp [hl], he, ?_⟩
        intro x hx
        rcases List.mem_cons.mp hx with rfl | hx
        · simpa using hm
        · exact hpre x hx

theorem remove_loop_none (cmp : Ptr → Ptr → Int) (key : Ptr) (hv : Nat) (c : List ENTRY) :
    remove_loop cmp key hv c = none ↔ find_entry_loop cmp key hv c = none := by
  induction c with
  | nil => simp [remove_loop, find_entry_loop]
  | cons a next ih =>
    unfold remove_loop find_entry_loop
    by_cases hm : entry_matches cmp key hv a = true
    · simp [hm]
    · have hm2 : entry_matches cmp key hv a = false := by simpa using hm
      simp only [hm2, Option.map_eq_none']
      simpa using ih

theorem remove_eq_none (h : HASHMAP) (k : Ptr) (fk : Int)
    (hf : remove_loop h.cmp k (h.hash k % UINT_RANGE)
      (h.entry.getD (h.hash k % UINT_RANGE % h.max.toNat) []) = none) :
    hashmap_remove_entry h k fk = h := by
  unfold hashmap_remove_entry
  simp only [hf]

theorem remove_eq_some (h : HASHMAP) (k : Ptr) (fk : Int) (r : List ENTRY × ENTRY)
    (hf : remove_loop h.cmp k (h.hash k % UINT_RANGE)
      (h.entry.getD (h.hash k % UINT_RANGE % h.max.toNat) []) = some r) :
    hashmap_remove_entry h k fk =
      { h with
        entry := h.entry.set (h.hash k % UINT_RANGE % h.max.toNat) r.1
        freed := remove_free r.2 fk h.freed
        cur := h.cur - 1 } := by
  unfold hashmap_remove_entry
  simp only [hf]

theorem remove_placed (h : HASHMAP) (hs : wf_shape h) (hp : wf_placed h) (k : Ptr) (fk : Int) :
    wf_shape (hashmap_remove_entry h k fk) ∧ wf_placed (hashmap_remove_entry h k fk) ∧
    (hashmap_remove_entry h k fk).hash = h.hash ∧ (hashmap_remove_entry h k fk).cmp = h.cmp := by
  cases hf : remove_loop h.cmp k (h.hash k % UINT_RANGE)
      (h.entry.getD (h.hash k % UINT_RANGE % h.max.toNat) []) with
  | none =>
    rw [remove_eq_none h k fk hf]
    exact ⟨hs, hp, rfl, rfl⟩
  | some r =>
    rw [remove_eq_some h k fk r hf]
    obtain ⟨pre, post, hc, hr1, _, _⟩ := remove_loop_some _ _ _ _ r hf
    have hpos := pos_lt_length h hs (h.hash k % UINT_RANGE)
    have hperm := live_erase_perm h.entry _ hpos pre r.2 post hc
    rw [← hr1] at hperm
    refine ⟨⟨hs.1, ?_, ?_⟩, ?_, rfl, rfl⟩
    · show (h.entry.set _ _).length = h.max.toNat
      rw [List.length_set]; exact hs.2.1
    · show h.cur - 1 = ((h.entry.set _ r.1).flatten.length : Int)
      have := hperm.length_eq
      rw [List.length_cons] at this
      rw [hs.2.2]
      unfold live
      omega
    · refine placed_set h.hash h.max.toNat h.entry _ hpos _ hp ?_
      intro x hx
      refine hp _ hpos x ?_
      rw [hc]
      rw [hr1] at hx
      simp only [List.mem_append, List.mem_cons] at hx ⊢
      tauto

theorem remove_spec (h : HASHMAP) (L : KeyLaws h.hash h.cmp) (hw : WellFormed h)
    (k : Ptr) (fk : Int) :
    WellFormed (hashmap_remove_entry h k fk) ∧
    (hashmap_remove_entry h k fk).hash = h.hash ∧ (hashmap_remove_entry h k fk).cmp = h.cmp ∧
    (hashmap_remove_entry h k fk).max = h.max ∧ (hashmap_remove_entry h k fk).off = h.off ∧
    (hashmap_remove_entry h k fk).threshold = h.threshold ∧
    (hashmap_remove_entry h k fk).factor = h.factor ∧
    (present h k → (hashmap_remove_entry h k fk).cur = h.cur - 1 ∧
      ∃ e, h.cmp k e.key = 0 ∧ (live h).Perm (e :: live (hashmap_remove_entry h k fk)) ∧
        (hashmap_remove_entry h k fk).freed = remove_free e fk h.freed) ∧
    (¬ present h k → hashmap_remove_entry h k fk = h) := by
  obtain ⟨n1, n2, _, _⟩ := remove_placed h hw.1 hw.2.1 k fk
  cases hf : remove_loop h.cmp k (h.hash k % UINT_RANGE)
      (h.entry.getD (h.hash k % UINT_RANGE % h.max.toNat) []) with
  | none =>
    rw [remove_eq_none h k fk hf]
    have ha := find_none_absent h L hw.2.1 k ((remove_loop_none _ _ _ _).mp hf)
    exact ⟨hw, rfl, rfl, rfl, rfl, rfl, rfl, fun hp => absurd hp ha, fun _ => rfl⟩
  | some r =>
    rw [remove_eq_some h k fk r hf] at n1 n2 ⊢
    obtain ⟨hs, hp, hu⟩ := hw
    obtain ⟨pre, post, hc, hr1, hm, _⟩ := remove_loop_some _ _ _ _ r hf
    obtain ⟨hke, _⟩ := matches_imp_cmp h.hash h.cmp L k _ r.2 hm
    have hpos := pos_lt_length h hs (h.hash k % UINT_RANGE)
    have hperm := live_erase_perm h.entry _ hpos pre r.2 post hc
    rw [← hr1] at hperm
    have hsym := keys_differ_symm h.hash h.cmp L
    have hu2 := (List.Perm.pairwise_iff (fun {x y} hxy => hsym hxy) hperm).mp hu
    have hmem : r.2 ∈ live h := hperm.mem_iff.mpr (List.mem_cons_self _ _)
    exact ⟨⟨n1, n2, (List.pairwise_cons.mp hu2).2⟩, rfl, rfl, rfl, rfl, rfl, rfl,
      fun _ => ⟨rfl, r.2, hke, hperm, rfl⟩, fun hn => absurd ⟨r.2, hmem, hke⟩ hn⟩

/-! ## Clearing -/

theorem clear_chain_eq (c : List ENTRY) (s : CLEAR_STATE) :
    clear_chain c s =
      { entry := s.entry, cur := s.cur - c.length, freed := c.foldl clear_free s.freed } := by
  induction c generalizing s with
  | nil => simp [clear_chain]
  | cons e c ih =>
    have : clear_chain (e :: c) s =
        clear_chain c { s with freed := clear_free s.freed e, cur := s.cur - 1 } := rfl
    rw [this, ih]
    simp only [List.length_cons, List.foldl_cons, CLEAR_STATE.mk.injEq, true_and, and_true]
    push_cast; ring

theorem drop_eq_cons_getD (B : List (List ENTRY)) (j : Nat) (hj : j < B.length) :
    B.drop j = B.getD j [] :: B.drop (j + 1) := by
  rw [List.getD_eq_getElem _ _ hj]
  exact List.drop_eq_getElem_cons hj

theorem clear_loop_inv (h : HASHMAP) (hc : h.cur = (live h).length) :
    ∀ j, j ≤ h.entry.length →
      (List.range j).foldl (fun (a : CLEAR_STATE) it =>
        if a.cur ≠ 0 then
          let b := clear_chain (a.entry.getD it []) a
          { b with entry := b.entry.set it [] }
        else a) { entry := h.entry, cur := h.cur, freed := h.freed } =
      { entry := List.replicate j [] ++ h.entry.drop j
        cur := h.cur - ((h.entry.take j).flatten.length : Int)
        freed := (h.entry.take j).flatten.foldl clear_free h.freed } := by
  intro j
  induction j with
  | zero => intro _; simp
  | succ j ih =>
    intro hj
    have hj2 : j < h.entry.length := hj
    rw [List.range_succ, List.foldl_append, ih (Nat.le_of_lt hj2)]
    simp only [List.foldl_cons, List.foldl_nil]
    have hrl : (List.replicate j ([] : List ENTRY)).length = j := List.length_replicate _ _
    have hget : (List.replicate j ([] : List ENTRY) ++ h.entry.drop j).getD j [] =
        h.entry.getD j [] := by
      rw [drop_eq_cons_getD h.entry j hj2]
      have := getD_append_length (List.replicate j ([] : List ENTRY)) (h.entry.getD j [])
        (h.entry.drop (j + 1)) []
      rw [hrl] at this
      exact this
    by_cases hg : h.cur - ((h.entry.take j).flatten.length : Int) ≠ 0
    · rw [if_pos hg]
      simp only [clear_chain_eq, hget, take_succ_flatten h.entry j hj2, List.length_append,
        List.foldl_append, CLEAR_STATE.mk.injEq]
      refine ⟨?_, by push_cast; ring, trivial⟩
      rw [drop_eq_cons_getD h.entry j hj2]
      have := set_append_length (List.replicate j ([] : List ENTRY)) (h.entry.getD j [])
        (h.entry.drop (j + 1)) []
      rw [hrl] at this
      rw [this, List.replicate_succ']
      simp
    · rw [if_neg hg]
      have h0 : (h.entry.take j).flatten.length = h.entry.flatten.length := by
        unfold live at hc
        omega
      have hb := bucket_empty_of_count h.entry j h0
      simp only [take_succ_flatten h.entry j hj2, hb, List.append_nil, CLEAR_STATE.mk.injEq,
        and_true]
      rw [drop_eq_cons_getD h.entry j hj2, hb, List.replicate_succ']
      simp

theorem clear_loop_spec (h : HASHMAP) (hl : h.entry.length = h.max.toNat)
    (hc : h.cur = (live h).length) :
    (clear_loop h).entry = List.replicate h.max.toNat [] ∧
    (clear_loop h).freed = (live h).foldl clear_free h.freed := by
  have key := clear_loop_inv h hc h.entry.length (Nat.le_refl _)
  unfold clear_loop
  rw [← hl, key]
  simp [live]

/-! ## Traversal -/

theorem browse_chain_zero (v : Ptr → Ptr → Int) :
    ∀ (l : List ENTRY) (s : BROWSE_STATE), (∀ e ∈ l, v e.key e.value = 0) →
      browse_chain v l s = { s with cur := s.cur - l.length, calls := s.calls ++ l } := by
  intro l
  induction l with
  | nil => intro s _; simp [browse_chain]
  | cons e l ih =>
    intro s hall
    have he : v e.key e.value = 0 := hall e (List.mem_cons_self _ _)
    rw [browse_chain, if_neg (by simp [he]), ih _ (fun x hx => hall x (List.mem_cons_of_mem _ hx))]
    simp only [List.length_cons, List.append_assoc, List.singleton_append,
      BROWSE_STATE.mk.injEq, true_and, and_true]
    push_cast; ring

theorem browse_chain_first (v : Ptr → Ptr → Int) :
    ∀ (pre : List ENTRY) (e : ENTRY) (post : List ENTRY) (s : BROWSE_STATE),
      (∀ x ∈ pre, v x.key x.value = 0) → v e.key e.value ≠ 0 →
      browse_chain v (pre ++ e :: post) s =
        { ret := v e.key e.value, cur := s.cur - pre.length, calls := s.calls ++ pre ++ [e] } := by
  intro pre
  induction pre with
  | nil =>
    intro e post s _ he
    simp only [List.nil_append, browse_chain, if_pos he]
    simp
  | cons a pre ih =>
    intro e post s hall he
    have ha : v a.key a.value = 0 := hall a (List.mem_cons_self _ _)
    rw [List.cons_append, browse_chain, if_neg (by simp [ha]),
      ih e post _ (fun x hx => hall x (List.mem_cons_of_mem _ hx)) he, BROWSE_STATE.mk.injEq]
    refine ⟨rfl, ?_, by simp⟩
    simp only [List.length_cons]
    push_cast; ring

theorem browse_chain_cases (v : Ptr → Ptr → Int) (l : List ENTRY) :
    (∀ e ∈ l, v e.key e.value = 0) ∨
    ∃ pre e post, l = pre ++ e :: post ∧ (∀ x ∈ pre, v x.key x.value = 0) ∧
      v e.key e.value ≠ 0 := by
  induction l with
  | nil => left; simp
  | cons a l ih =>
    by_cases ha : v a.key a.value = 0
    · rcases ih with h1 | ⟨pre, e, post, h1, h2, h3⟩
      · left
        intro x hx
        rcases List.mem_cons.mp hx with rfl | hx
        · exact ha
        · exact h1 x hx
      · right
        refine ⟨a :: pre, e, post, by rw [h1]; rfl, ?_, h3⟩
        intro x hx
        rcases List.mem_cons.mp hx with rfl | hx
        · exact ha
        · exact h2 x hx
    · right
      exact ⟨[], a, l, rfl, by simp, ha⟩

theorem browse_chain_append_run (v : Ptr → Ptr → Int) (l c : List ENTRY) (s : BROWSE_STATE)
    (hs : s.ret = 0) (hr : (browse_chain v l s).ret = 0) :
    browse_chain v c (browse_chain v l s) = browse_chain v (l ++ c) s := by
  rcases browse_chain_cases v l with h1 | ⟨pre, e, post, h1, h2, h3⟩
  · rw [browse_chain_zero v l s h1]
    clear hr
    induction l generalizing s with
    | nil => simp
    | cons a l ih =>
      have ha : v a.key a.value = 0 := h1 a (List.mem_cons_self _ _)
      have hi := ih { s with cur := s.cur - 1, calls := s.calls ++ [a] } hs
        (fun x hx => h1 x (List.mem_cons_of_mem _ hx))
      rw [List.cons_append, browse_chain, if_neg (by simp [ha]), ← hi]
      congr 1
      rw [BROWSE_STATE.mk.injEq]
      refine ⟨rfl, ?_, by simp⟩
      simp only [List.length_cons]
      push_cast; ring
  · rw [h1, browse_chain_first v pre e post s h2 h3] at hr
    exact absurd hr h3

theorem browse_chain_append_stop (v : Ptr → Ptr → Int) (l c : List ENTRY) (s : BROWSE_STATE)
    (hs : s.ret = 0) (hr : (browse_chain v l s).ret ≠ 0) :
    browse_chain v (l ++ c) s = browse_chain v l s := by
  rcases browse_chain_cases v l with h1 | ⟨pre, e, post, h1, h2, h3⟩
  · rw [browse_chain_zero v l s h1] at hr
    exact absurd hs hr
  · rw [h1, List.append_assoc, List.cons_append, browse_chain_first v pre e _ s h2 h3,
      browse_chain_first v pre e _ s h2 h3]

theorem browse_loop_eq (h : HASHMAP) (v : Ptr → Ptr → Int)
    (hl : h.entry.length = h.max.toNat) (hc : h.cur = (live h).length) :
    browse_loop h v = browse_chain v (live h) { ret := 0, cur := h.cur, calls := [] } := by
  have key := range_fold_guard h.entry (fun a c => browse_chain v c a)
    (fun l => browse_chain v l { ret := 0, cur := h.cur, calls := [] })
    (fun a => a.ret = 0 ∧ a.cur ≠ 0)
    (fun l c hg => browse_chain_append_run v l c _ rfl hg.1)
    (by
      intro j _ hg
      by_cases hr : (browse_chain v (h.entry.take j).flatten
          { ret := 0, cur := h.cur, calls := [] }).ret = 0
      · have hcur : (browse_chain v (h.entry.take j).flatten
            { ret := 0, cur := h.cur, calls := [] }).cur = 0 := by
          by_contra hne; exact hg ⟨hr, hne⟩
        rcases browse_chain_cases v (h.entry.take j).flatten with h1 | ⟨pre, e, post, h1, h2, h3⟩
        · rw [browse_chain_zero v _ _ h1] at hcur
          simp only at hcur
          have h0 : (h.entry.take j).flatten.length = h.entry.flatten.length := by
            unfold live at hc
            omega
          rw [bucket_empty_of_count h.entry j h0, List.append_nil]
        · rw [h1, browse_chain_first v pre e post _ h2 h3] at hr
          exact absurd hr h3
      · exact browse_chain_append_stop v _ _ _ rfl hr)
    h.entry.length (Nat.le_refl _)
  unfold browse_loop
  rw [← hl]
  rw [List.take_length] at key
  exact key

/-! ## Creation, hash replacement, clearing: well-formedness -/

theorem create_wf (max off : Int) (hash : Ptr → Nat) (cmp : Ptr → Ptr → Int) (hm : 0 < max) :
    WellFormed (hashmap_create max off hash cmp) ∧ live (hashmap_create max off hash cmp) = [] := by
  have hl : live (hashmap_create max off hash cmp) = [] := by
    simp [live, hashmap_create]
  refine ⟨⟨⟨hm, List.length_replicate _ _, by rw [hl]; rfl⟩, ?_, ?_⟩, hl⟩
  · intro i _ e he
    exact absurd he (not_mem_replicate_bucket _ i e)
  · unfold wf_unique
    rw [hl]
    exact List.Pairwise.nil

theorem sethashfunc_spec (h : HASHMAP) (hw : WellFormed h) (hash2 : Ptr → Nat)
    (L2 : KeyLaws hash2 h.cmp) :
    WellFormed (hashmap_rehash { h with hash := hash2 } h.max) ∧
    (live (hashmap_rehash { h with hash := hash2 } h.max)).Perm
      ((live h).map (recache hash2)) ∧
    (hashmap_rehash { h with hash := hash2 } h.max).hash = hash2 ∧
    (hashmap_rehash { h with hash := hash2 } h.max).cmp = h.cmp ∧
    (hashmap_rehash { h with hash := hash2 } h.max).cur = h.cur ∧
    (hashmap_rehash { h with hash := hash2 } h.max).max = h.max := by
  obtain ⟨r1, r2, r3, r4, r5, _, _, _, r9⟩ :=
    rehash_spec { h with hash := hash2 } h.max hw.1.1 L2 hw.1 hw.2.2
  refine ⟨r1, r2, r3, r4, r5, ?_⟩
  rw [r9]
  split <;> rfl

theorem clear_spec (h : HASHMAP) (hs : wf_shape h) :
    hashmap_clear (some h) =
      some { h with
        entry := List.replicate h.max.toNat []
        freed := (live h).foldl clear_free h.freed
        cur := 0 } := by
  obtain ⟨c1, c2⟩ := clear_loop_spec h hs.2.1 hs.2.2
  unfold hashmap_clear
  simp only [Option.map_some', c1, c2]

theorem cleared_wf (h : HASHMAP) (hs : wf_shape h) (log : List Ptr) :
    WellFormed { h with entry := List.replicate h.max.toNat [], freed := log, cur := 0 } ∧
    live { h with entry := List.replicate h.max.toNat [], freed := log, cur := 0 } = [] := by
  have hl : live { h with entry := List.replicate h.max.toNat [], freed := log, cur := 0 }
      = [] := by
    simp [live]
  refine ⟨⟨⟨hs.1, List.length_replicate _ _, by rw [hl]; rfl⟩, ?_, ?_⟩, hl⟩
  · intro i _ e he
    exact absurd he (not_mem_replicate_bucket _ i e)
  · unfold wf_unique
    rw [hl]
    exact List.Pairwise.nil

theorem lawful_reachable_wf (cmp : Ptr → Ptr → Int) (h : HASHMAP)
    (hr : LawfulReachable cmp h) :
    WellFormed h ∧ KeyLaws h.hash h.cmp ∧ h.cmp = cmp := by
  induction hr with
  | create max off hash hm L => exact ⟨(create_wf max off hash cmp hm).1, L, rfl⟩
  | put_noalloc h key value _ ih =>
    obtain ⟨hw, L, hc⟩ := ih
    obtain ⟨p1, _, p3, _⟩ := put_spec h L hw key value
    exact ⟨p1, put_laws h L hw key value, by rw [p3, hc]⟩
  | put m order h key keysize value valuesize _ ih =>
    obtain ⟨hw, L, hc⟩ := ih
    obtain ⟨p1, _, p3, _⟩ := put_spec h L hw (put_dups m order key keysize value valuesize).2.1
      (put_dups m order key keysize value valuesize).2.2
    exact ⟨p1, put_laws h L hw _ _, by rw [← hc]; exact p3⟩
  | put_ident m h key keysize _ ih =>
    obtain ⟨hw, L, hc⟩ := ih
    obtain ⟨p1, _, p3, _⟩ := put_spec h L hw (xmemdup m key keysize).2 (xmemdup m key keysize).2
    exact ⟨p1, put_laws h L hw _ _, by rw [← hc]; exact p3⟩
  | put_ident_noalloc h key _ ih =>
    obtain ⟨hw, L, hc⟩ := ih
    obtain ⟨p1, _, p3, _⟩ := put_spec h L hw key key
    exact ⟨p1, put_laws h L hw key key, by rw [← hc]; exact p3⟩
  | remove h t key _ heq ih =>
    obtain ⟨hw, L, hc⟩ := ih
    obtain ⟨p1, p2, p3, _⟩ := remove_spec h L hw key 1
    have ht : hashmap_remove_entry h key 1 = t := by
      simpa [hashmap_remove] using heq
    rw [← ht]
    exact ⟨p1, by rw [p2, p3]; exact L, by rw [p3, hc]⟩
  | remove_nofree h t key _ heq ih =>
    obtain ⟨hw, L, hc⟩ := ih
    obtain ⟨p1, p2, p3, _⟩ := remove_spec h L hw key 0
    have ht : hashmap_remove_entry h key 0 = t := by
      simpa [hashmap_remove_nofree] using heq
    rw [← ht]
    exact ⟨p1, by rw [p2, p3]; exact L, by rw [p3, hc]⟩
  | clear h t _ heq ih =>
    obtain ⟨hw, L, hc⟩ := ih
    rw [clear_spec h hw.1] at heq
    have ht := Option.some.inj heq
    rw [← ht]
    exact ⟨(cleared_wf h hw.1 _).1, L, hc⟩
  | sethashfunc h t hash _ L2 heq ih =>
    obtain ⟨hw, L, hc⟩ := ih
    have ht : hashmap_rehash { h with hash := hash } h.max = t := by
      simpa [hashmap_sethashfunc] using heq
    obtain ⟨r1, _, r3, r4, _⟩ := sethashfunc_spec h hw hash (by rw [hc]; exact L2)
    rw [← ht]
    exact ⟨r1, by rw [r3, r4, hc]; exact L2, by rw [r4, hc]⟩
  | setloadfactor h t factor _ heq ih =>
    obtain ⟨hw, L, hc⟩ := ih
    have ht : { h with factor := factor, threshold := float_scale h.max factor } = t := by
      simpa [hashmap_setloadfactor] using heq
    rw [← ht]
    exact ⟨hw, L, hc⟩

/-! ## Fixtures: laws and reachability -/

theorem laws_cmp_id (hash : Ptr → Nat) : KeyLaws hash cmp_id := by
  refine ⟨?_, ?_, ?_, ?_⟩
  · intro a; simp [cmp_id]
  · intro a b h
    by_cases hab : a = b
    · simp [cmp_id, hab]
    · simp [cmp_id, hab] at h
  · intro a b c h1 h2
    by_cases hab : a = b
    · subst hab; exact h2
    · simp [cmp_id, hab] at h1
  · intro a b h
    by_cases hab : a = b
    · rw [hab]
    · simp [cmp_id, hab] at h

theorem laws_id : KeyLaws hash_id cmp_id := by
  refine ⟨?_, ?_, ?_, ?_⟩
  · intro a; simp [cmp_id]
  · intro a b h
    by_cases hab : a = b
    · simp [cmp_id, hab]
    · simp [cmp_id, hab] at h
  · intro a b c h1 h2
    by_cases hab : a = b
    · subst hab; exact h2
    · simp [cmp_id, hab] at h1
  · intro a b h
    by_cases hab : a = b
    · rw [hab]
    · simp [cmp_id, hab] at h

theorem laws_low : KeyLaws hash_low cmp_low := by
  refine ⟨?_, ?_, ?_, ?_⟩
  · intro a; simp [cmp_low]
  · intro a b h
    by_cases hab : a % 16 = b % 16
    · simp [cmp_low, hab]
    · simp [cmp_low, hab] at h
  · intro a b c h1 h2
    by_cases hab : a % 16 = b % 16
    · by_cases hbc : b % 16 = c % 16
      · simp [cmp_low, hab.trans hbc]
      · simp [cmp_low, hbc] at h2
    · simp [cmp_low, hab] at h1
  · intro a b h
    by_cases hab : a % 16 = b % 16
    · simp [hash_low, hab]
    · simp [cmp_low, hab] at h

theorem reachable_table_two : Reachable table_two :=
  Reachable.put_noalloc _ 5 12
    (Reachable.put_noalloc _ 1 11 (Reachable.create 4 (-2) hash_id cmp_id (by decide)))

theorem reachable_table_low : Reachable table_low :=
  Reachable.put_noalloc _ 5 50 (Reachable.create 4 2 hash_low cmp_low (by decide))

theorem lawful_table_two : LawfulReachable cmp_id table_two :=
  LawfulReachable.put_noalloc _ 5 12
    (LawfulReachable.put_noalloc _ 1 11
      (LawfulReachable.create 4 (-2) hash_id (by decide) laws_id))

theorem wf_table_two : WellFormed table_two := by decide

/-! ## Sequences of insertions -/

theorem run_puts_snoc (h : HASHMAP) (ps : List (Ptr × Ptr)) (p : Ptr × Ptr) :
    run_puts h (ps ++ [p]) = (hashmap_put_noalloc (run_puts h ps) p.1 p.2).1 := by
  simp [run_puts, List.foldl_append]

theorem distinct_count_snoc (hash : Ptr → Nat) (cmp : Ptr → Ptr → Int) (L : KeyLaws hash cmp)
    (ks : List Ptr) (k : Ptr) :
    distinct_count cmp (ks ++ [k]) =
      distinct_count cmp ks + (if ∃ k2 ∈ ks, cmp k k2 = 0 then 0 else 1) := by
  induction ks with
  | nil => simp [distinct_count]
  | cons a ks ih =>
    have hany : ∀ l : List Ptr, (l.any (fun k2 => cmp a k2 == 0) = true) ↔
        ∃ k2 ∈ l, cmp a k2 = 0 := by
      intro l; simp [List.any_eq_true]
    by_cases hc : cmp a k = 0
    · have hAB : (∃ k2 ∈ ks, cmp a k2 = 0) ↔ (∃ k2 ∈ ks, cmp k k2 = 0) := by
        constructor
        · rintro ⟨x, hx, h1⟩
          exact ⟨x, hx, L.trans _ _ _ (L.symm _ _ hc) h1⟩
        · rintro ⟨x, hx, h1⟩
          exact ⟨x, hx, L.trans _ _ _ hc h1⟩
      have h1 : (ks ++ [k]).any (fun k2 => cmp a k2 == 0) = true := by
        rw [hany]; exact ⟨k, by simp, hc⟩
      have h2 : ∃ k2 ∈ a :: ks, cmp k k2 = 0 := ⟨a, by simp, L.symm _ _ hc⟩
      rw [List.cons_append, distinct_count, if_pos h1, ih, if_pos h2, distinct_count]
      by_cases hA : ∃ k2 ∈ ks, cmp a k2 = 0
      · rw [if_pos ((hany ks).mpr hA), if_pos (hAB.mp hA)]
      · rw [if_neg (fun h => hA ((hany ks).mp h)), if_neg (fun h => hA (hAB.mpr h))]
    · have hc2 : cmp k a ≠ 0 := fun h => hc (L.symm _ _ h)
      have h1 : ((ks ++ [k]).any (fun k2 => cmp a k2 == 0) = true) ↔
          ∃ k2 ∈ ks, cmp a k2 = 0 := by
        rw [hany]
        constructor
        · rintro ⟨x, hx, hx2⟩
          rcases List.mem_append.mp hx with hx | hx
          · exact ⟨x, hx, hx2⟩
          · simp only [List.mem_singleton] at hx; subst hx; exact absurd hx2 hc
        · rintro ⟨x, hx, hx2⟩
          exact ⟨x, List.mem_append_left _ hx, hx2⟩
      have h2 : (∃ k2 ∈ a :: ks, cmp k k2 = 0) ↔ ∃ k2 ∈ ks, cmp k k2 = 0 := by
        constructor
        · rintro ⟨x, hx, hx2⟩
          rcases List.mem_cons.mp hx with rfl | hx
          · exact absurd hx2 hc2
          · exact ⟨x, hx, hx2⟩
        · rintro ⟨x, hx, hx2⟩
          exact ⟨x, List.mem_cons_of_mem _ hx, hx2⟩
      rw [List.cons_append, distinct_count, distinct_count, ih]
      by_cases hA : ∃ k2 ∈ ks, cmp a k2 = 0
      · rw [if_pos (h1.mpr hA), if_pos ((hany ks).mpr hA)]
        by_cases hB : ∃ k2 ∈ ks, cmp k k2 = 0
        · rw [if_pos hB, if_pos (h2.mpr hB)]
        · rw [if_neg hB, if_neg (fun h => hB (h2.mp h))]
      · rw [if_neg (fun h => hA (h1.mp h)), if_neg (fun h => hA ((hany ks).mp h))]
        by_cases hB : ∃ k2 ∈ ks, cmp k k2 = 0
        · rw [if_pos hB, if_pos (h2.mpr hB)]
        · rw [if_neg hB, if_neg (fun h => hB (h2.mp h))]

theorem last_value_snoc (cmp : Ptr → Ptr → Int) (k : Ptr) (ps : List (Ptr × Ptr))
    (p : Ptr × Ptr) :
    last_value cmp k (ps ++ [p]) =
      if cmp k p.1 = 0 then some p.2 else last_value cmp k ps := by
  induction ps with
  | nil => simp [last_value]
  | cons q ps ih =>
    rw [List.cons_append, last_value, ih]
    by_cases hc : cmp k p.1 = 0
    · simp [hc]
    · simp only [hc, if_false]
      rfl

theorem run_puts_inv (t0 : HASHMAP) (L : KeyLaws t0.hash t0.cmp) (hw0 : WellFormed t0)
    (hl0 : live t0 = []) (ps : List (Ptr × Ptr)) :
    WellFormed (run_puts t0 ps) ∧
    (run_puts t0 ps).hash = t0.hash ∧
    (run_puts t0 ps).cmp = t0.cmp ∧
    (run_puts t0 ps).cur = (distinct_count t0.cmp (ps.map Prod.fst) : Int) ∧
    (∀ k, present (run_puts t0 ps) k ↔ ∃ p ∈ ps, t0.cmp k p.1 = 0) ∧
    (∀ k, present (run_puts t0 ps) k →
      some (hashmap_get (run_puts t0 ps) k) = last_value t0.cmp k ps) := by
  induction ps using List.reverseRecOn with
  | nil =>
    refine ⟨hw0, rfl, rfl, ?_, ?_, ?_⟩
    · have := hw0.1.2.2
      rw [hl0] at this
      simpa [run_puts, distinct_count] using this
    · intro k
      simp [present, run_puts, hl0]
    · intro k hk
      simp [present, run_puts, hl0] at hk
  | append_singleton ps p ih =>
    obtain ⟨hw, hh, hc, hcur, hpres, hget⟩ := ih
    rw [run_puts_snoc]
    generalize run_puts t0 ps = t at hw hh hc hcur hpres hget
    have Lt : KeyLaws t.hash t.cmp := by rw [hh, hc]; exact L
    obtain ⟨p1, p2, p3, _, _, _, p7, p8⟩ := put_spec t Lt hw p.1 p.2
    have hpi := fun k => put_present_iff t Lt hw p.1 p.2 k
    refine ⟨p1, by rw [p2, hh], by rw [p3, hc], ?_, ?_, ?_⟩
    · rw [List.map_append, List.map_singleton, distinct_count_snoc t0.hash t0.cmp L]
      have hiff : (∃ k2 ∈ ps.map Prod.fst, t0.cmp p.1 k2 = 0) ↔ present t p.1 := by
        rw [hpres]
        simp only [List.mem_map, exists_exists_and_eq_and]
      by_cases hp : present t p.1
      · rw [(p7 hp).2.1, hcur, if_pos (hiff.mpr hp)]; simp
      · rw [(p8 hp).2, hcur, if_neg (fun h => hp (hiff.mp h))]; simp
    · intro k
      rw [hpi, hpres, hc]
      constructor
      · rintro (⟨q, hq, hq2⟩ | h1)
        · exact ⟨q, List.mem_append_left _ hq, hq2⟩
        · exact ⟨p, by simp, h1⟩
      · rintro ⟨q, hq, hq2⟩
        rcases List.mem_append.mp hq with hq | hq
        · exact Or.inl ⟨q, hq, hq2⟩
        · simp only [List.mem_singleton] at hq
          subst hq
          exact Or.inr hq2
    · intro k hk
      rw [last_value_snoc]
      by_cases hkp : t0.cmp k p.1 = 0
      · rw [if_pos hkp, put_get_same t Lt hw p.1 p.2 k (by rw [hc]; exact hkp)]
      · rw [if_neg hkp, put_get_other t Lt hw p.1 p.2 k (by rw [hc]; exact hkp)]
        refine hget k ?_
        rcases (hpi k).mp hk with h1 | h1
        · exact h1
        · rw [hc] at h1; exact absurd h1 hkp

theorem run_puts_get_absent (t0 : HASHMAP) (L : KeyLaws t0.hash t0.cmp) (hw0 : WellFormed t0)
    (hl0 : live t0 = []) (ps : List (Ptr × Ptr)) (k : Ptr)
    (ha : ¬ ∃ p ∈ ps, t0.cmp k p.1 = 0) : hashmap_get (run_puts t0 ps) k = NULL := by
  obtain ⟨_, hh, hc, _, hpres, _⟩ := run_puts_inv t0 L hw0 hl0 ps
  refine get_of_absent _ (by rw [hh, hc]; exact L) k ?_
  rw [hpres]
  exact ha

/-! ## The copying variants -/

theorem present_congr (h : HASHMAP) (L : KeyLaws h.hash h.cmp) (k k2 : Ptr)
    (hc : h.cmp k k2 = 0) : present h k2 ↔ present h k := by
  constructor
  · rintro ⟨e, he, h1⟩
    exact ⟨e, he, L.trans _ _ _ hc h1⟩
  · rintro ⟨e, he, h1⟩
    exact ⟨e, he, L.trans _ _ _ (L.symm _ _ hc) h1⟩

theorem put_dups_content (m : MEMORY) (order : ARG_ORDER) (k : Ptr) (keysize : Nat) (v : Ptr)
    (valuesize : Nat) (hv : v ≠ NULL) (hb : v < m.brk) :
    (put_dups m order k keysize v valuesize).1.content
        (put_dups m order k keysize v valuesize).2.2 =
      (m.content v).take valuesize := by
  have h1 : v ≠ m.brk := Nat.ne_of_lt hb
  cases order with
  | key_first =>
    unfold put_dups
    simp only [if_pos hv, xmemdup]
    simp [h1]
  | value_first =>
    unfold put_dups
    simp only [if_pos hv, xmemdup]
    simp

theorem put_dups_null (m : MEMORY) (order : ARG_ORDER) (k : Ptr) (keysize : Nat)
    (valuesize : Nat) : (put_dups m order k keysize NULL valuesize).2.2 = NULL := by
  cases order <;> simp [put_dups]

/-! ## The invariants of every reachable table -/

theorem put_new_placed (h : HASHMAP) (hs : wf_shape h) (hp : wf_placed h) (k v : Ptr)
    (t : HASHMAP)
    (ht : t = push_node h (h.hash k % UINT_RANGE % h.max.toNat)
        { key := k, value := v, hash := h.hash k % UINT_RANGE } ∨
      ∃ nm, 0 < nm ∧ t = hashmap_rehash (push_node h (h.hash k % UINT_RANGE % h.max.toNat)
        { key := k, value := v, hash := h.hash k % UINT_RANGE }) nm) :
    wf_shape t ∧ wf_placed t ∧
    (live t).Perm ({ key := k, value := v, hash := h.hash k % UINT_RANGE } :: live h) ∧
    t.hash = h.hash ∧ t.cmp = h.cmp := by
  obtain ⟨n1, n2, hperm⟩ := push_node_placed h hs hp k v
  rcases ht with rfl | ⟨nm, hnm, rfl⟩
  · exact ⟨n1, n2, hperm, rfl, rfl⟩
  · obtain ⟨r1, r2, r3, r4, r5, _⟩ := rehash_placed (push_node h _ _) nm hnm n1
    have hrc := map_recache_of_placed _ _ _ n2
    unfold live at r3 hrc
    rw [hrc] at r3
    exact ⟨r1, r2, r3.trans hperm, r4, r5⟩

theorem put_new_cases (h : HASHMAP) (hs : wf_shape h) (k v : Ptr)
    (hf : hashmap_find_entry h k (h.hash k % UINT_RANGE)
      (h.hash k % UINT_RANGE % h.max.toNat) = none) :
    (hashmap_put_noalloc h k v).1 = push_node h (h.hash k % UINT_RANGE % h.max.toNat)
        { key := k, value := v, hash := h.hash k % UINT_RANGE } ∨
      ∃ nm, 0 < nm ∧ (hashmap_put_noalloc h k v).1 =
        hashmap_rehash (push_node h (h.hash k % UINT_RANGE % h.max.toNat)
          { key := k, value := v, hash := h.hash k % UINT_RANGE }) nm := by
  rw [put_eq_new h k v hf]
  have hmax := hs.1
  split_ifs with h1 h2 h3
  · exact Or.inr ⟨_, by omega, rfl⟩
  · exact Or.inr ⟨_, by nlinarith, rfl⟩
  · exact Or.inl rfl
  · exact Or.inl rfl

theorem put_placed (h : HASHMAP) (hs : wf_shape h) (hp : wf_placed h) (k v : Ptr) :
    wf_shape (hashmap_put_noalloc h k v).1 ∧ wf_placed (hashmap_put_noalloc h k v).1 ∧
    (hashmap_put_noalloc h k v).1.hash = h.hash ∧
    (hashmap_put_noalloc h k v).1.cmp = h.cmp := by
  cases hf : hashmap_find_entry h k (h.hash k % UINT_RANGE)
      (h.hash k % UINT_RANGE % h.max.toNat) with
  | some i =>
    obtain ⟨pre, e, post, _, _, _, _, heq, n1, n2⟩ := put_found_placed h hs hp k v i hf
    refine ⟨n1, n2, ?_, ?_⟩ <;> rw [heq]
  | none =>
    obtain ⟨n1, n2, _, n4, n5⟩ :=
      put_new_placed h hs hp k v _ (put_new_cases h hs k v hf)
    exact ⟨n1, n2, n4, n5⟩

theorem reachable_placed (h : HASHMAP) (hr : Reachable h) : wf_shape h ∧ wf_placed h := by
  induction hr with
  | create max off hash cmp hm =>
    have := (create_wf max off hash cmp hm).1
    exact ⟨this.1, this.2.1⟩
  | put_noalloc h key value _ ih =>
    obtain ⟨p1, p2, _⟩ := put_placed h ih.1 ih.2 key value
    exact ⟨p1, p2⟩
  | put m order h key keysize value valuesize _ ih =>
    obtain ⟨p1, p2, _⟩ := put_placed h ih.1 ih.2 (put_dups m order key keysize value valuesize).2.1
      (put_dups m order key keysize value valuesize).2.2
    exact ⟨p1, p2⟩
  | put_ident m h key keysize _ ih =>
    obtain ⟨p1, p2, _⟩ := put_placed h ih.1 ih.2 (xmemdup m key keysize).2
      (xmemdup m key keysize).2
    exact ⟨p1, p2⟩
  | put_ident_noalloc h key _ ih =>
    obtain ⟨p1, p2, _⟩ := put_placed h ih.1 ih.2 key key
    exact ⟨p1, p2⟩
  | remove h t key _ heq ih =>
    obtain ⟨p1, p2, _⟩ := remove_placed h ih.1 ih.2 key 1
    have ht : hashmap_remove_entry h key 1 = t := by
      simpa [hashmap_remove] using heq
    rw [← ht]
    exact ⟨p1, p2⟩
  | remove_nofree h t key _ heq ih =>
    obtain ⟨p1, p2, _⟩ := remove_placed h ih.1 ih.2 key 0
    have ht : hashmap_remove_entry h key 0 = t := by
      simpa [hashmap_remove_nofree] using heq
    rw [← ht]
    exact ⟨p1, p2⟩
  | clear h t _ heq ih =>
    rw [clear_spec h ih.1] at heq
    have ht := Option.some.inj heq
    rw [← ht]
    have := (cleared_wf h ih.1 ((live h).foldl clear_free h.freed)).1
    exact ⟨this.1, this.2.1⟩
  | sethashfunc h t hash _ heq ih =>
    have ht : hashmap_rehash { h with hash := hash } h.max = t := by
      simpa [hashmap_sethashfunc] using heq
    obtain ⟨r1, r2, _⟩ := rehash_placed { h with hash := hash } h.max ih.1.1 ih.1
    rw [← ht]
    exact ⟨r1, r2⟩
  | setcmpfunc h t cmp _ heq ih =>
    have ht : { h with cmp := cmp } = t := by
      simpa [hashmap_setcmpfunc] using heq
    rw [← ht]
    exact ⟨ih.1, ih.2⟩
  | setloadfactor h t factor _ heq ih =>
    have ht : { h with factor := factor, threshold := float_scale h.max factor } = t := by
      simpa [hashmap_setloadfactor] using heq
    rw [← ht]
    exact ⟨ih.1, ih.2⟩

theorem lawful_reachable_general (cmp : Ptr → Ptr → Int) (h : HASHMAP)
    (hr : LawfulReachable cmp h) : Reachable h := by
  induction hr with
  | create max off hash hm _ => exact Reachable.create max off hash cmp hm
  | put_noalloc h key value _ ih => exact Reachable.put_noalloc h key value ih
  | put m order h key keysize value valuesize _ ih =>
    exact Reachable.put m order h key keysize value valuesize ih
  | put_ident m h key keysize _ ih => exact Reachable.put_ident m h key keysize ih
  | put_ident_noalloc h key _ ih => exact Reachable.put_ident_noalloc h key ih
  | remove h t key _ heq ih => exact Reachable.remove h t key ih heq
  | remove_nofree h t key _ heq ih => exact Reachable.remove_nofree h t key ih heq
  | clear h t _ heq ih => exact Reachable.clear h t ih heq
  | sethashfunc h t hash _ _ heq ih => exact Reachable.sethashfunc h t hash ih heq
  | setloadfactor h t factor _ heq ih => exact Reachable.setloadfactor h t factor ih heq

theorem find_entry_loop_at (cmp : Ptr → Ptr → Int) (key : Ptr) (hv : Nat)
    (pre : List ENTRY) (e : ENTRY) (post : List ENTRY)
    (hpre : ∀ x ∈ pre, entry_matches cmp key hv x = false)
    (he : entry_matches cmp key hv e = true) :
    find_entry_loop cmp key hv (pre ++ e :: post) = some pre.length := by
  induction pre with
  | nil => simp [find_entry_loop, he]
  | cons a pre ih =>
    have ha : entry_matches cmp key hv a = false := hpre a (List.mem_cons_self _ _)
    rw [List.cons_append, find_entry_loop, ha,
      ih (fun x hx => hpre x (List.mem_cons_of_mem _ hx))]
    simp

theorem get_of_mem_weak (h : HASHMAP) (L : KeyLaws h.hash h.cmp) (hp : wf_placed h)
    (k : Ptr) (e : ENTRY) (he : e ∈ live h) (hc : h.cmp k e.key = 0)
    (hall : ∀ x ∈ live h, h.cmp k x.key = 0 → x.value = e.value) :
    hashmap_get h k = e.value := by
  rw [hashmap_get_eq]
  cases hf : hashmap_find_entry h k (h.hash k % UINT_RANGE)
      (h.hash k % UINT_RANGE % h.max.toNat) with
  | none => exact absurd ⟨e, he, hc⟩ (find_none_absent h L hp k hf)
  | some i =>
    obtain ⟨pre, e2, post, _, _, hat, hc2, _, hm2, _⟩ := find_some_spec h L k _ _ i hf
    simp only [hat]
    exact hall e2 hm2 hc2

theorem put_get_weak (h : HASHMAP) (L : KeyLaws h.hash h.cmp) (hs : wf_shape h)
    (hp : wf_placed h) (k v k2 : Ptr) (hc : h.cmp k2 k = 0) :
    hashmap_get (hashmap_put_noalloc h k v).1 k2 = v := by
  have hh : h.hash k2 % UINT_RANGE = h.hash k % UINT_RANGE := L.hash_eq _ _ hc
  cases hf : hashmap_find_entry h k (h.hash k % UINT_RANGE)
      (h.hash k % UINT_RANGE % h.max.toNat) with
  | some i =>
    obtain ⟨pre, e, post, hchain, hpos, hpre, hm, heq, _, _⟩ :=
      put_found_placed h hs hp k v i hf
    obtain ⟨hval, hhash, hkey⟩ := put_update_spec e k v h.freed
    rw [heq, hashmap_get_eq]
    have hm1 : h.hash k % UINT_RANGE = e.hash := by
      unfold entry_matches at hm
      simp only [Bool.and_eq_true, beq_iff_eq] at hm
      exact hm.1
    have hfind : hashmap_find_entry
        { h with
          entry := h.entry.set (h.hash k % UINT_RANGE % h.max.toNat)
            (pre ++ (put_update e k v h.freed).1 :: post)
          freed := (put_update e k v h.freed).2 } k2 (h.hash k2 % UINT_RANGE)
        (h.hash k2 % UINT_RANGE % h.max.toNat) = some pre.length := by
      unfold hashmap_find_entry
      show find_entry_loop h.cmp k2 (h.hash k2 % UINT_RANGE)
        ((h.entry.set _ _).getD (h.hash k2 % UINT_RANGE % h.max.toNat) []) = _
      rw [hh, getD_set_eq _ _ hpos]
      apply find_entry_loop_at
      · intro x hx
        have hx1 := hpre x hx
        by_contra hx2
        have hx3 : entry_matches h.cmp k2 (h.hash k % UINT_RANGE) x = true := by
          simpa using hx2
        obtain ⟨c1, c2⟩ := matches_imp_cmp h.hash h.cmp L k2 _ x hx3
        have : entry_matches h.cmp k (h.hash k % UINT_RANGE) x = true := by
          unfold entry_matches
          simp only [Bool.and_eq_true, beq_iff_eq, Bool.or_eq_true]
          exact ⟨c2, Or.inr (L.trans _ _ _ (L.symm _ _ hc) c1)⟩
        rw [hx1] at this
        exact Bool.noConfusion this
      · unfold entry_matches
        simp only [Bool.and_eq_true, beq_iff_eq, Bool.or_eq_true]
        exact ⟨by rw [hhash, hm1], Or.inr (by rw [hkey]; exact hc)⟩
    show (match hashmap_find_entry
        { h with
          entry := h.entry.set (h.hash k % UINT_RANGE % h.max.toNat)
            (pre ++ (put_update e k v h.freed).1 :: post)
          freed := (put_update e k v h.freed).2 } k2 (h.hash k2 % UINT_RANGE)
        (h.hash k2 % UINT_RANGE % h.max.toNat) with
      | some i => (entry_at _ (h.hash k2 % UINT_RANGE % h.max.toNat) i).value
      | none => NULL) = v
    rw [hfind]
    show ((List.getD (h.entry.set _ _) (h.hash k2 % UINT_RANGE % h.max.toNat) []).getD
      pre.length default).value = v
    rw [hh, getD_set_eq _ _ hpos, getD_append_length, hval]
  | none =>
    have ha := find_none_absent h L hp k hf
    obtain ⟨_, n2, n3, n4, n5⟩ :=
      put_new_placed h hs hp k v _ (put_new_cases h hs k v hf)
    have Lt : KeyLaws (hashmap_put_noalloc h k v).1.hash (hashmap_put_noalloc h k v).1.cmp := by
      rw [n4, n5]; exact L
    have hg := get_of_mem_weak (hashmap_put_noalloc h k v).1 Lt n2 k2
      { key := k, value := v, hash := h.hash k % UINT_RANGE }
      (n3.mem_iff.mpr (List.mem_cons_self _ _)) (by rw [n5]; exact hc) (by
        intro x hx hcx
        rw [n5] at hcx
        rcases List.mem_cons.mp (n3.mem_iff.mp hx) with rfl | hx2
        · rfl
        · exact absurd ⟨x, hx2, L.trans _ _ _ (L.symm _ _ hc) hcx⟩ ha)
    exact hg

/-! ## Single-precision rounding -/

theorem bit_length_loop_le (fuel : Nat) :
    ∀ (n j : Nat), n < 2 ^ j → bit_length_loop fuel n ≤ j := by
  induction fuel with
  | zero => intro n j _; simp [bit_length_loop]
  | succ fuel ih =>
    intro n j hn
    unfold bit_length_loop
    by_cases h0 : n = 0
    · simp [h0]
    · rw [if_neg h0]
      cases j with
      | zero => simp at hn; exact absurd hn h0
      | succ j =>
        have : n / 2 < 2 ^ j := by
          rw [Nat.div_lt_iff_lt_mul (by norm_num)]
          rw [pow_succ] at hn
          exact hn
        have := ih (n / 2) j this
        omega

theorem bit_length_loop_ge (fuel : Nat) : ∀ (n : Nat), n ≤ fuel → n ≠ 0 →
    2 ^ (bit_length_loop fuel n - 1) ≤ n ∧ 1 ≤ bit_length_loop fuel n := by
  induction fuel with
  | zero => intro n h1 h2; omega
  | succ fuel ih =>
    intro n hn h0
    unfold bit_length_loop
    rw [if_neg h0]
    refine ⟨?_, by omega⟩
    by_cases h1 : n / 2 = 0
    · have : bit_length_loop fuel (n / 2) = 0 := by
        rw [h1]
        cases fuel <;> simp [bit_length_loop]
      rw [this]
      simp
      omega
    · obtain ⟨a1, a2⟩ := ih (n / 2) (by omega) h1
      have e : bit_length_loop fuel (n / 2) + 1 - 1 =
          (bit_length_loop fuel (n / 2) - 1) + 1 := by
        omega
      rw [e, pow_succ]
      omega

theorem round_single_exact (a : Nat) (ha : a < 2 ^ 24) : round_single a = a := by
  have hb : bit_length a ≤ 24 := bit_length_loop_le a a 24 ha
  unfold round_single FLT_MANT_DIG
  have hs : bit_length a - 24 = 0 := by omega
  simp [hs, Nat.mod_one]

theorem round_single_le (a : Nat) : round_single a ≤ a + a / 2 ^ 23 := by
  by_cases h0 : a = 0
  · subst h0
    rw [round_single_exact 0 (by norm_num)]
    simp
  obtain ⟨h1, h2⟩ := bit_length_loop_ge a a (le_refl a) h0
  by_cases hb : bit_length a ≤ 24
  · have hs : bit_length a - 24 = 0 := by omega
    unfold round_single FLT_MANT_DIG
    simp [hs, Nat.mod_one]
  · have hpow : 2 ^ (bit_length a - 1) = 2 ^ (bit_length a - 24) * 2 ^ 23 := by
      rw [← pow_add]
      congr 1
      omega
    have h3 : 2 ^ (bit_length a - 24) ≤ a / 2 ^ 23 := by
      rw [Nat.le_div_iff_mul_le (by positivity)]
      unfold bit_length at hpow ⊢
      rw [← hpow]
      exact h1
    have hdm := Nat.div_add_mod a (2 ^ (bit_length a - 24))
    have hq : a / 2 ^ (bit_length a - 24) * 2 ^ (bit_length a - 24) ≤ a :=
      Nat.div_mul_le_self _ _
    unfold round_single FLT_MANT_DIG
    simp only
    split_ifs
    · rw [Nat.add_mul, one_mul]
      omega
    · omega

theorem float_scale_exact (n : Int) (f : FLOAT) (hp : (n * f.num).natAbs < 2 ^ 24) :
    float_scale n f = Int.tdiv (n * f.num) (2 ^ f.exp) := by
  unfold float_scale float_to_int float_mul float_of_int float_round
  simp only [zero_add]
  by_cases hf : f.num = 0
  · simp [hf, round_single_exact 0 (by norm_num)]
  · have hn : n.natAbs < 2 ^ 24 := by
      have h1 : (n * f.num).natAbs = n.natAbs * f.num.natAbs := Int.natAbs_mul _ _
      have h2 : 1 ≤ f.num.natAbs := Int.natAbs_pos.mpr hf
      calc n.natAbs = n.natAbs * 1 := (mul_one _).symm
        _ ≤ n.natAbs * f.num.natAbs := Nat.mul_le_mul_left _ h2
        _ = (n * f.num).natAbs := h1.symm
        _ < 2 ^ 24 := hp
    have e1 : (if n < 0 then -(round_single n.natAbs : Int)
        else (round_single n.natAbs : Int)) = n := by
      rw [round_single_exact _ hn]
      split_ifs with h
      · omega
      · omega
    rw [e1, round_single_exact _ hp]
    congr 1
    split_ifs with h
    · omega
    · omega

theorem float_scale_default_range (n : Int) (h0 : 0 < n) (h1 : n ≤ INT_MAX) :
    int_range (float_scale n FACTOR_DEFAULT) := by
  unfold float_scale float_to_int float_mul float_of_int float_round FACTOR_DEFAULT
  simp only [zero_add]
  have hn : ¬ n < 0 := by omega
  rw [if_neg hn]
  have hm : ¬ ((round_single n.natAbs : Int) * 3 < 0) := by
    have : (0 : Int) ≤ (round_single n.natAbs : Int) := Int.ofNat_nonneg _
    omega
  rw [if_neg hm]
  have b1 := round_single_le n.natAbs
  have b2 := round_single_le ((round_single n.natAbs : Int) * 3).natAbs
  have e : ((round_single n.natAbs : Int) * 3).natAbs = round_single n.natAbs * 3 := by
    omega
  rw [e] at b2 ⊢
  have hna : (n.natAbs : Int) = n := by omega
  unfold INT_MAX at h1
  have hnn : n.natAbs ≤ 2147483647 := by omega
  norm_num at b1 b2
  have hnonneg : (0 : Int) ≤ (round_single (round_single n.natAbs * 3) : Int) :=
    Int.ofNat_nonneg _
  rw [Int.tdiv_eq_ediv hnonneg (by norm_num)]
  unfold int_range INT_MIN INT_MAX
  norm_num
  omega

/-! ## Reads and releases of a call -/

theorem find_entry_reads_mem (cmp : Ptr → Ptr → Int) (key : Ptr) (hv : Nat) :
    ∀ (c : List ENTRY) (p : Ptr), p ∈ find_entry_reads cmp key hv c → ∃ e ∈ c, e.key = p := by
  intro c
  induction c with
  | nil => intro p hp; simp [find_entry_reads] at hp
  | cons a c ih =>
    intro p hp
    unfold find_entry_reads at hp
    rcases List.mem_append.mp hp with h1 | h1
    · split_ifs at h1 with hc
      · simp only [List.mem_singleton] at h1
        exact ⟨a, List.mem_cons_self _ _, h1.symm⟩
      · simp at h1
    · split_ifs at h1 with hc
      · simp at h1
      · obtain ⟨e, he, hk⟩ := ih p h1
        exact ⟨e, List.mem_cons_of_mem _ he, hk⟩

theorem key_live (h : HASHMAP) (hd : no_dangling h) (e : ENTRY) (he : e ∈ live h) :
    e.key ∉ h.freed ∧ e.value ∉ h.freed :=
  ⟨fun hf => hd e.key hf ⟨e, he, Or.inl rfl⟩, fun hf => hd e.value hf ⟨e, he, Or.inr rfl⟩⟩

theorem lookup_reads_live (h : HASHMAP) (k : Ptr) (hd : no_dangling h) (hk : k ∉ h.freed) :
    all_live h.freed (lookup_reads h k) := by
  intro p hp
  unfold lookup_reads at hp
  rcases List.mem_cons.mp hp with rfl | hp
  · exact hk
  · obtain ⟨e, he, rfl⟩ := find_entry_reads_mem _ _ _ _ p hp
    exact (key_live h hd e (mem_flatten_of_bucket _ _ e he)).1

theorem get_checked_eq (h : HASHMAP) (k : Ptr) (hm : 0 < h.max) (hd : no_dangling h)
    (hk : k ∉ h.freed) : hashmap_get_checked h k = some (hashmap_get h k) := by
  unfold hashmap_get_checked
  rw [if_pos ⟨hm, lookup_reads_live h k hd hk⟩]

theorem rehash_freed (h : HASHMAP) (nm : Int) : (hashmap_rehash h nm).freed = h.freed := by
  unfold hashmap_rehash
  split_ifs <;> rfl

theorem put_update_log (e : ENTRY) (k v : Ptr) (log : List Ptr) :
    ∃ rel, (put_update e k v log).2 = log ++ rel ∧
      ∀ p ∈ rel, p ≠ NULL ∧ (p = e.key ∨ p = e.value) := by
  have hx : ∀ (l : List Ptr) (q : Ptr), ∃ r, xfree l q = l ++ r ∧ ∀ p ∈ r, p ≠ NULL ∧ p = q := by
    intro l q
    unfold xfree
    by_cases hq : q = NULL
    · exact ⟨[], by simp [hq], by simp⟩
    · refine ⟨[q], by simp [hq], ?_⟩
      intro p hp
      simp only [List.mem_singleton] at hp
      subst hp
      exact ⟨hq, rfl⟩
  unfold put_update
  by_cases h1 : e.key = e.value
  · rw [if_pos h1]
    by_cases h2 : e.key ≠ k ∨ e.value ≠ v
    · rw [if_pos h2]
      obtain ⟨r, hr, hp⟩ := hx log e.key
      exact ⟨r, hr, fun p hpr => ⟨(hp p hpr).1, Or.inl (hp p hpr).2⟩⟩
    · rw [if_neg h2]
      exact ⟨[], by simp, by simp⟩
  · rw [if_neg h1]
    by_cases h2 : e.key ≠ k
    · obtain ⟨r1, hr1, hp1⟩ := hx log e.key
      by_cases h3 : e.value ≠ v
      · obtain ⟨r2, hr2, hp2⟩ := hx (log ++ r1) e.value
        refine ⟨r1 ++ r2, ?_, ?_⟩
        · simp only [if_pos h2, if_pos h3, hr1, hr2, List.append_assoc]
        · intro p hp
          rcases List.mem_append.mp hp with hp | hp
          · exact ⟨(hp1 p hp).1, Or.inl (hp1 p hp).2⟩
          · exact ⟨(hp2 p hp).1, Or.inr (hp2 p hp).2⟩
      · refine ⟨r1, ?_, fun p hp => ⟨(hp1 p hp).1, Or.inl (hp1 p hp).2⟩⟩
        simp only [if_pos h2, if_neg h3, hr1]
    · by_cases h3 : e.value ≠ v
      · obtain ⟨r2, hr2, hp2⟩ := hx log e.value
        refine ⟨r2, ?_, fun p hp => ⟨(hp2 p hp).1, Or.inr (hp2 p hp).2⟩⟩
        simp only [if_neg h2, if_pos h3, hr2]
      · exact ⟨[], by simp only [if_neg h2, if_neg h3, List.append_nil], by simp⟩

theorem put_freed (h : HASHMAP) (k v : Ptr) :
    ∃ rel, (hashmap_put_noalloc h k v).1.freed = h.freed ++ rel ∧
      ∀ p ∈ rel, p ≠ NULL ∧ ∃ e ∈ live h,
        entry_matches h.cmp k (h.hash k % UINT_RANGE) e = true ∧ (e.key = p ∨ e.value = p) := by
  cases hf : hashmap_find_entry h k (h.hash k % UINT_RANGE)
      (h.hash k % UINT_RANGE % h.max.toNat) with
  | some i =>
    obtain ⟨pre, e, post, _, _, hat, hm, _, hmem, _⟩ := find_some_decomp h k _ _ i hf
    rw [put_eq_found h k v i hf, hat]
    obtain ⟨rel, hr, hp⟩ := put_update_log e k v h.freed
    refine ⟨rel, hr, ?_⟩
    intro p hpr
    refine ⟨(hp p hpr).1, e, hmem, hm, ?_⟩
    rcases (hp p hpr).2 with h1 | h1
    · exact Or.inl h1.symm
    · exact Or.inr h1.symm
  | none =>
    refine ⟨[], ?_, by simp⟩
    rw [put_eq_new h k v hf, List.append_nil]
    split_ifs
    · exact rehash_freed _ _
    · exact rehash_freed _ _
    · rfl
    · rfl

theorem released_between_eq (h t : HASHMAP) (rel : List Ptr) (ht : t.freed = h.freed ++ rel) :
    released_between h t = rel := by
  unfold released_between
  rw [ht]
  simp

theorem put_checked_eq (h : HASHMAP) (k v : Ptr) (hc : put_contract h k) :
    hashmap_put_noalloc_checked h k v = some (hashmap_put_noalloc h k v) := by
  obtain ⟨hr, hd, hk⟩ := hc
  unfold hashmap_put_noalloc_checked
  rw [if_pos]
  refine ⟨hr, ?_, ?_⟩
  · intro p hp
    unfold put_reads at hp
    rcases List.mem_append.mp hp with hp | hp
    · exact lookup_reads_live h k hd hk p hp
    · split_ifs at hp
      · obtain ⟨e, he, rfl⟩ := List.mem_map.mp hp
        exact (key_live h hd e he).1
      · simp at hp
  · obtain ⟨rel, hrel, hp⟩ := put_freed h k v
    rw [released_between_eq h _ rel hrel]
    intro p hpr
    obtain ⟨_, e, he, _, h1 | h1⟩ := hp p hpr
    · rw [← h1]; exact (key_live h hd e he).1
    · rw [← h1]; exact (key_live h hd e he).2

theorem put_key_referenced (h : HASHMAP) (hs : wf_shape h) (hp : wf_placed h) (k v : Ptr) :
    ∃ e ∈ live (hashmap_put_noalloc h k v).1, e.key = k ∧ e.value = v := by
  cases hf : hashmap_find_entry h k (h.hash k % UINT_RANGE)
      (h.hash k % UINT_RANGE % h.max.toNat) with
  | some i =>
    obtain ⟨pre, e, post, _, hpos, _, _, heq, _, _⟩ := put_found_placed h hs hp k v i hf
    obtain ⟨hval, _, hkey⟩ := put_update_spec e k v h.freed
    refine ⟨(put_update e k v h.freed).1, ?_, hkey, hval⟩
    rw [heq]
    apply mem_flatten_of_bucket _ (h.hash k % UINT_RANGE % h.max.toNat)
    show _ ∈ (h.entry.set _ _).getD _ []
    rw [getD_set_eq _ _ hpos]
    simp
  | none =>
    obtain ⟨_, _, n3, _, _⟩ := put_new_placed h hs hp k v _ (put_new_cases h hs k v hf)
    exact ⟨_, n3.mem_iff.mpr (List.mem_cons_self _ _), rfl, rfl⟩

theorem put_freed_sub (h : HASHMAP) (k v : Ptr) (p : Ptr) (hp : p ∈ h.freed) :
    p ∈ (hashmap_put_noalloc h k v).1.freed := by
  obtain ⟨rel, hrel, _⟩ := put_freed h k v
  rw [hrel]
  exact List.mem_append_left _ hp

theorem put_copy_checked_eq (m : MEMORY) (order : ARG_ORDER) (h : HASHMAP) (k : Ptr)
    (keysize : Nat) (v : Ptr) (valuesize : Nat) (hk : k ∉ h.freed)
    (hv : v ≠ NULL → v ∉ h.freed)
    (hc : put_contract h (put_dups m order k keysize v valuesize).2.1) :
    hashmap_put_checked m order h k keysize v valuesize =
      some (hashmap_put m order h k keysize v valuesize) := by
  have hl : all_live h.freed (k :: (if v ≠ NULL then [v] else [])) := by
    intro p hp
    rcases List.mem_cons.mp hp with rfl | hp
    · exact hk
    · split_ifs at hp with hn
      · simp only [List.mem_singleton] at hp
        subst hp
        exact hv hn
      · simp at hp
  unfold hashmap_put_checked hashmap_put
  simp only [if_pos hl, put_checked_eq h _ _ hc, Option.map_some']

theorem put_ident_checked_eq (m : MEMORY) (h : HASHMAP) (k : Ptr) (keysize : Nat)
    (hk : k ∉ h.freed) (hc : put_contract h (xmemdup m k keysize).2) :
    hashmap_put_ident_checked m h k keysize = some (hashmap_put_ident m h k keysize) := by
  have hl : all_live h.freed [k] := by
    intro p hp
    simp only [List.mem_singleton] at hp
    subst hp
    exact hk
  unfold hashmap_put_ident_checked hashmap_put_ident
  simp only [if_pos hl, put_checked_eq h _ _ hc, Option.map_some']

theorem rehash_max (h : HASHMAP) (nm : Int) (hc : h.cur ≠ 0) :
    (hashmap_rehash h nm).max = nm := by
  unfold hashmap_rehash
  rw [if_pos hc]

/-! ## Sequences of insertions as runs of the C program -/

theorem mem_pair_blocks (k v p : Ptr) : p ∈ pair_blocks (k, v) ↔ (p = k ∨ p = v) ∧ p ≠ NULL := by
  unfold pair_blocks
  by_cases h : k = v
  · subst h
    simp
  · simp [h]

theorem put_entry_of_key (h : HASHMAP) (L : KeyLaws h.hash h.cmp) (hw : WellFormed h)
    (k v : Ptr) :
    ∃ e2, e2.key = k ∧ e2.value = v ∧
      ∀ x, x ∈ live (hashmap_put_noalloc h k v).1 ↔
        (x = e2 ∨ (x ∈ live h ∧ h.cmp k x.key ≠ 0)) := by
  obtain ⟨_, _, _, _, _, ⟨e, _, _, hmem⟩, _, _⟩ := put_spec h L hw k v
  obtain ⟨e2, he2, hk, hv⟩ := put_key_referenced h hw.1 hw.2.1 k v
  rcases (hmem e2).mp he2 with rfl | ⟨_, hne⟩
  · exact ⟨e2, hk, hv, hmem⟩
  · rw [hk] at hne
    exact absurd (L.refl k) hne

theorem put_owns_within (h : HASHMAP) (L : KeyLaws h.hash h.cmp) (hw : WellFormed h)
    (handed : List Ptr) (ho : owns_within h handed) (k v : Ptr)
    (hk : k ≠ NULL → k ∉ handed) (hv : v ≠ NULL → v ∉ handed) :
    owns_within (hashmap_put_noalloc h k v).1 (handed ++ pair_blocks (k, v)) := by
  obtain ⟨i1, i2, i3, i4⟩ := ho
  obtain ⟨e2, hkey, hval, hmem⟩ := put_entry_of_key h L hw k v
  obtain ⟨rel, hrel, hrp⟩ := put_freed h k v
  have hnew : ∀ p, (e2.key = p ∨ e2.value = p) → p ≠ NULL → p ∉ handed := by
    intro p hp hn
    rcases hp with h1 | h1
    · rw [hkey] at h1; subst h1; exact hk hn
    · rw [hval] at h1; subst h1; exact hv hn
  refine ⟨?_, ?_, ?_, ?_⟩
  · intro x hx p hp hn
    rcases (hmem x).mp hx with rfl | ⟨hx2, _⟩
    · apply List.mem_append_right
      rw [mem_pair_blocks]
      rw [hkey, hval] at hp
      exact ⟨by rcases hp with h1 | h1 <;> simp [h1], hn⟩
    · exact List.mem_append_left _ (i1 x hx2 p hp hn)
  · intro p hp
    rw [hrel] at hp
    rcases List.mem_append.mp hp with hp | hp
    · exact ⟨(i2 p hp).1, List.mem_append_left _ (i2 p hp).2⟩
    · obtain ⟨hn, e, he, _, href⟩ := hrp p hp
      exact ⟨hn, List.mem_append_left _ (i1 e he p href hn)⟩
  · intro p hp
    rw [hrel] at hp
    rintro ⟨x, hx, hxp⟩
    rcases List.mem_append.mp hp with hp | hp
    · rcases (hmem x).mp hx with rfl | ⟨hx2, _⟩
      · exact hnew p hxp (i2 p hp).1 (i2 p hp).2
      · exact i3 p hp ⟨x, hx2, hxp⟩
    · obtain ⟨hn, e, he, hm, href⟩ := hrp p hp
      rcases (hmem x).mp hx with rfl | ⟨hx2, hne⟩
      · exact hnew p hxp hn (i1 e he p href hn)
      · have hex : e ≠ x := by
          rintro rfl
          exact hne (matches_imp_cmp h.hash h.cmp L k _ e hm).1
        exact i4 e he x hx2 hex p hn href hxp
  · intro a ha b hb hab p hn hap hbp
    rcases (hmem a).mp ha with rfl | ⟨ha2, _⟩
    · rcases (hmem b).mp hb with rfl | ⟨hb2, _⟩
      · exact hab rfl
      · exact hnew p hap hn (i1 b hb2 p hbp hn)
    · rcases (hmem b).mp hb with rfl | ⟨hb2, _⟩
      · exact hnew p hbp hn (i1 a ha2 p hap hn)
      · exact i4 a ha2 b hb2 hab p hn hap hbp

theorem fresh_blocks_snoc (ps : List (Ptr × Ptr)) (p : Ptr × Ptr)
    (hf : fresh_blocks (ps ++ [p])) :
    fresh_blocks ps ∧ ∀ q ∈ pair_blocks p, q ∉ (ps.map pair_blocks).flatten := by
  unfold fresh_blocks at hf ⊢
  rw [List.map_append, List.flatten_append] at hf
  simp only [List.map_cons, List.map_nil, List.flatten_cons, List.flatten_nil,
    List.append_nil] at hf
  rw [List.nodup_append] at hf
  refine ⟨hf.1, ?_⟩
  intro q hq hq2
  exact hf.2.2 hq2 hq

theorem run_puts_owns (t0 : HASHMAP) (L : KeyLaws t0.hash t0.cmp) (hw0 : WellFormed t0)
    (hl0 : live t0 = []) (hf0 : t0.freed = []) (ps : List (Ptr × Ptr))
    (hf : fresh_blocks ps) :
    owns_within (run_puts t0 ps) (ps.map pair_blocks).flatten := by
  induction ps using List.reverseRecOn with
  | nil =>
    refine ⟨?_, ?_, ?_, ?_⟩
    · intro e he; simp [run_puts, hl0] at he
    · intro p hp; simp [run_puts, hf0] at hp
    · intro p hp; simp [run_puts, hf0] at hp
    · intro a ha; simp [run_puts, hl0] at ha
  | append_singleton ps p ih =>
    obtain ⟨hf1, hf2⟩ := fresh_blocks_snoc ps p hf
    obtain ⟨hw, hh, hc, _⟩ := run_puts_inv t0 L hw0 hl0 ps
    have Lt : KeyLaws (run_puts t0 ps).hash (run_puts t0 ps).cmp := by rw [hh, hc]; exact L
    rw [run_puts_snoc, List.map_append, List.flatten_append]
    simp only [List.map_cons, List.map_nil, List.flatten_cons, List.flatten_nil,
      List.append_nil]
    refine put_owns_within _ Lt hw _ (ih hf1) p.1 p.2 ?_ ?_
    · intro hn
      exact hf2 p.1 ((mem_pair_blocks p.1 p.2 p.1).mpr ⟨Or.inl rfl, hn⟩)
    · intro hn
      exact hf2 p.2 ((mem_pair_blocks p.1 p.2 p.2).mpr ⟨Or.inr rfl, hn⟩)

theorem put_factor (h : HASHMAP) (k v : Ptr) :
    (hashmap_put_noalloc h k v).1.factor = h.factor := by
  cases hf : hashmap_find_entry h k (h.hash k % UINT_RANGE)
      (h.hash k % UINT_RANGE % h.max.toNat) with
  | some i => rw [put_eq_found h k v i hf]
  | none =>
    have hr : ∀ (x : HASHMAP) (nm : Int), (hashmap_rehash x nm).factor = x.factor := by
      intro x nm
      unfold hashmap_rehash
      split_ifs <;> rfl
    rw [put_eq_new h k v hf]
    split_ifs
    · exact hr _ _
    · exact hr _ _
    · rfl
    · rfl

theorem run_puts_factor (t0 : HASHMAP) (ps : List (Ptr × Ptr)) :
    (run_puts t0 ps).factor = t0.factor := by
  induction ps using List.reverseRecOn with
  | nil => rfl
  | append_singleton ps p ih => rw [run_puts_snoc, put_factor, ih]

theorem put_in_range_of_bound (h : HASHMAP) (hs : wf_shape h) (k v : Ptr)
    (hcur : h.cur < INT_MAX) (hfac : h.factor = FACTOR_DEFAULT)
    (hmax : (hashmap_put_noalloc h k v).1.max ≤ INT_MAX) : put_in_range h k := by
  refine ⟨hs.1, ?_⟩
  intro hf
  have hc0 : 0 ≤ h.cur := by rw [hs.2.2]; exact Int.ofNat_nonneg _
  have hm0 := hs.1
  have hne : (push_node h (h.hash k % UINT_RANGE % h.max.toNat)
      { key := k, value := v, hash := h.hash k % UINT_RANGE }).cur ≠ 0 := by
    show h.cur + 1 ≠ 0
    omega
  rw [put_eq_new h k v hf] at hmax
  unfold INT_MAX at hcur
  refine ⟨⟨by unfold INT_MIN; omega, by unfold INT_MAX; omega⟩, ?_⟩
  intro hth
  rw [if_pos hth] at hmax
  constructor
  · intro ho
    rw [if_pos ho] at hmax
    have hmax2 : h.max + h.off ≤ INT_MAX := by
      have := rehash_max (push_node h (h.hash k % UINT_RANGE % h.max.toNat)
        { key := k, value := v, hash := h.hash k % UINT_RANGE }) (h.max + h.off) hne
      show h.max + h.off ≤ INT_MAX
      rw [← this]
      exact hmax
    refine ⟨⟨by unfold INT_MIN; omega, hmax2⟩, fun _ => ⟨by omega, ?_⟩⟩
    rw [hfac]
    exact float_scale_default_range _ (by omega) hmax2
  · intro ho
    have ho1 : ¬ h.off > 0 := by omega
    rw [if_neg ho1, if_pos ho] at hmax
    have hmax2 : h.max * -h.off ≤ INT_MAX := by
      have := rehash_max (push_node h (h.hash k % UINT_RANGE % h.max.toNat)
        { key := k, value := v, hash := h.hash k % UINT_RANGE }) (h.max * -h.off) hne
      show h.max * -h.off ≤ INT_MAX
      rw [← this]
      exact hmax
    have hpos : 0 < h.max * -h.off := by nlinarith
    have hle : -h.off ≤ h.max * -h.off := by nlinarith
    refine ⟨⟨by unfold INT_MIN; omega, le_trans hle hmax2⟩,
      ⟨by unfold INT_MIN; omega, hmax2⟩, fun _ => ⟨hpos, ?_⟩⟩
    rw [hfac]
    exact float_scale_default_range _ hpos hmax2

theorem distinct_count_le (cmp : Ptr → Ptr → Int) (ks : List Ptr) :
    distinct_count cmp ks ≤ ks.length := by
  induction ks with
  | nil => simp [distinct_count]
  | cons a ks ih =>
    unfold distinct_count
    split_ifs
    · simp; omega
    · simp; omega

theorem run_puts_checked_snoc (h : HASHMAP) (ps : List (Ptr × Ptr)) (p : Ptr × Ptr) :
    run_puts_checked h (ps ++ [p]) =
      (run_puts_checked h ps).bind (fun s =>
        (hashmap_put_noalloc_checked s p.1 p.2).map Prod.fst) := by
  simp [run_puts_checked, List.foldl_append]

theorem run_puts_checked_eq (t0 : HASHMAP) (L : KeyLaws t0.hash t0.cmp) (hw0 : WellFormed t0)
    (hl0 : live t0 = []) (hf0 : t0.freed = []) (hfac : t0.factor = FACTOR_DEFAULT)
    (ps : List (Ptr × Ptr)) (hf : fresh_blocks ps) (hlen : (ps.length : Int) ≤ INT_MAX)
    (hcap : (run_puts t0 ps).max ≤ INT_MAX) :
    run_puts_checked t0 ps = some (run_puts t0 ps) := by
  induction ps using List.reverseRecOn with
  | nil => rfl
  | append_singleton ps p ih =>
    obtain ⟨hf1, hf2⟩ := fresh_blocks_snoc ps p hf
    obtain ⟨hw, hh, hc, hcur, _⟩ := run_puts_inv t0 L hw0 hl0 ps
    have Lt : KeyLaws (run_puts t0 ps).hash (run_puts t0 ps).cmp := by rw [hh, hc]; exact L
    obtain ⟨_, _, _, _, p5, _⟩ := put_spec (run_puts t0 ps) Lt hw p.1 p.2
    rw [run_puts_snoc] at hcap
    have hlen2 : ((ps.length : Int)) < INT_MAX := by
      rw [List.length_append] at hlen
      simp only [List.length_singleton] at hlen
      push_cast at hlen
      omega
    obtain ⟨_, o2, o3, _⟩ := run_puts_owns t0 L hw0 hl0 hf0 ps hf1
    have hcontract : put_contract (run_puts t0 ps) p.1 := by
      refine ⟨?_, o3, ?_⟩
      · refine put_in_range_of_bound _ hw.1 p.1 p.2 ?_ ?_ hcap
        · rw [hcur]
          have := distinct_count_le t0.cmp (ps.map Prod.fst)
          rw [List.length_map] at this
          have h2 : ((distinct_count t0.cmp (ps.map Prod.fst) : Nat) : Int) ≤ (ps.length : Int) :=
            Int.ofNat_le.mpr this
          omega
        · rw [run_puts_factor, hfac]
      · intro hin
        obtain ⟨hn, hh2⟩ := o2 p.1 hin
        exact hf2 p.1 ((mem_pair_blocks p.1 p.2 p.1).mpr ⟨Or.inl rfl, hn⟩) hh2
    rw [run_puts_checked_snoc, ih hf1 (le_of_lt hlen2) (le_trans p5 hcap), run_puts_snoc]
    simp only [Option.some_bind, put_checked_eq _ _ _ hcontract, Option.map_some']

theorem put_outcome_of (h : HASHMAP) (L : KeyLaws h.hash h.cmp) (hw : WellFormed h)
    (k k1 v1 : Ptr) (hc : h.cmp k k1 = 0) :
    put_outcome h k v1 (hashmap_put_noalloc h k1 v1) := by
  obtain ⟨_, _, p3, _, _, ⟨e, hke, hval, hmem⟩, p7, p8⟩ := put_spec h L hw k1 v1
  have hpc := present_congr h L k k1 hc
  refine ⟨⟨?_, fun hp => (p7 (hpc.mpr hp)).1⟩, ?_, ?_⟩
  · intro h1
    by_contra hn
    rw [(p8 (fun hq => hn (hpc.mp hq))).1] at h1
    exact absurd h1 (by decide)
  · intro hp
    refine ⟨(p7 (hpc.mpr hp)).2.1, ⟨e, (hmem e).mpr (Or.inl rfl), ?_, hval⟩,
      put_get_same h L hw k1 v1 k hc⟩
    rw [p3]
    exact L.trans _ _ _ hc hke
  · intro hp
    exact p8 (fun hq => hp (hpc.mp hq))

/-! ## The claims -/

/-- C1, as stated, fails for `hashmap_put` on a table that compares keys by
address: the duplicate of the key is another address, so it is inserted as a new
key.  On the table of the scenario, whose `cmp` is an equivalence that the hash
respects, `hashmap_put` of the present key 5 with a value block holding
`[1, 2]` (either order of the two duplications; every call is defined) is
followed by a `hashmap_get` of key 5 that returns the old value 12, a block that
holds nothing; and after `hashmap_put` of the absent key 9, `hashmap_get` of
key 9 returns `NULL`. -/
theorem C1_copy_is_another_key :
    Reachable table_two ∧ KeyLaws table_two.hash table_two.cmp ∧
    (memory_a.content 7).take 2 = [1, 2] ∧
    (hashmap_put_checked memory_a ARG_ORDER.key_first table_two 5 1 7 2).isSome = true ∧
    hashmap_get_checked (hashmap_put memory_a ARG_ORDER.key_first table_two 5 1 7 2).2.1 5 =
      some 12 ∧
    (hashmap_put memory_a ARG_ORDER.key_first table_two 5 1 7 2).1.content 12 = [] ∧
    (hashmap_put_checked memory_a ARG_ORDER.value_first table_two 5 1 7 2).isSome = true ∧
    hashmap_get_checked (hashmap_put memory_a ARG_ORDER.value_first table_two 5 1 7 2).2.1 5 =
      some 12 ∧
    (hashmap_put memory_a ARG_ORDER.value_first table_two 5 1 7 2).1.content 12 = [] ∧
    (hashmap_put_checked memory_a ARG_ORDER.key_first table_two 9 1 7 2).isSome = true ∧
    hashmap_get_checked (hashmap_put memory_a ARG_ORDER.key_first table_two 9 1 7 2).2.1 9 =
      some NULL :=
  ⟨reachable_table_two, laws_id, by decide, by decide, by decide, by decide, by decide,
    by decide, by decide, by decide, by decide⟩

/-- C1, amended.  Round trip, on every table reachable from `hashmap_create`
with positive capacity whose `cmp` is an equivalence that its hash respects.
When the call `hashmap_put_noalloc(h, k, v)` is within its contract (its `int`
values are in range, the table refers to no released block, `k` is not
released) and the table it leaves refers to no released block (the call is not
one of those that release a block and keep it), the call returns and
`hashmap_get(h, k)` right after it returns `v`, whether or not `k` was present
and whether or not the table was resized.  For `hashmap_put`, in either order of
its two duplications, the same holds when moreover `cmp` finds the duplicate of
the key equal to `k`, the block of `v` is not released, and `k` is not released
before or by the call: `hashmap_get(h, k)` returns the duplicate of the value, a
block that holds the `valuesize` bytes of `v` (and `NULL` for a `NULL`
value). -/
theorem C1_put_get_roundtrip (h : HASHMAP) (hr : Reachable h) (L : KeyLaws h.hash h.cmp)
    (k v : Ptr) :
    (put_contract h k → no_dangling (hashmap_put_noalloc h k v).1 →
      hashmap_put_noalloc_checked h k v = some (hashmap_put_noalloc h k v) ∧
      hashmap_get_checked (hashmap_put_noalloc h k v).1 k = some v) ∧
    ∀ (m : MEMORY) (order : ARG_ORDER) (keysize valuesize : Nat),
      h.cmp k (put_dups m order k keysize v valuesize).2.1 = 0 → v < m.brk →
      (v ≠ NULL → v ∉ h.freed) →
      put_contract h (put_dups m order k keysize v valuesize).2.1 →
      no_dangling (hashmap_put m order h k keysize v valuesize).2.1 →
      k ∉ (hashmap_put m order h k keysize v valuesize).2.1.freed →
      hashmap_put_checked m order h k keysize v valuesize =
        some (hashmap_put m order h k keysize v valuesize) ∧
      hashmap_get_checked (hashmap_put m order h k keysize v valuesize).2.1 k =
        some (put_dups m order k keysize v valuesize).2.2 ∧
      (v ≠ NULL →
        (hashmap_put m order h k keysize v valuesize).1.content
          (put_dups m order k keysize v valuesize).2.2 = (m.content v).take valuesize) ∧
      (v = NULL → (put_dups m order k keysize v valuesize).2.2 = NULL) := by
  obtain ⟨hs, hp⟩ := reachable_placed h hr
  constructor
  · intro hc hd
    refine ⟨put_checked_eq h k v hc, ?_⟩
    obtain ⟨e, he, hk, _⟩ := put_key_referenced h hs hp k v
    have hkl : k ∉ (hashmap_put_noalloc h k v).1.freed := by
      have := (key_live _ hd e he).1
      rw [hk] at this
      exact this
    rw [get_checked_eq _ k (put_placed h hs hp k v).1.1 hd hkl,
      put_get_weak h L hs hp k v k (L.refl k)]
  · intro m order keysize valuesize hdup hb hvl hc hd hkl
    refine ⟨?_, ?_, ?_, ?_⟩
    · exact put_copy_checked_eq m order h k keysize v valuesize
        (fun hin => hkl (put_freed_sub h _ _ k hin)) hvl hc
    · have hm : 0 < (hashmap_put m order h k keysize v valuesize).2.1.max :=
        (put_placed h hs hp _ _).1.1
      rw [get_checked_eq _ k hm hd hkl]
      exact congrArg some (put_get_weak h L hs hp _ _ k hdup)
    · intro hv
      exact put_dups_content m order k keysize v valuesize hv hb
    · intro hv
      rw [hv]
      exact put_dups_null m order k keysize valuesize

theorem C1_put_get_roundtrip_witness :
    Reachable table_low ∧ KeyLaws table_low.hash table_low.cmp ∧
    hashmap_get_checked (hashmap_put_noalloc table_low 21 7).1 21 = some 7 ∧
    hashmap_get_checked (hashmap_put memory_a ARG_ORDER.key_first table_low 37 1 7 2).2.1 37 =
      some 22 ∧
    (hashmap_put memory_a ARG_ORDER.key_first table_low 37 1 7 2).1.content 22 = [1, 2] :=
  ⟨reachable_table_low, laws_low,
    ((C1_put_get_roundtrip table_low reachable_table_low laws_low 21 7).1
      (by decide) (by decide)).2,
    ((C1_put_get_roundtrip table_low reachable_table_low laws_low 37 7).2 memory_a
      ARG_ORDER.key_first 1 2 (by decide) (by decide) (by decide) (by decide) (by decide)
      (by decide)).2.1,
    ((C1_put_get_roundtrip table_low reachable_table_low laws_low 37 7).2 memory_a
      ARG_ORDER.key_first 1 2 (by decide) (by decide) (by decide) (by decide) (by decide)
      (by decide)).2.2.1 (by decide)⟩

/-- C4. On a well-formed table, `hashmap_remove` and `hashmap_remove_nofree`
decrease `hashmap_size` by exactly 1 when an entry with a key that compares equal
to `k` is present; when none is present they leave the whole table state
unchanged. -/
theorem C4_remove_size (h : HASHMAP) (L : KeyLaws h.hash h.cmp) (hw : WellFormed h)
    (k : Ptr) :
    (present h k →
      hashmap_size (hashmap_remove (some h) k) = hashmap_size (some h) - 1 ∧
      hashmap_size (hashmap_remove_nofree (some h) k) = hashmap_size (some h) - 1) ∧
    (¬ present h k →
      hashmap_remove (some h) k = some h ∧ hashmap_remove_nofree (some h) k = some h) := by
  obtain ⟨_, _, _, _, _, _, _, a1, a2⟩ := remove_spec h L hw k 1
  obtain ⟨_, _, _, _, _, _, _, b1, b2⟩ := remove_spec h L hw k 0
  constructor
  · intro hp
    exact ⟨(a1 hp).1, (b1 hp).1⟩
  · intro hp
    constructor
    · show some (hashmap_remove_entry h k 1) = some h
      rw [a2 hp]
    · show some (hashmap_remove_entry h k 0) = some h
      rw [b2 hp]

theorem C4_remove_size_witness :
    KeyLaws table_two.hash table_two.cmp ∧ WellFormed table_two ∧
    present table_two 5 ∧ ¬ present table_two 6 ∧
    hashmap_size (hashmap_remove (some table_two) 5) = hashmap_size (some table_two) - 1 ∧
    hashmap_remove (some table_two) 6 = some table_two :=
  ⟨laws_id, wf_table_two, by decide, by decide,
    ((C4_remove_size table_two laws_id wf_table_two 5).1 (by decide)).1,
    ((C4_remove_size table_two laws_id wf_table_two 6).2 (by decide)).1⟩

theorem find_none_of_absent (h : HASHMAP) (L : KeyLaws h.hash h.cmp) (k : Ptr)
    (ha : ¬ present h k) :
    hashmap_find_entry h k (h.hash k % UINT_RANGE)
      (h.hash k % UINT_RANGE % h.max.toNat) = none := by
  cases hf : hashmap_find_entry h k (h.hash k % UINT_RANGE)
      (h.hash k % UINT_RANGE % h.max.toNat) with
  | none => rfl
  | some i =>
    obtain ⟨pre, e2, post, _, _, _, hc2, _, hm2, _⟩ := find_some_spec h L k _ _ i hf
    exact absurd ⟨e2, hm2, hc2⟩ ha

/-- C5. On a well-formed table, a put of a new key that brings the count to the
threshold under a growing policy runs `hashmap_rehash` with a larger capacity
(`max + off`, or `max * -off`); every key that was retrievable before the put is
retrievable after it, and `hashmap_get` returns the same value reference. -/
theorem C5_resize_keeps_keys (h : HASHMAP) (L : KeyLaws h.hash h.cmp) (hw : WellFormed h)
    (k v : Ptr) (hnew : ¬ present h k) (hth : h.cur + 1 ≥ h.threshold)
    (hoff : h.off > 0 ∨ h.off < -1) :
    (hashmap_put_noalloc h k v).1.max = (if h.off > 0 then h.max + h.off else h.max * -h.off) ∧
    h.max < (hashmap_put_noalloc h k v).1.max ∧
    ∀ k2, present h k2 →
      present (hashmap_put_noalloc h k v).1 k2 ∧
      hashmap_get (hashmap_put_noalloc h k v).1 k2 = hashmap_get h k2 := by
  have hf := find_none_of_absent h L k hnew
  have hcur : (push_node h (h.hash k % UINT_RANGE % h.max.toNat)
      { key := k, value := v, hash := h.hash k % UINT_RANGE }).cur ≠ 0 := by
    show h.cur + 1 ≠ 0
    have := hw.1.2.2
    omega
  have hmax : (hashmap_put_noalloc h k v).1.max =
      (if h.off > 0 then h.max + h.off else h.max * -h.off) := by
    rw [put_eq_new h k v hf, if_pos hth]
    by_cases h1 : h.off > 0
    · rw [if_pos h1, if_pos h1]
      exact rehash_max _ _ hcur
    · have h2 : h.off < -1 := by
        rcases hoff with h3 | h3
        · exact absurd h3 h1
        · exact h3
      rw [if_neg h1, if_neg h1, if_pos h2]
      exact rehash_max _ _ hcur
  refine ⟨hmax, ?_, ?_⟩
  · rw [hmax]
    have := hw.1.1
    split_ifs with h1
    · omega
    · have h2 : h.off < -1 := by
        rcases hoff with h3 | h3
        · exact absurd h3 h1
        · exact h3
      nlinarith
  · intro k2 hp
    have hne : h.cmp k2 k ≠ 0 := by
      intro h0
      obtain ⟨x, hx, hcx⟩ := hp
      exact hnew ⟨x, hx, L.trans _ _ _ (L.symm _ _ h0) hcx⟩
    exact ⟨(put_present_iff h L hw k v k2).mpr (Or.inl hp), put_get_other h L hw k v k2 hne⟩

theorem C5_resize_keeps_keys_witness :
    KeyLaws table_two.hash table_two.cmp ∧ WellFormed table_two ∧ ¬ present table_two 9 ∧
    table_two.cur + 1 ≥ table_two.threshold ∧ (table_two.off > 0 ∨ table_two.off < -1) ∧
    (hashmap_put_noalloc table_two 9 13).1.max = 8 ∧
    hashmap_get (hashmap_put_noalloc table_two 9 13).1 5 = hashmap_get table_two 5 :=
  ⟨laws_id, wf_table_two, by decide, by decide, by decide,
    (C5_resize_keeps_keys table_two laws_id wf_table_two 9 13 (by decide) (by decide)
      (by decide)).1,
    ((C5_resize_keeps_keys table_two laws_id wf_table_two 9 13 (by decide) (by decide)
      (by decide)).2.2 5 (by decide)).2⟩

/-- C6. On a well-formed table, for a replacement hash function that gives equal
hashes to keys that compare equal, after `hashmap_sethashfunc` the capacity and
the size are unchanged, the table uses the new function, and `hashmap_get`
returns for every key the same result as before the call. -/
theorem C6_sethashfunc_keeps_keys (h : HASHMAP) (L : KeyLaws h.hash h.cmp)
    (hw : WellFormed h) (hash2 : Ptr → Nat) (L2 : KeyLaws hash2 h.cmp) :
    ∃ t, hashmap_sethashfunc (some h) hash2 = some t ∧ t.max = h.max ∧
      hashmap_size (some t) = hashmap_size (some h) ∧ t.hash = hash2 ∧ WellFormed t ∧
      ∀ k, hashmap_get t k = hashmap_get h k ∧ (present t k ↔ present h k) := by
  obtain ⟨r1, r2, r3, r4, r5, r6⟩ := sethashfunc_spec h hw hash2 L2
  refine ⟨hashmap_rehash { h with hash := hash2 } h.max, rfl, r6, r5, r3, r1, ?_⟩
  generalize hashmap_rehash { h with hash := hash2 } h.max = t at r1 r2 r3 r4 r5 r6
  have Lt : KeyLaws t.hash t.cmp := by rw [r3, r4]; exact L2
  intro k
  have hiff : present t k ↔ present h k := by
    unfold present
    rw [r4]
    constructor
    · rintro ⟨x, hx, hc⟩
      obtain ⟨e, he, rfl⟩ := List.mem_map.mp (r2.mem_iff.mp hx)
      exact ⟨e, he, hc⟩
    · rintro ⟨e, he, hc⟩
      exact ⟨recache hash2 e, r2.mem_iff.mpr (List.mem_map.mpr ⟨e, he, rfl⟩), hc⟩
  refine ⟨?_, hiff⟩
  by_cases hp : present h k
  · obtain ⟨e, he, hc⟩ := hp
    rw [get_of_mem h L hw k e he hc]
    exact get_of_mem t Lt r1 k (recache hash2 e)
      (r2.mem_iff.mpr (List.mem_map.mpr ⟨e, he, rfl⟩)) (by rw [r4]; exact hc)
  · rw [get_of_absent h L k hp, get_of_absent t Lt k (fun hq => hp (hiff.mp hq))]

theorem C6_sethashfunc_keeps_keys_witness :
    KeyLaws table_two.hash table_two.cmp ∧ WellFormed table_two ∧
    KeyLaws hash_alt table_two.cmp ∧
    ∃ t, hashmap_sethashfunc (some table_two) hash_alt = some t ∧ t.max = table_two.max ∧
      hashmap_size (some t) = hashmap_size (some table_two) ∧ t.hash = hash_alt ∧
      WellFormed t ∧
      ∀ k, hashmap_get t k = hashmap_get table_two k ∧ (present t k ↔ present table_two k) :=
  ⟨laws_id, wf_table_two, laws_cmp_id hash_alt,
    C6_sethashfunc_keeps_keys table_two laws_id wf_table_two hash_alt (laws_cmp_id hash_alt)⟩

theorem getD_replicate_nil (n i : Nat) :
    (List.replicate n ([] : List ENTRY)).getD i [] = [] :=
  List.eq_nil_iff_forall_not_mem.mpr (fun e => not_mem_replicate_bucket n i e)

theorem get_of_empty (t : HASHMAP) (n : Nat) (ht : t.entry = List.replicate n []) (k : Ptr) :
    hashmap_get t k = NULL := by
  rw [hashmap_get_eq]
  have : hashmap_find_entry t k (t.hash k % UINT_RANGE)
      (t.hash k % UINT_RANGE % t.max.toNat) = none := by
    unfold hashmap_find_entry
    rw [ht, getD_replicate_nil]
    rfl
  rw [this]

/-- C7. On a well-formed table, after `hashmap_clear` the size is 0, every bucket
is empty, `hashmap_get` returns `NULL` for every key and the capacity is as
before.  The table is then the freshly created table of that capacity (same
growth value and functions), carrying the load factor and threshold it had and
the log of the releases; every following sequence of puts gives on it the sizes
and the `hashmap_get` results that it gives on the freshly created table. -/
theorem C7_clear_resets (h : HASHMAP) (hw : WellFormed h) :
    ∃ t, hashmap_clear (some h) = some t ∧ hashmap_size (some t) = 0 ∧
      (∀ i, t.entry.getD i [] = []) ∧ (∀ k, hashmap_get t k = NULL) ∧ t.max = h.max ∧
      t = { hashmap_create h.max h.off h.hash h.cmp with
            threshold := h.threshold, factor := h.factor, freed := t.freed } ∧
      (KeyLaws h.hash h.cmp → ∀ (puts : List (Ptr × Ptr)) (k : Ptr),
        hashmap_size (some (run_puts t puts)) =
          hashmap_size (some (run_puts (hashmap_create h.max h.off h.hash h.cmp) puts)) ∧
        hashmap_get (run_puts t puts) k =
          hashmap_get (run_puts (hashmap_create h.max h.off h.hash h.cmp) puts) k) := by
  refine ⟨_, clear_spec h hw.1, rfl, fun i => getD_replicate_nil _ i,
    fun k => get_of_empty _ h.max.toNat rfl k, rfl, rfl, ?_⟩
  intro L puts k
  obtain ⟨cw, cl⟩ := cleared_wf h hw.1 ((live h).foldl clear_free h.freed)
  obtain ⟨fw, fl⟩ := create_wf h.max h.off h.hash h.cmp hw.1.1
  obtain ⟨_, _, _, a4, a5, a6⟩ := run_puts_inv
    { h with entry := List.replicate h.max.toNat [],
             freed := (live h).foldl clear_free h.freed, cur := 0 } L cw cl puts
  obtain ⟨_, _, _, b4, b5, b6⟩ := run_puts_inv (hashmap_create h.max h.off h.hash h.cmp) L fw fl puts
  refine ⟨a4.trans b4.symm, ?_⟩
  by_cases hk : ∃ p ∈ puts, h.cmp k p.1 = 0
  · have h1 := a6 k ((a5 k).mpr hk)
    have h2 := b6 k ((b5 k).mpr hk)
    exact Option.some.inj (h1.trans h2.symm)
  · rw [run_puts_get_absent
        { h with entry := List.replicate h.max.toNat [],
                 freed := (live h).foldl clear_free h.freed, cur := 0 } L cw cl puts k hk,
      run_puts_get_absent (hashmap_create h.max h.off h.hash h.cmp) L fw fl puts k hk]

theorem C7_clear_resets_witness :
    WellFormed table_two ∧
    ∃ t, hashmap_clear (some table_two) = some t ∧ hashmap_size (some t) = 0 ∧
      (∀ i, t.entry.getD i [] = []) ∧ (∀ k, hashmap_get t k = NULL) ∧
      t.max = table_two.max ∧
      t = { hashmap_create table_two.max table_two.off table_two.hash table_two.cmp with
            threshold := table_two.threshold, factor := table_two.factor, freed := t.freed } ∧
      (KeyLaws table_two.hash table_two.cmp → ∀ (puts : List (Ptr × Ptr)) (k : Ptr),
        hashmap_size (some (run_puts t puts)) =
          hashmap_size (some (run_puts
            (hashmap_create table_two.max table_two.off table_two.hash table_two.cmp) puts)) ∧
        hashmap_get (run_puts t puts) k =
          hashmap_get (run_puts
            (hashmap_create table_two.max table_two.off table_two.hash table_two.cmp) puts) k) :=
  ⟨wf_table_two, C7_clear_resets table_two wf_table_two⟩

theorem browse_run_eq (h : HASHMAP) (hs : wf_shape h) (visitor : Ptr → Ptr → Int) :
    hashmap_browse_run (some h) visitor =
      ((browse_chain visitor (live h) { ret := 0, cur := h.cur, calls := [] }).ret,
       (browse_chain visitor (live h) { ret := 0, cur := h.cur, calls := [] }).calls) := by
  unfold hashmap_browse_run
  simp only [browse_loop_eq h visitor hs.2.1 hs.2.2]

theorem live_keys_nodup (h : HASHMAP) (L : KeyLaws h.hash h.cmp) (hw : WellFormed h) :
    ((live h).map ENTRY.key).Nodup := by
  unfold List.Nodup
  rw [List.pairwise_map]
  refine List.Pairwise.imp ?_ hw.2.2
  intro a b hab heq
  apply hab
  rw [heq]
  exact L.refl _

/-- C8. On every table reachable from `hashmap_create` (any positive capacity)
by any history of put and remove calls (and of the other public operations),
with a visitor that always returns 0, one call of `hashmap_browse` calls the
visitor exactly `hashmap_size` times: the calls are the live entries, one call
for each node of each chain, and none on an empty table.  When the history kept
one comparison function that is an equivalence respected by the hash functions,
the visited keys are pairwise distinct. -/
theorem C8_browse_visits_each_once (h : HASHMAP) (hr : Reachable h)
    (visitor : Ptr → Ptr → Int) (hz : ∀ a b, visitor a b = 0) :
    ((hashmap_browse_run (some h) visitor).2.length : Int) = hashmap_size (some h) ∧
    (hashmap_browse_run (some h) visitor).2 = live h ∧
    hashmap_browse (some h) visitor = 0 ∧
    (hashmap_size (some h) = 0 → (hashmap_browse_run (some h) visitor).2 = []) ∧
    (∀ cmp, LawfulReachable cmp h →
      ((hashmap_browse_run (some h) visitor).2.map ENTRY.key).Nodup ∧
      (hashmap_browse_run (some h) visitor).2.Nodup) := by
  obtain ⟨hs, _⟩ := reachable_placed h hr
  have hrun : hashmap_browse_run (some h) visitor = (0, live h) := by
    rw [browse_run_eq h hs visitor, browse_chain_zero visitor (live h) _ (fun e _ => hz _ _)]
    simp
  unfold hashmap_browse
  rw [hrun]
  refine ⟨hs.2.2.symm, rfl, rfl, fun h0 => live_nil_of_cur h hs h0, ?_⟩
  intro cmp hl
  obtain ⟨hw, L, _⟩ := lawful_reachable_wf cmp h hl
  have hnd := live_keys_nodup h L hw
  exact ⟨hnd, List.Nodup.of_map _ hnd⟩

theorem C8_browse_visits_each_once_witness :
    Reachable table_two ∧ (∀ a b, visit_all a b = 0) ∧
    ((hashmap_browse_run (some table_two) visit_all).2.length : Int) = 2 ∧
    (hashmap_browse_run (some table_two) visit_all).2 =
      [{ key := 5, value := 12, hash := 5 }, { key := 1, value := 11, hash := 1 }] ∧
    ((hashmap_browse_run (some table_two) visit_all).2.map ENTRY.key).Nodup :=
  ⟨reachable_table_two, fun _ _ => rfl,
    (C8_browse_visits_each_once table_two reachable_table_two visit_all (fun _ _ => rfl)).1,
    (C8_browse_visits_each_once table_two reachable_table_two visit_all (fun _ _ => rfl)).2.1,
    ((C8_browse_visits_each_once table_two reachable_table_two visit_all
      (fun _ _ => rfl)).2.2.2.2 cmp_id lawful_table_two).1⟩

/-- C9. On a well-formed table, `hashmap_browse` returns the first nonzero value
that the visitor produces in traversal order (the live entries, bucket after
bucket), and the visitor is called on no entry after that one; if the visitor
returns 0 on every entry, or the table is empty, or the handle is `NULL`, it
returns 0. -/
theorem C9_browse_first_nonzero (h : HASHMAP) (hw : WellFormed h)
    (visitor : Ptr → Ptr → Int) :
    ((∀ e ∈ live h, visitor e.key e.value = 0) →
      hashmap_browse (some h) visitor = 0 ∧
      (hashmap_browse_run (some h) visitor).2 = live h) ∧
    (∀ pre e post, live h = pre ++ e :: post →
      (∀ x ∈ pre, visitor x.key x.value = 0) → visitor e.key e.value ≠ 0 →
      hashmap_browse (some h) visitor = visitor e.key e.value ∧
      (hashmap_browse_run (some h) visitor).2 = pre ++ [e]) ∧
    (hashmap_size (some h) = 0 → hashmap_browse (some h) visitor = 0) ∧
    hashmap_browse none visitor = 0 := by
  have hall : (∀ e ∈ live h, visitor e.key e.value = 0) →
      hashmap_browse (some h) visitor = 0 ∧
      (hashmap_browse_run (some h) visitor).2 = live h := by
    intro hz
    unfold hashmap_browse
    rw [browse_run_eq h hw.1 visitor, browse_chain_zero visitor (live h) _ hz]
    simp
  refine ⟨hall, ?_, ?_, rfl⟩
  · intro pre e post hl hpre he
    unfold hashmap_browse
    rw [browse_run_eq h hw.1 visitor, hl, browse_chain_first visitor pre e post _ hpre he]
    simp
  · intro h0
    have hl := live_nil_of_cur h hw.1 h0
    exact (hall (by rw [hl]; simp)).1

theorem C9_browse_first_nonzero_witness :
    WellFormed table_three ∧
    live table_three =
      [{ key := 1, value := 11, hash := 1 }] ++
        { key := 9, value := 13, hash := 9 } :: [{ key := 5, value := 12, hash := 5 }] ∧
    hashmap_browse (some table_three) visit_nine = 13 ∧
    (hashmap_browse_run (some table_three) visit_nine).2 =
      [{ key := 1, value := 11, hash := 1 }] ++ [{ key := 9, value := 13, hash := 9 }] :=
  ⟨by decide, by decide,
    ((C9_browse_first_nonzero table_three (by decide) visit_nine).2.1
      [{ key := 1, value := 11, hash := 1 }] { key := 9, value := 13, hash := 9 }
      [{ key := 5, value := 12, hash := 5 }] (by decide) (by decide) (by decide)).1,
    ((C9_browse_first_nonzero table_three (by decide) visit_nine).2.1
      [{ key := 1, value := 11, hash := 1 }] { key := 9, value := 13, hash := 9 }
      [{ key := 5, value := 12, hash := 5 }] (by decide) (by decide) (by decide)).2⟩

/-! ## The order of a traversal -/

theorem first_put_of_mem (cmp : Ptr → Ptr → Int) (k : Ptr) (ps l : List (Ptr × Ptr))
    (hk : ∃ q ∈ ps, cmp k q.1 = 0) :
    first_put cmp k (ps ++ l) = first_put cmp k ps ∧ first_put cmp k ps < ps.length := by
  have hlt : first_put cmp k ps < ps.length := by
    unfold first_put
    apply List.findIdx_lt_length_of_exists
    obtain ⟨q, hq, hc⟩ := hk
    exact ⟨q, hq, by simp [hc]⟩
  refine ⟨?_, hlt⟩
  unfold first_put at hlt ⊢
  rw [List.findIdx_append, if_pos hlt]

theorem first_put_snoc_new (cmp : Ptr → Ptr → Int) (k : Ptr) (ps : List (Ptr × Ptr))
    (p : Ptr × Ptr) (hk : ¬ ∃ q ∈ ps, cmp k q.1 = 0) (hp : cmp k p.1 = 0) :
    first_put cmp k (ps ++ [p]) = ps.length := by
  have h1 : List.findIdx (fun q : Ptr × Ptr => cmp k q.1 == 0) ps = ps.length := by
    apply List.findIdx_eq_length_of_false
    intro q hq
    have : cmp k q.1 ≠ 0 := fun hc => hk ⟨q, hq, hc⟩
    simp [this]
  unfold first_put
  rw [List.findIdx_append, h1, if_neg (Nat.lt_irrefl _), List.findIdx_cons]
  simp [hp]

theorem first_put_congr (hash : Ptr → Nat) (cmp : Ptr → Ptr → Int) (L : KeyLaws hash cmp)
    (k k2 : Ptr) (ps : List (Ptr × Ptr)) (hc : cmp k k2 = 0) :
    first_put cmp k ps = first_put cmp k2 ps := by
  unfold first_put
  congr 1
  funext q
  by_cases h1 : cmp k q.1 = 0
  · have h2 : cmp k2 q.1 = 0 := L.trans _ _ _ (L.symm _ _ hc) h1
    simp [h1, h2]
  · have h2 : cmp k2 q.1 ≠ 0 := fun h => h1 (L.trans _ _ _ hc h)
    simp [h1, h2]

theorem put_entry_cases (h : HASHMAP) (L : KeyLaws h.hash h.cmp) (hw : WellFormed h)
    (k v : Ptr) (hmax : (hashmap_put_noalloc h k v).1.max = h.max) :
    (∃ pos pre e e2 post, pos < h.entry.length ∧ h.entry.getD pos [] = pre ++ e :: post ∧
      h.cmp e.key e2.key = 0 ∧
      (hashmap_put_noalloc h k v).1.entry = h.entry.set pos (pre ++ e2 :: post)) ∨
    (¬ present h k ∧ ∃ pos, pos < h.entry.length ∧
      (hashmap_put_noalloc h k v).1.entry =
        h.entry.set pos ({ key := k, value := v, hash := h.hash k % UINT_RANGE } ::
          h.entry.getD pos [])) := by
  cases hf : hashmap_find_entry h k (h.hash k % UINT_RANGE)
      (h.hash k % UINT_RANGE % h.max.toNat) with
  | some i =>
    left
    obtain ⟨pre, e, post, hc, hl, hat, hke, _, _, hpos⟩ := find_some_spec h L k _ _ i hf
    obtain ⟨_, _, hkey⟩ := put_update_spec e k v h.freed
    refine ⟨_, pre, e, (put_update e k v h.freed).1, post, hpos, hc, ?_, ?_⟩
    · rw [hkey]; exact L.symm _ _ hke
    · rw [put_eq_found h k v i hf, hat]
      show entry_store h _ i _ = _
      unfold entry_store
      rw [hc, ← hl, set_append_length]
  | none =>
    right
    have ha := find_none_absent h L hw.2.1 k hf
    refine ⟨ha, _, pos_lt_length h hw.1 (h.hash k % UINT_RANGE), ?_⟩
    have hcur : (push_node h (h.hash k % UINT_RANGE % h.max.toNat)
        { key := k, value := v, hash := h.hash k % UINT_RANGE }).cur ≠ 0 := by
      show h.cur + 1 ≠ 0
      have := hw.1.2.2
      omega
    have hpos := hw.1.1
    rw [put_eq_new h k v hf] at hmax ⊢
    split_ifs at hmax ⊢ with h1 h2 h3
    · rw [rehash_max _ _ hcur] at hmax
      omega
    · rw [rehash_max _ _ hcur] at hmax
      nlinarith
    · rfl
    · rfl

theorem run_puts_max_mono (t0 : HASHMAP) (L : KeyLaws t0.hash t0.cmp) (hw0 : WellFormed t0)
    (hl0 : live t0 = []) (ps : List (Ptr × Ptr)) : t0.max ≤ (run_puts t0 ps).max := by
  induction ps using List.reverseRecOn with
  | nil => exact le_refl _
  | append_singleton ps p ih =>
    obtain ⟨hw, hh, hc, _⟩ := run_puts_inv t0 L hw0 hl0 ps
    rw [run_puts_snoc]
    have Lt : KeyLaws (run_puts t0 ps).hash (run_puts t0 ps).cmp := by rw [hh, hc]; exact L
    obtain ⟨_, _, _, _, p5, _⟩ := put_spec (run_puts t0 ps) Lt hw p.1 p.2
    exact le_trans ih p5

theorem mru_inv (t0 : HASHMAP) (L : KeyLaws t0.hash t0.cmp) (hw0 : WellFormed t0)
    (hl0 : live t0 = []) (ps : List (Ptr × Ptr)) :
    (run_puts t0 ps).max = t0.max → mru_first t0.cmp ps (run_puts t0 ps).entry := by
  induction ps using List.reverseRecOn with
  | nil =>
    intro _ c hc
    have hnil : c = [] := by
      apply List.eq_nil_iff_forall_not_mem.mpr
      intro e he
      have : e ∈ live t0 := List.mem_flatten.mpr ⟨c, hc, he⟩
      rw [hl0] at this
      simp at this
    rw [hnil]
    exact List.Pairwise.nil
  | append_singleton ps p ih =>
    intro hmax
    obtain ⟨hw, hh, hc, _, hpres, _⟩ := run_puts_inv t0 L hw0 hl0 ps
    have hmono := run_puts_max_mono t0 L hw0 hl0 ps
    rw [run_puts_snoc] at hmax ⊢
    generalize run_puts t0 ps = t at hw hh hc hpres hmono hmax ih
    have Lt : KeyLaws t.hash t.cmp := by rw [hh, hc]; exact L
    obtain ⟨_, _, _, _, p5, _⟩ := put_spec t Lt hw p.1 p.2
    have hmax1 : t.max = t0.max := le_antisymm (by rw [← hmax]; exact p5) hmono
    have hmax2 : (hashmap_put_noalloc t p.1 p.2).1.max = t.max := by rw [hmax, hmax1]
    have ih2 := ih hmax1
    have hin : ∀ e ∈ live t, ∃ q ∈ ps, t0.cmp e.key q.1 = 0 := by
      intro e he
      exact (hpres e.key).mp ⟨e, he, by rw [hc]; exact L.refl _⟩
    have hstable : ∀ e ∈ live t,
        first_put t0.cmp e.key (ps ++ [p]) = first_put t0.cmp e.key ps ∧
        first_put t0.cmp e.key ps < ps.length :=
      fun e he => first_put_of_mem t0.cmp e.key ps [p] (hin e he)
    have hold : ∀ c ∈ t.entry, c.Pairwise (fun a b =>
        first_put t0.cmp b.key (ps ++ [p]) < first_put t0.cmp a.key (ps ++ [p])) := by
      intro c hcB
      refine List.Pairwise.imp_of_mem ?_ (ih2 c hcB)
      intro a b ha hb hab
      rw [(hstable a (List.mem_flatten.mpr ⟨c, hcB, ha⟩)).1,
        (hstable b (List.mem_flatten.mpr ⟨c, hcB, hb⟩)).1]
      exact hab
    have hbucket : ∀ pos, pos < t.entry.length → t.entry.getD pos [] ∈ t.entry := by
      intro pos hpos
      rw [List.getD_eq_getElem _ _ hpos]
      exact List.getElem_mem hpos
    rcases put_entry_cases t Lt hw p.1 p.2 hmax2 with
      ⟨pos, pre, e, e2, post, hpos, hchain, hee, hent⟩ | ⟨hnew, pos, hpos, hent⟩
    · intro c hcB
      rw [hent] at hcB
      rcases List.mem_or_eq_of_mem_set hcB with hcB | rfl
      · exact hold c hcB
      · have hch := hold _ (hbucket pos hpos)
        rw [hchain] at hch
        have hfe : first_put t0.cmp e2.key (ps ++ [p]) = first_put t0.cmp e.key (ps ++ [p]) :=
          (first_put_congr t0.hash t0.cmp L e.key e2.key _ (by rw [← hc]; exact hee)).symm
        have hmap : (pre ++ e2 :: post).map (fun a => first_put t0.cmp a.key (ps ++ [p])) =
            (pre ++ e :: post).map (fun a => first_put t0.cmp a.key (ps ++ [p])) := by
          simp only [List.map_append, List.map_cons, hfe]
        have h1 := (List.pairwise_map (f := fun a : ENTRY => first_put t0.cmp a.key (ps ++ [p]))
          (R := fun x y => y < x)).mpr hch
        rw [← hmap] at h1
        exact List.pairwise_map.mp h1
    · intro c hcB
      rw [hent] at hcB
      rcases List.mem_or_eq_of_mem_set hcB with hcB | rfl
      · exact hold c hcB
      · rw [List.pairwise_cons]
        refine ⟨?_, hold _ (hbucket pos hpos)⟩
        intro b hb
        have hbl : b ∈ live t := mem_flatten_of_bucket _ pos b hb
        have hknew : ¬ ∃ q ∈ ps, t0.cmp p.1 q.1 = 0 := by
          intro hq
          exact hnew ((hpres p.1).mpr hq)
        show first_put t0.cmp b.key (ps ++ [p]) < first_put t0.cmp p.1 (ps ++ [p])
        rw [(hstable b hbl).1, first_put_snoc_new t0.cmp p.1 ps p hknew (L.refl _)]
        exact (hstable b hbl).2

theorem flatten_bucket_sorted (B : List (List ENTRY)) (f : ENTRY → Nat)
    (hf : ∀ i, i < B.length → ∀ e ∈ B.getD i [], f e = i) :
    (B.flatten.map f).Pairwise (fun x y => x ≤ y) := by
  rw [List.pairwise_map, List.pairwise_flatten]
  constructor
  · intro l hl
    obtain ⟨i, hi, rfl⟩ := List.mem_iff_getElem.mp hl
    apply List.pairwise_of_forall_mem_list
    intro a ha b hb
    have h1 := hf i hi a (by rw [List.getD_eq_getElem _ _ hi]; exact ha)
    have h2 := hf i hi b (by rw [List.getD_eq_getElem _ _ hi]; exact hb)
    rw [h1, h2]
  · rw [List.pairwise_iff_getElem]
    intro i j hi hj hij x hx y hy
    have h1 := hf i hi x (by rw [List.getD_eq_getElem _ _ hi]; exact hx)
    have h2 := hf j hj y (by rw [List.getD_eq_getElem _ _ hj]; exact hy)
    rw [h1, h2]
    exact Nat.le_of_lt hij

/-- C10, as stated, fails.  The three puts of the scenario of the specification
(capacity 4, doubling) end with a resize to capacity 8; afterwards the chain of
bucket 1 holds the entry of key 1 before the entry of key 9, so `hashmap_browse`
visits key 1 before key 9, although key 9 was inserted later. -/
theorem C10_resize_reverses_chain_order :
    (run_puts (hashmap_create 4 (-2) hash_id cmp_id) puts_three).entry.getD 1 [] =
      [{ key := 1, value := 11, hash := 1 }, { key := 9, value := 13, hash := 9 }] ∧
    (hashmap_browse_run (some (run_puts (hashmap_create 4 (-2) hash_id cmp_id) puts_three))
      visit_all).2 =
      [{ key := 1, value := 11, hash := 1 }, { key := 9, value := 13, hash := 9 },
       { key := 5, value := 12, hash := 5 }] ∧
    first_put cmp_id 1 puts_three < first_put cmp_id 9 puts_three ∧
    ¬ mru_first cmp_id puts_three
      (run_puts (hashmap_create 4 (-2) hash_id cmp_id) puts_three).entry := by
  decide

/-- C10, amended.  On every table built from `hashmap_create` by put calls,
`hashmap_browse` visits the live entries bucket after bucket, in increasing
bucket-index order; and if no put has resized the table (the capacity is still
the initial one), then within one bucket an entry inserted later is visited
before an entry inserted earlier. -/
theorem C10_browse_order (max off : Int) (hash : Ptr → Nat) (cmp : Ptr → Ptr → Int)
    (hm : 0 < max) (L : KeyLaws hash cmp) (puts : List (Ptr × Ptr))
    (visitor : Ptr → Ptr → Int) (hz : ∀ a b, visitor a b = 0) :
    (hashmap_browse_run (some (run_puts (hashmap_create max off hash cmp) puts)) visitor).2 =
      (run_puts (hashmap_create max off hash cmp) puts).entry.flatten ∧
    (∀ i, i < (run_puts (hashmap_create max off hash cmp) puts).entry.length →
      ∀ e ∈ (run_puts (hashmap_create max off hash cmp) puts).entry.getD i [],
        e.hash % (run_puts (hashmap_create max off hash cmp) puts).max.toNat = i) ∧
    ((hashmap_browse_run (some (run_puts (hashmap_create max off hash cmp) puts))
      visitor).2.map (fun e =>
        e.hash % (run_puts (hashmap_create max off hash cmp) puts).max.toNat)).Pairwise
      (fun x y => x ≤ y) ∧
    ((run_puts (hashmap_create max off hash cmp) puts).max = max →
      mru_first cmp puts (run_puts (hashmap_create max off hash cmp) puts).entry) := by
  obtain ⟨hw0, hl0⟩ := create_wf max off hash cmp hm
  obtain ⟨hw, _, _, _, _, _⟩ := run_puts_inv (hashmap_create max off hash cmp) L hw0 hl0 puts
  have hmru := mru_inv (hashmap_create max off hash cmp) L hw0 hl0 puts
  generalize run_puts (hashmap_create max off hash cmp) puts = t at hw hmru
  have hrun : (hashmap_browse_run (some t) visitor).2 = t.entry.flatten := by
    rw [browse_run_eq t hw.1 visitor, browse_chain_zero visitor (live t) _ (fun e _ => hz _ _)]
    simp [live]
  have hplaced : ∀ i, i < t.entry.length → ∀ e ∈ t.entry.getD i [],
      e.hash % t.max.toNat = i := fun i hi e he => (hw.2.1 i hi e he).2
  refine ⟨hrun, hplaced, ?_, hmru⟩
  rw [hrun]
  exact flatten_bucket_sorted t.entry _ hplaced

theorem C10_browse_order_witness :
    (0 : Int) < 4 ∧ KeyLaws hash_id cmp_id ∧ (∀ a b, visit_all a b = 0) ∧
    (run_puts (hashmap_create 4 0 hash_id cmp_id) puts_three).max = 4 ∧
    (hashmap_browse_run (some (run_puts (hashmap_create 4 0 hash_id cmp_id) puts_three))
      visit_all).2 =
      [{ key := 9, value := 13, hash := 9 }, { key := 5, value := 12, hash := 5 },
       { key := 1, value := 11, hash := 1 }] ∧
    mru_first cmp_id puts_three (run_puts (hashmap_create 4 0 hash_id cmp_id) puts_three).entry :=
  ⟨by decide, laws_id, fun _ _ => rfl, by decide,
    (C10_browse_order 4 0 hash_id cmp_id (by decide) laws_id puts_three visit_all
      (fun _ _ => rfl)).1,
    (C10_browse_order 4 0 hash_id cmp_id (by decide) laws_id puts_three visit_all
      (fun _ _ => rfl)).2.2.2 (by decide)⟩

/-! ## Growth -/

theorem push_node_max (h : HASHMAP) (pos : Nat) (e : ENTRY) : (push_node h pos e).max = h.max :=
  rfl

/-- C11. Growth policy.  On a well-formed table, a put of a key that is not
present and that brings the count to at least the threshold is one call of
`hashmap_rehash`, to capacity `max + off` when `off > 0` and to `max * -off`
when `off < -1`; it leaves the capacity unchanged when `off` is 0 or -1.  A put
that updates an existing key, or that leaves the count below the threshold,
does not change the capacity. -/
theorem C11_growth_policy (h : HASHMAP) (L : KeyLaws h.hash h.cmp) (hw : WellFormed h)
    (k v : Ptr) :
    (¬ present h k → h.cur + 1 ≥ h.threshold →
      (h.off > 0 →
        (hashmap_put_noalloc h k v).1 =
          hashmap_rehash (push_node h (h.hash k % UINT_RANGE % h.max.toNat)
            { key := k, value := v, hash := h.hash k % UINT_RANGE }) (h.max + h.off) ∧
        (hashmap_put_noalloc h k v).1.max = h.max + h.off) ∧
      (h.off < -1 →
        (hashmap_put_noalloc h k v).1 =
          hashmap_rehash (push_node h (h.hash k % UINT_RANGE % h.max.toNat)
            { key := k, value := v, hash := h.hash k % UINT_RANGE }) (h.max * -h.off) ∧
        (hashmap_put_noalloc h k v).1.max = h.max * -h.off) ∧
      (h.off = 0 ∨ h.off = -1 →
        (hashmap_put_noalloc h k v).1 =
          push_node h (h.hash k % UINT_RANGE % h.max.toNat)
            { key := k, value := v, hash := h.hash k % UINT_RANGE } ∧
        (hashmap_put_noalloc h k v).1.max = h.max)) ∧
    (present h k →
      (hashmap_put_noalloc h k v).1.max = h.max ∧
      (hashmap_put_noalloc h k v).1.entry.length = h.entry.length) ∧
    (¬ present h k → h.cur + 1 < h.threshold →
      (hashmap_put_noalloc h k v).1 =
        push_node h (h.hash k % UINT_RANGE % h.max.toNat)
          { key := k, value := v, hash := h.hash k % UINT_RANGE } ∧
      (hashmap_put_noalloc h k v).1.max = h.max) := by
  have hcur : (push_node h (h.hash k % UINT_RANGE % h.max.toNat)
      { key := k, value := v, hash := h.hash k % UINT_RANGE }).cur ≠ 0 := by
    show h.cur + 1 ≠ 0
    have := hw.1.2.2
    omega
  refine ⟨?_, ?_, ?_⟩
  · intro hnew hth
    have hf := find_none_of_absent h L k hnew
    refine ⟨?_, ?_, ?_⟩
    · intro h1
      have heq : (hashmap_put_noalloc h k v).1 =
          hashmap_rehash (push_node h (h.hash k % UINT_RANGE % h.max.toNat)
            { key := k, value := v, hash := h.hash k % UINT_RANGE }) (h.max + h.off) := by
        rw [put_eq_new h k v hf, if_pos hth, if_pos h1]
      exact ⟨heq, by rw [heq]; exact rehash_max _ _ hcur⟩
    · intro h2
      have h1 : ¬ h.off > 0 := by omega
      have heq : (hashmap_put_noalloc h k v).1 =
          hashmap_rehash (push_node h (h.hash k % UINT_RANGE % h.max.toNat)
            { key := k, value := v, hash := h.hash k % UINT_RANGE }) (h.max * -h.off) := by
        rw [put_eq_new h k v hf, if_pos hth, if_neg h1, if_pos h2]
      exact ⟨heq, by rw [heq]; exact rehash_max _ _ hcur⟩
    · intro h3
      have h1 : ¬ h.off > 0 := by omega
      have h2 : ¬ h.off < -1 := by omega
      have heq : (hashmap_put_noalloc h k v).1 =
          push_node h (h.hash k % UINT_RANGE % h.max.toNat)
            { key := k, value := v, hash := h.hash k % UINT_RANGE } := by
        rw [put_eq_new h k v hf, if_pos hth, if_neg h1, if_neg h2]
      exact ⟨heq, by rw [heq]; rfl⟩
  · intro hp
    obtain ⟨p1, _, _, _, _, _, p7, _⟩ := put_spec h L hw k v
    refine ⟨(p7 hp).2.2, ?_⟩
    rw [p1.1.2.1, (p7 hp).2.2, hw.1.2.1]
  · intro hnew hth
    have hf := find_none_of_absent h L k hnew
    have hth2 : ¬ h.cur + 1 ≥ h.threshold := by omega
    have heq : (hashmap_put_noalloc h k v).1 =
        push_node h (h.hash k % UINT_RANGE % h.max.toNat)
          { key := k, value := v, hash := h.hash k % UINT_RANGE } := by
      rw [put_eq_new h k v hf, if_neg hth2]
    exact ⟨heq, by rw [heq]; rfl⟩

theorem C11_growth_policy_witness :
    KeyLaws table_two.hash table_two.cmp ∧ WellFormed table_two ∧ ¬ present table_two 9 ∧
    table_two.cur + 1 ≥ table_two.threshold ∧ table_two.off < -1 ∧
    (hashmap_put_noalloc table_two 9 13).1.max = 8 ∧
    (hashmap_put_noalloc table_two 5 14).1.max = 4 :=
  ⟨laws_id, wf_table_two, by decide, by decide, by decide,
    (((C11_growth_policy table_two laws_id wf_table_two 9 13).1 (by decide) (by decide)).2.1
      (by decide)).2,
    ((C11_growth_policy table_two laws_id wf_table_two 5 14).2.1 (by decide)).1⟩

/-- C12. The scenario of the specification: capacity 4, doubling growth, identity
hash.  After `put(1, a)` and `put(5, b)` both entries are in bucket 1, the size is
2 and the two gets return `a` and `b`; after `put(9, c)` the size is 3, the
capacity is 8 (the threshold 3 of capacity 4 was reached), the three gets return
`a`, `b`, `c`, and the keys 1, 5, 9 lie in the buckets 1, 5, 1. -/
theorem C12_scenario :
    table_two =
      (hashmap_put_noalloc (hashmap_put_noalloc (hashmap_create 4 (-2) hash_id cmp_id)
        1 11).1 5 12).1 ∧
    table_three = (hashmap_put_noalloc table_two 9 13).1 ∧
    (hashmap_create 4 (-2) hash_id cmp_id).threshold = 3 ∧
    table_two.entry.getD 1 [] =
      [{ key := 5, value := 12, hash := 5 }, { key := 1, value := 11, hash := 1 }] ∧
    hashmap_size (some table_two) = 2 ∧ table_two.max = 4 ∧
    hashmap_get table_two 1 = 11 ∧ hashmap_get table_two 5 = 12 ∧
    hashmap_size (some table_three) = 3 ∧ table_three.max = 8 ∧
    hashmap_get table_three 1 = 11 ∧ hashmap_get table_three 5 = 12 ∧
    hashmap_get table_three 9 = 13 ∧
    ({ key := 1, value := 11, hash := 1 } : ENTRY) ∈ table_three.entry.getD 1 [] ∧
    ({ key := 5, value := 12, hash := 5 } : ENTRY) ∈ table_three.entry.getD 5 [] ∧
    ({ key := 9, value := 13, hash := 9 } : ENTRY) ∈ table_three.entry.getD 1 [] ∧
    live table_three =
      [{ key := 1, value := 11, hash := 1 }, { key := 9, value := 13, hash := 9 },
       { key := 5, value := 12, hash := 5 }] :=
  ⟨rfl, rfl, by decide⟩

/-! ## The setters -/

/-- C14. Placement and hash cache.  In every table reachable from
`hashmap_create` with positive capacity through the public operations, every
live entry caches the current hash of its key and lies in the chain of the
bucket `cached hash mod capacity`, an index below the capacity. -/
theorem C14_placement_invariant (h : HASHMAP) (hr : Reachable h) :
    (∀ e ∈ live h,
      e.hash = h.hash e.key % UINT_RANGE ∧
      e ∈ h.entry.getD (e.hash % h.max.toNat) [] ∧
      e.hash % h.max.toNat < h.entry.length ∧
      ((e.hash % h.max.toNat : Nat) : Int) < h.max) ∧
    (∀ i, i < h.entry.length → ∀ e ∈ h.entry.getD i [],
      e.hash = h.hash e.key % UINT_RANGE ∧ e.hash % h.max.toNat = i) ∧
    h.entry.length = h.max.toNat := by
  obtain ⟨hs, hp⟩ := reachable_placed h hr
  refine ⟨?_, hp, hs.2.1⟩
  intro e he
  obtain ⟨i, hi, hei⟩ := bucket_of_mem_flatten h.entry e he
  obtain ⟨h1, h2⟩ := hp i hi e hei
  refine ⟨h1, by rw [h2]; exact hei, by rw [h2]; exact hi, ?_⟩
  rw [h2]
  have := hs.2.1
  have := hs.1
  omega

theorem C14_placement_invariant_witness :
    Reachable table_three ∧
    (∀ e ∈ live table_three,
      e.hash = table_three.hash e.key % UINT_RANGE ∧
      e ∈ table_three.entry.getD (e.hash % table_three.max.toNat) [] ∧
      e.hash % table_three.max.toNat < table_three.entry.length ∧
      ((e.hash % table_three.max.toNat : Nat) : Int) < table_three.max) :=
  ⟨Reachable.put_noalloc _ 9 13 reachable_table_two,
    (C14_placement_invariant table_three
      (Reachable.put_noalloc _ 9 13 reachable_table_two)).1⟩

/-- C15. Count.  In every table reachable from `hashmap_create` through the
public operations, the count is the total number of nodes in the bucket chains;
so it never exceeds what the chains hold, and a count of 0 means that every
bucket is empty.  With it, the count-driven loops of rehash, clear and browse
pass over every live entry. -/
theorem C15_count_invariant (h : HASHMAP) (hr : Reachable h) :
    hashmap_size (some h) = ((h.entry.map List.length).sum : Nat) ∧
    h.cur = ((live h).length : Nat) ∧
    h.cur ≤ ((live h).length : Nat) ∧
    (h.cur = 0 → ∀ i, h.entry.getD i [] = []) ∧
    (∀ nm, rehash_loop h nm =
      rehash_chain h.hash nm (live h) (List.replicate nm.toNat [], h.cur)) ∧
    (clear_loop h).entry = List.replicate h.max.toNat [] ∧
    (∀ visitor, browse_loop h visitor =
      browse_chain visitor (live h) { ret := 0, cur := h.cur, calls := [] }) := by
  obtain ⟨hs, _⟩ := reachable_placed h hr
  refine ⟨?_, hs.2.2, le_of_eq hs.2.2, ?_, fun nm => rehash_loop_eq h nm hs.2.1 hs.2.2,
    (clear_loop_spec h hs.2.1 hs.2.2).1, fun v => browse_loop_eq h v hs.2.1 hs.2.2⟩
  · show h.cur = _
    rw [hs.2.2]
    unfold live
    rw [List.length_flatten]
  · intro h0 i
    have hl := live_nil_of_cur h hs h0
    apply List.eq_nil_iff_forall_not_mem.mpr
    intro e he
    have := mem_flatten_of_bucket _ i e he
    unfold live at hl
    rw [hl] at this
    simp at this

theorem C15_count_invariant_witness :
    Reachable table_three ∧ hashmap_size (some table_three) = ((3 : Nat) : Int) :=
  ⟨Reachable.put_noalloc _ 9 13 reachable_table_two,
    (C15_count_invariant table_three (Reachable.put_noalloc _ 9 13 reachable_table_two)).1⟩

theorem rehash_max_cases (h : HASHMAP) (nm : Int) :
    (hashmap_rehash h nm).max = nm ∨ (hashmap_rehash h nm).max = h.max := by
  unfold hashmap_rehash
  by_cases hc : h.cur ≠ 0
  · rw [if_pos hc]; exact Or.inl rfl
  · rw [if_neg hc]; exact Or.inr rfl

theorem put_max_le (h : HASHMAP) (hs : wf_shape h) (hp : wf_placed h) (k v : Ptr) :
    h.max ≤ (hashmap_put_noalloc h k v).1.max := by
  cases hf : hashmap_find_entry h k (h.hash k % UINT_RANGE)
      (h.hash k % UINT_RANGE % h.max.toNat) with
  | some i =>
    obtain ⟨pre, e, post, _, _, _, _, heq, _, _⟩ := put_found_placed h hs hp k v i hf
    rw [heq]
  | none =>
    rw [put_eq_new h k v hf]
    have hmax := hs.1
    split_ifs with h1 h2 h3
    · rcases rehash_max_cases (push_node h (h.hash k % UINT_RANGE % h.max.toNat)
        { key := k, value := v, hash := h.hash k % UINT_RANGE }) (h.max + h.off) with h4 | h4
      · show h.max ≤ (hashmap_rehash _ _).max
        rw [h4]; omega
      · show h.max ≤ (hashmap_rehash _ _).max
        rw [h4]; exact le_refl _
    · rcases rehash_max_cases (push_node h (h.hash k % UINT_RANGE % h.max.toNat)
        { key := k, value := v, hash := h.hash k % UINT_RANGE }) (h.max * -h.off) with h4 | h4
      · show h.max ≤ (hashmap_rehash _ _).max
        rw [h4]; nlinarith
      · show h.max ≤ (hashmap_rehash _ _).max
        rw [h4]; exact le_refl _
    · exact le_refl _
    · exact le_refl _

/-- C16. Capacity never shrinks.  On a well-formed table, after every public
operation the capacity is at least the capacity before it; remove, clear, the
replacement of the hash or comparison function and the change of the load factor
leave it exactly unchanged. -/
theorem C16_capacity_monotone (h : HASHMAP) (hw : WellFormed h) :
    (∀ k v, h.max ≤ (hashmap_put_noalloc h k v).1.max) ∧
    (∀ m order k keysize v valuesize,
      h.max ≤ (hashmap_put m order h k keysize v valuesize).2.1.max) ∧
    (∀ m k keysize, h.max ≤ (hashmap_put_ident m h k keysize).2.1.max) ∧
    (∀ k, h.max ≤ (hashmap_put_ident_noalloc h k).1.max) ∧
    (∀ k, (hashmap_remove (some h) k).map HASHMAP.max = some h.max) ∧
    (∀ k, (hashmap_remove_nofree (some h) k).map HASHMAP.max = some h.max) ∧
    (hashmap_clear (some h)).map HASHMAP.max = some h.max ∧
    (∀ hash2, (hashmap_sethashfunc (some h) hash2).map HASHMAP.max = some h.max) ∧
    (∀ cmp2, (hashmap_setcmpfunc (some h) cmp2).map HASHMAP.max = some h.max) ∧
    (∀ f, (hashmap_setloadfactor (some h) f).map HASHMAP.max = some h.max) := by
  have hput := put_max_le h hw.1 hw.2.1
  have hrem : ∀ k fk, (hashmap_remove_entry h k fk).max = h.max := by
    intro k fk
    cases hf : remove_loop h.cmp k (h.hash k % UINT_RANGE)
        (h.entry.getD (h.hash k % UINT_RANGE % h.max.toNat) []) with
    | none => rw [remove_eq_none h k fk hf]
    | some r => rw [remove_eq_some h k fk r hf]
  refine ⟨hput, fun m order k keysize v valuesize => hput _ _, fun m k keysize => hput _ _,
    fun k => hput k k, ?_, ?_, ?_, ?_, fun _ => rfl, fun _ => rfl⟩
  · intro k
    show some (hashmap_remove_entry h k 1).max = some h.max
    rw [hrem]
  · intro k
    show some (hashmap_remove_entry h k 0).max = some h.max
    rw [hrem]
  · rw [clear_spec h hw.1]
    rfl
  · intro hash2
    show some (hashmap_rehash { h with hash := hash2 } h.max).max = some h.max
    rcases rehash_max_cases { h with hash := hash2 } h.max with h4 | h4 <;> rw [h4]

theorem C16_capacity_monotone_witness :
    WellFormed table_two ∧ table_two.max ≤ (hashmap_put_noalloc table_two 9 13).1.max ∧
    (hashmap_remove (some table_two) 5).map HASHMAP.max = some table_two.max :=
  ⟨wf_table_two, (C16_capacity_monotone table_two wf_table_two).1 9 13,
    (C16_capacity_monotone table_two wf_table_two).2.2.2.2.1 5⟩

/-! ## Releases -/

theorem xfree_eq (log : List Ptr) (p : Ptr) :
    xfree log p = log ++ (if p = NULL then [] else [p]) := by
  unfold xfree
  by_cases hp : p = NULL
  · simp [hp]
  · simp [hp]

theorem remove_free_owned (e : ENTRY) (log : List Ptr) :
    remove_free e 1 log = log ++ owned_blocks e := by
  unfold remove_free owned_blocks
  rw [if_pos (by decide)]
  by_cases hi : e.key = e.value
  · rw [if_pos hi, if_pos hi, xfree_eq]
    by_cases hk : e.key = NULL
    · simp [hk]
    · simp [hk]
  · rw [if_neg hi, if_neg hi, xfree_eq, xfree_eq]
    by_cases hk : e.key = NULL <;> by_cases hv : e.value = NULL <;> simp [hk, hv]

theorem remove_free_none (e : ENTRY) (log : List Ptr) : remove_free e 0 log = log := by
  unfold remove_free
  rw [if_neg (by decide)]

theorem clear_free_owned (e : ENTRY) (log : List Ptr) :
    ∃ rel, clear_free log e = log ++ rel ∧ rel.Perm (owned_blocks e) := by
  unfold clear_free owned_blocks
  by_cases hi : e.value = e.key
  · rw [if_pos hi, if_pos hi.symm, xfree_eq]
    refine ⟨_, rfl, ?_⟩
    by_cases hk : e.key = NULL
    · simp [hk, hi]
    · simp [hk, hi]
  · have hi2 : ¬ e.key = e.value := fun h => hi h.symm
    rw [if_neg hi, if_neg hi2, xfree_eq, xfree_eq, List.append_assoc]
    refine ⟨_, rfl, ?_⟩
    by_cases hk : e.key = NULL <;> by_cases hv : e.value = NULL
    · simp [hk, hv]
    · simp [hk, hv]
    · simp [hk, hv]
    · have hf : List.filter (fun p => decide (p ≠ NULL)) [e.key, e.value] = [e.key, e.value] := by
        simp [hk, hv]
      rw [hf]
      simp only [hk, hv, if_false, List.cons_append, List.nil_append]
      exact List.Perm.swap _ _ _

theorem clear_fold_owned (l : List ENTRY) :
    ∀ log : List Ptr, ∃ rel, l.foldl clear_free log = log ++ rel ∧
      rel.Perm (l.flatMap owned_blocks) := by
  induction l with
  | nil => intro log; exact ⟨[], by simp, by simp⟩
  | cons e l ih =>
    intro log
    obtain ⟨r1, h1, p1⟩ := clear_free_owned e log
    obtain ⟨r2, h2, p2⟩ := ih (clear_free log e)
    refine ⟨r1 ++ r2, ?_, ?_⟩
    · rw [List.foldl_cons, h2, h1, List.append_assoc]
    · rw [List.flatMap_cons]
      exact List.Perm.append p1 p2

/-- C17. The releases of an entry.  With `xfree` recorded in the log of released
blocks: `hashmap_remove` releases, for the entry it removes, the one shared block
of an identity entry once, and the key block and the value block of another
entry once each; `hashmap_clear` releases exactly that for every live entry;
`hashmap_remove_nofree` releases nothing. -/
theorem C17_single_free (h : HASHMAP) (L : KeyLaws h.hash h.cmp) (hw : WellFormed h)
    (k : Ptr) :
    (∀ e ∈ live h, h.cmp k e.key = 0 →
      (hashmap_remove (some h) k).map HASHMAP.freed = some (h.freed ++ owned_blocks e) ∧
      (hashmap_remove_nofree (some h) k).map HASHMAP.freed = some h.freed) ∧
    (¬ present h k →
      (hashmap_remove (some h) k).map HASHMAP.freed = some h.freed ∧
      (hashmap_remove_nofree (some h) k).map HASHMAP.freed = some h.freed) ∧
    (∃ rel, (hashmap_clear (some h)).map HASHMAP.freed = some (h.freed ++ rel) ∧
      rel.Perm ((live h).flatMap owned_blocks)) ∧
    (∀ e : ENTRY, e.key = e.value → e.key ≠ NULL → owned_blocks e = [e.key]) ∧
    (∀ e : ENTRY, e.key ≠ e.value → e.key ≠ NULL → e.value ≠ NULL →
      owned_blocks e = [e.key, e.value]) := by
  refine ⟨?_, ?_, ?_, ?_, ?_⟩
  · intro e he hc
    have key : ∀ fk, (hashmap_remove_entry h k fk).freed = remove_free e fk h.freed := by
      intro fk
      obtain ⟨_, _, _, _, _, _, _, a1, _⟩ := remove_spec h L hw k fk
      obtain ⟨_, e2, hc2, hperm, hfr⟩ := a1 ⟨e, he, hc⟩
      have he2 : e2 ∈ live h := hperm.mem_iff.mpr (List.mem_cons_self _ _)
      rw [hfr, unique_of_cmp h L hw.2.2 k e2 e he2 he hc2 hc]
    constructor
    · show some (hashmap_remove_entry h k 1).freed = _
      rw [key, remove_free_owned]
    · show some (hashmap_remove_entry h k 0).freed = _
      rw [key, remove_free_none]
  · intro ha
    have key : ∀ fk, hashmap_remove_entry h k fk = h := by
      intro fk
      obtain ⟨_, _, _, _, _, _, _, _, a2⟩ := remove_spec h L hw k fk
      exact a2 ha
    constructor
    · show some (hashmap_remove_entry h k 1).freed = _
      rw [key]
    · show some (hashmap_remove_entry h k 0).freed = _
      rw [key]
  · obtain ⟨rel, h1, h2⟩ := clear_fold_owned (live h) h.freed
    refine ⟨rel, ?_, h2⟩
    rw [clear_spec h hw.1]
    show some ((live h).foldl clear_free h.freed) = _
    rw [h1]
  · intro e hi hk
    unfold owned_blocks
    rw [if_pos hi]
    simp [hk]
  · intro e hi hk hv
    unfold owned_blocks
    rw [if_neg hi]
    simp [hk, hv]

theorem C17_single_free_witness :
    KeyLaws table_mixed.hash table_mixed.cmp ∧ WellFormed table_mixed ∧
    (hashmap_remove (some table_mixed) 6).map HASHMAP.freed = some [6] ∧
    (hashmap_remove_nofree (some table_mixed) 6).map HASHMAP.freed = some [] ∧
    (hashmap_remove (some table_mixed) 1).map HASHMAP.freed = some [1, 11] :=
  ⟨laws_id, by decide,
    ((C17_single_free table_mixed laws_id (by decide) 6).1
      { key := 6, value := 6, hash := 6 } (by decide) (by decide)).1,
    ((C17_single_free table_mixed laws_id (by decide) 6).1
      { key := 6, value := 6, hash := 6 } (by decide) (by decide)).2,
    ((C17_single_free table_mixed laws_id (by decide) 1).1
      { key := 1, value := 11, hash := 1 } (by decide) (by decide)).1⟩

/-! ## Uniqueness of keys, and removal -/

/-- C18. Uniqueness of keys.  In every table reachable from `hashmap_create`
through the put and remove variants, clear, `hashmap_setloadfactor` and
`hashmap_sethashfunc`, with `cmp` a fixed equivalence and every hash function in
use giving equal hashes to keys that compare equal, no two distinct live entries
have keys that compare equal. -/
theorem C18_key_uniqueness (cmp : Ptr → Ptr → Int) (h : HASHMAP)
    (hr : LawfulReachable cmp h) :
    (live h).Pairwise (fun a b => cmp a.key b.key ≠ 0) ∧
    ∀ (i j : Nat) (hi : i < (live h).length) (hj : j < (live h).length), i ≠ j →
      cmp ((live h).get ⟨i, hi⟩).key ((live h).get ⟨j, hj⟩).key ≠ 0 := by
  obtain ⟨hw, L, hc⟩ := lawful_reachable_wf cmp h hr
  have hu : (live h).Pairwise (fun a b => cmp a.key b.key ≠ 0) := by
    have := hw.2.2
    unfold wf_unique keys_differ at this
    rw [hc] at this
    exact this
  refine ⟨hu, ?_⟩
  intro i j hi hj hij
  have hget := List.pairwise_iff_getElem.mp hu
  rcases Nat.lt_or_gt_of_ne hij with hlt | hgt
  · exact hget i j hi hj hlt
  · intro h0
    rw [← hc] at h0
    have h1 := L.symm _ _ h0
    rw [hc] at h1
    exact hget j i hj hi hgt h1

theorem C18_key_uniqueness_witness :
    LawfulReachable cmp_id table_two ∧
    (live table_two).Pairwise (fun a b => cmp_id a.key b.key ≠ 0) :=
  ⟨lawful_table_two, (C18_key_uniqueness cmp_id table_two lawful_table_two).1⟩

theorem remove_get (h : HASHMAP) (L : KeyLaws h.hash h.cmp) (hw : WellFormed h)
    (k : Ptr) (fk : Int) :
    hashmap_get (hashmap_remove_entry h k fk) k = NULL ∧
    ∀ k2, h.cmp k2 k ≠ 0 →
      hashmap_get (hashmap_remove_entry h k fk) k2 = hashmap_get h k2 := by
  obtain ⟨r1, r2, r3, _, _, _, _, a1, a2⟩ := remove_spec h L hw k fk
  by_cases hp : present h k
  · obtain ⟨_, e, hke, hperm, _⟩ := a1 hp
    generalize hashmap_remove_entry h k fk = t at r1 r2 r3 hperm
    have Lt : KeyLaws t.hash t.cmp := by rw [r2, r3]; exact L
    have hsym := keys_differ_symm h.hash h.cmp L
    have hu2 : (e :: live t).Pairwise (keys_differ h.cmp) :=
      (List.Perm.pairwise_iff (fun {x y} hxy => hsym hxy) hperm).mp hw.2.2
    rw [List.pairwise_cons] at hu2
    constructor
    · apply get_of_absent t Lt k
      rintro ⟨x, hx, hc⟩
      rw [r3] at hc
      exact hu2.1 x hx (L.trans _ _ _ (L.symm _ _ hke) hc)
    · intro k2 hne
      by_cases hp2 : present h k2
      · obtain ⟨x, hx, hcx⟩ := hp2
        have hx2 : x ∈ live t := by
          rcases List.mem_cons.mp (hperm.mem_iff.mp hx) with rfl | hx2
          · exact absurd (L.trans _ _ _ hcx (L.symm _ _ hke)) hne
          · exact hx2
        rw [get_of_mem h L hw k2 x hx hcx]
        exact get_of_mem t Lt r1 k2 x hx2 (by rw [r3]; exact hcx)
      · rw [get_of_absent h L k2 hp2]
        apply get_of_absent t Lt k2
        rintro ⟨x, hx, hc⟩
        rw [r3] at hc
        exact hp2 ⟨x, hperm.mem_iff.mpr (List.mem_cons_of_mem _ hx), hc⟩
  · rw [a2 hp]
    exact ⟨get_of_absent h L k hp, fun _ _ => rfl⟩

/-- C19. Remove, then get.  On a well-formed table, after `hashmap_remove(h, k)`
or `hashmap_remove_nofree(h, k)`, `hashmap_get(h, k)` returns `NULL`, and for
every key that does not compare equal to `k` it returns the same value reference
as before the removal. -/
theorem C19_remove_then_get (h : HASHMAP) (L : KeyLaws h.hash h.cmp) (hw : WellFormed h)
    (k : Ptr) :
    (hashmap_remove (some h) k).map (fun t => hashmap_get t k) = some NULL ∧
    (hashmap_remove_nofree (some h) k).map (fun t => hashmap_get t k) = some NULL ∧
    ∀ k2, h.cmp k2 k ≠ 0 →
      (hashmap_remove (some h) k).map (fun t => hashmap_get t k2) =
        some (hashmap_get h k2) ∧
      (hashmap_remove_nofree (some h) k).map (fun t => hashmap_get t k2) =
        some (hashmap_get h k2) := by
  obtain ⟨a1, a2⟩ := remove_get h L hw k 1
  obtain ⟨b1, b2⟩ := remove_get h L hw k 0
  refine ⟨?_, ?_, ?_⟩
  · show some (hashmap_get (hashmap_remove_entry h k 1) k) = some NULL
    rw [a1]
  · show some (hashmap_get (hashmap_remove_entry h k 0) k) = some NULL
    rw [b1]
  · intro k2 hne
    constructor
    · show some (hashmap_get (hashmap_remove_entry h k 1) k2) = _
      rw [a2 k2 hne]
    · show some (hashmap_get (hashmap_remove_entry h k 0) k2) = _
      rw [b2 k2 hne]

theorem C19_remove_then_get_witness :
    KeyLaws table_two.hash table_two.cmp ∧ WellFormed table_two ∧
    hashmap_get table_two 5 = 12 ∧
    (hashmap_remove (some table_two) 5).map (fun t => hashmap_get t 5) = some NULL ∧
    table_two.cmp 1 5 ≠ 0 ∧
    (hashmap_remove (some table_two) 5).map (fun t => hashmap_get t 1) =
      some (hashmap_get table_two 1) :=
  ⟨laws_id, wf_table_two, by decide,
    (C19_remove_then_get table_two laws_id wf_table_two 5).1, by decide,
    ((C19_remove_then_get table_two laws_id wf_table_two 5).2.2 1 (by decide)).1⟩

/-! ## References to released blocks -/

theorem put_update_released (e : ENTRY) (k v : Ptr) (log : List Ptr) :
    ∃ rel, (put_update e k v log).2 = log ++ rel ∧ ∀ p ∈ rel, p = e.key ∨ p = e.value := by
  unfold put_update
  by_cases h1 : e.key = e.value
  · by_cases h2 : e.key ≠ k ∨ e.value ≠ v
    · rw [if_pos h1, if_pos h2]
      refine ⟨_, xfree_eq _ _, ?_⟩
      intro p hp
      by_cases hk : e.key = NULL
      · simp [hk] at hp
      · simp [hk] at hp
        exact Or.inl hp
    · rw [if_pos h1, if_neg h2]
      exact ⟨[], by simp, by simp⟩
  · rw [if_neg h1]
    by_cases h2 : e.key ≠ k <;> by_cases h3 : e.value ≠ v
    · refine ⟨(if e.key = NULL then [] else [e.key]) ++
        (if e.value = NULL then [] else [e.value]), ?_, ?_⟩
      · simp only [if_pos h2, if_pos h3]
        rw [xfree_eq, xfree_eq, List.append_assoc]
      · intro p hp
        by_cases hk : e.key = NULL <;> by_cases hv : e.value = NULL <;>
          simp [hk, hv] at hp <;> tauto
    · refine ⟨if e.key = NULL then [] else [e.key], ?_, ?_⟩
      · simp only [if_pos h2, if_neg h3]
        rw [xfree_eq]
      · intro p hp
        by_cases hk : e.key = NULL <;> simp [hk] at hp
        exact Or.inl hp
    · refine ⟨if e.value = NULL then [] else [e.value], ?_, ?_⟩
      · simp only [if_neg h2, if_pos h3]
        rw [xfree_eq]
      · intro p hp
        by_cases hv : e.value = NULL <;> simp [hv] at hp
        exact Or.inr hp
    · refine ⟨[], ?_, by simp⟩
      simp only [if_neg h2, if_neg h3]
      simp

theorem put_update_fresh_safe (e : ENTRY) (k v : Ptr) (log : List Ptr)
    (hk : k ≠ e.key ∧ k ≠ e.value) (hv : v ≠ e.key ∧ v ≠ e.value) :
    ∃ rel, (put_update e k v log).2 = log ++ rel ∧
      ∀ p ∈ rel, p ≠ (put_update e k v log).1.key ∧ p ≠ (put_update e k v log).1.value := by
  obtain ⟨rel, h1, h2⟩ := put_update_released e k v log
  obtain ⟨hval, _, hkey⟩ := put_update_spec e k v log
  refine ⟨rel, h1, ?_⟩
  intro p hp
  rw [hkey, hval]
  rcases h2 p hp with rfl | rfl
  · exact ⟨fun h => hk.1 h.symm, fun h => hv.1 h.symm⟩
  · exact ⟨fun h => hk.2 h.symm, fun h => hv.2 h.symm⟩

/-- C20, the code at the failing inputs.  An identity entry (key and value are
block 5) is updated by `hashmap_put_noalloc(h, 5, 7)`: block 5 is released and
the entry still has it as its key.  Updated by `hashmap_put_noalloc(h, 21, 5)`,
with a new key that compares equal: block 5 is released and the entry has it as
its value.  The entry of key 5 and value 50 is updated by
`hashmap_put_noalloc(h, 21, 5)`: the old key block 5 is released and becomes the
value. -/
theorem C20_update_leaves_released_block :
    WellFormed table_ident ∧
    live table_ident = [{ key := 5, value := 5, hash := 5 }] ∧
    released_between table_ident (hashmap_put_noalloc table_ident 5 7).1 = [5] ∧
    live (hashmap_put_noalloc table_ident 5 7).1 = [{ key := 5, value := 7, hash := 5 }] ∧
    referenced (hashmap_put_noalloc table_ident 5 7).1 5 ∧
    WellFormed table_low_ident ∧
    live table_low_ident = [{ key := 5, value := 5, hash := 5 }] ∧
    released_between table_low_ident (hashmap_put_noalloc table_low_ident 21 5).1 = [5] ∧
    live (hashmap_put_noalloc table_low_ident 21 5).1 =
      [{ key := 21, value := 5, hash := 5 }] ∧
    referenced (hashmap_put_noalloc table_low_ident 21 5).1 5 ∧
    live table_low = [{ key := 5, value := 50, hash := 5 }] ∧
    released_between table_low (hashmap_put_noalloc table_low 21 5).1 = [5, 50] ∧
    live (hashmap_put_noalloc table_low 21 5).1 = [{ key := 21, value := 5, hash := 5 }] ∧
    referenced (hashmap_put_noalloc table_low 21 5).1 5 := by
  decide

